import Mathlib

/-!
# NodeFlow graph-execution engine: a shallow embedding

This file embeds the core of the NodeFlow graph-execution engine
(`src/engine/TopologicalSort.ts`, `src/engine/ExecutionContext.ts`,
`src/engine/GraphExecutor.ts` — executor and validator — and
`src/engine/ExecutionEngine.ts`) in Lean 4 and proves the specification
claims about it.

Modelling conventions:
* TypeScript `Map` objects become association lists with insertion-order
  iteration; `Map.set` replaces the value of an existing key in place.
* JavaScript truthiness on optional strings (`undefined`/`null`/`""` are
  falsy) is modelled explicitly by `strTruthy` / `jsOrS`.
* `Date.now()` is modelled by an explicit `now : Nat` parameter.
* Asynchronous handler dispatch becomes a total function returning
  `Except`; caller-supplied callbacks become an event trace.
* Loops whose termination is not structural (Kahn's algorithm, the DFS
  of the cycle detector) take an explicit fuel argument; the fuel chosen
  in the top-level wrappers is proved sufficient where theorems need it.
-/

set_option maxHeartbeats 1000000

namespace NodeFlow

/-- JS truthiness of an optional string: `undefined`, `null` and `""` are falsy. -/
def strTruthy : Option String → Bool
  | none => false
  | some s => !(s == "")

/-- JS `a || b` where `a` is an optional string and `b` a string. -/
def jsOrS : Option String → String → String
  | none, b => b
  | some s, b => if s == "" then b else s

/-- An opaque JS value, as produced and consumed by node handlers. -/
inductive Value where
  | vnull
  | vbool (b : Bool)
  | vnum (n : Int)
  | vstr (s : String)
  | vlist (xs : List Value)
  | vobj (fields : List (String × Value))
deriving Repr

/-- A named port, as read from a node's `data.inputs` / `data.outputs`. -/
structure Port where
  name : String
deriving Repr, DecidableEq

/-- The parts of a node's opaque `data` payload that the engine reads:
optional declared input/output port lists. -/
structure NodeData where
  inputs : Option (List Port) := none
  outputs : Option (List Port) := none
deriving Repr, DecidableEq

/-- A graph node (React Flow `Node`): id, optional type tag, opaque data. -/
structure Node where
  id : String
  type : Option String := none
  data : Option NodeData := none
deriving Repr, DecidableEq

/-- A directed edge (React Flow `Edge`): id, endpoints, optional port handles. -/
structure EdgeT where
  id : String := ""
  source : String
  target : String
  sourceHandle : Option String := none
  targetHandle : Option String := none
deriving Repr, DecidableEq

namespace JSMap

/-- `Map.get`: first (unique) binding of the key. -/
def get {α : Type} : List (String × α) → String → Option α
  | [], _ => none
  | (k', v') :: rest, k => if k' = k then some v' else get rest k

/-- `Map.set`: replace the value of an existing key in place, else append. -/
def set {α : Type} : List (String × α) → String → α → List (String × α)
  | [], k, v => [(k, v)]
  | (k', v') :: rest, k, v =>
      if k' = k then (k, v) :: rest else (k', v') :: set rest k v

/-- `Map.get(k) || d`. -/
def getD {α : Type} (m : List (String × α)) (k : String) (d : α) : α :=
  (get m k).getD d

/-- The keys of the map, in insertion order. -/
def keys {α : Type} (m : List (String × α)) : List String :=
  m.map (·.1)

@[simp] theorem get_nil {α : Type} (k : String) : get ([] : List (String × α)) k = none := rfl

@[simp] theorem get_cons {α : Type} (k' k : String) (v' : α) (rest : List (String × α)) :
    get ((k', v') :: rest) k = if k' = k then some v' else get rest k := rfl

@[simp] theorem set_nil {α : Type} (k : String) (v : α) : set ([] : List (String × α)) k v = [(k, v)] := rfl

@[simp] theorem set_cons {α : Type} (k' k : String) (v' v : α) (rest : List (String × α)) :
    set ((k', v') :: rest) k v =
      if k' = k then (k, v) :: rest else (k', v') :: set rest k v := rfl

theorem get_set {α : Type} (m : List (String × α)) (k k' : String) (v : α) :
    get (set m k v) k' = if k = k' then some v else get m k' := by
  induction m with
  | nil =>
      by_cases h : k = k' <;> simp [set, get, h]
  | cons p rest ih =>
      obtain ⟨k₀, v₀⟩ := p
      by_cases h0 : k₀ = k
      · subst h0
        by_cases h : k₀ = k' <;> simp [set, get, h]
      · by_cases h : k₀ = k'
        · subst h
          have hk : ¬k = k₀ := fun h' => h0 h'.symm
          simp [set, get, h0, hk]
        · simp [set, get, h0, h, ih]

theorem keys_set {α : Type} (m : List (String × α)) (k : String) (v : α) :
    keys (set m k v) = if k ∈ keys m then keys m else keys m ++ [k] := by
  induction m with
  | nil => simp [set, keys]
  | cons p rest ih =>
      obtain ⟨k₀, v₀⟩ := p
      by_cases h0 : k₀ = k
      · subst h0
        simp [set, keys]
      · by_cases hk : k ∈ keys rest
        · simp only [set, if_neg h0, keys, List.map_cons] at *
          rw [ih, if_pos hk, if_pos (List.mem_cons_of_mem _ hk)]
        · simp only [set, if_neg h0, keys, List.map_cons] at *
          rw [ih, if_neg hk]
          rw [if_neg (by
            simp only [List.mem_cons]
            rintro (h | h)
            · exact h0 h.symm
            · exact hk h)]
          simp

theorem get_isSome_iff_mem_keys {α : Type} (m : List (String × α)) (k : String) :
    (get m k).isSome = true ↔ k ∈ keys m := by
  induction m with
  | nil => simp [get, keys]
  | cons p rest ih =>
      obtain ⟨k₀, v₀⟩ := p
      by_cases h : k₀ = k <;> simp [get, keys, h, ih]
      exact fun h' => absurd h'.symm h

end JSMap

/-! ## Execution context (`src/engine/ExecutionContext.ts`) -/

/-- A recorded per-node result (`NodeOutput` in `ExecutionContext.ts`). -/
structure NodeOutput where
  nodeId : String
  data : Value
  timestamp : Nat
  error : Option String := none
deriving Repr

/-- A progress snapshot (`ExecutionProgress` in `ExecutionContext.ts`). -/
structure ExecutionProgress where
  currentNodeId : String
  completed : List String
  failed : List String
  remaining : List String
  totalNodes : Nat
deriving Repr

/-- Run-scoped execution state (`ExecutionContext` in `ExecutionContext.ts`). -/
structure ExecutionContext where
  nodes : List Node
  executionOrder : List String
  outputs : List (String × NodeOutput)
  progress : ExecutionProgress
  aborted : Bool
deriving Repr

namespace ExecutionContext

/-- The constructor: fresh progress, `remaining` a copy of the execution order. -/
def init (nodes : List Node) (executionOrder : List String) : ExecutionContext :=
  { nodes := nodes
    executionOrder := executionOrder
    outputs := []
    progress :=
      { currentNodeId := ""
        completed := []
        failed := []
        remaining := executionOrder
        totalNodes := nodes.length }
    aborted := false }

/-- `getNodeOutput`. -/
def getNodeOutput (ctx : ExecutionContext) (nodeId : String) : Option NodeOutput :=
  JSMap.get ctx.outputs nodeId

/-- `remaining.indexOf(nodeId)` followed by `splice(index, 1)`: remove the
first occurrence of `nodeId` if present. -/
def removeFirst : List String → String → List String
  | [], _ => []
  | x :: xs, k => if x = k then xs else x :: removeFirst xs k

/-- `setNodeOutput(nodeId, data, error?)`: record the output, append the id to
`completed` or `failed`, and drop it from `remaining`. -/
def setNodeOutput (ctx : ExecutionContext) (nodeId : String) (data : Value)
    (error : Option String) (now : Nat) : ExecutionContext :=
  let outputs := JSMap.set ctx.outputs nodeId
    { nodeId := nodeId, data := data, timestamp := now, error := error }
  let progress :=
    if error.isSome then
      { ctx.progress with failed := ctx.progress.failed ++ [nodeId] }
    else
      { ctx.progress with completed := ctx.progress.completed ++ [nodeId] }
  let progress := { progress with remaining := removeFirst progress.remaining nodeId }
  { ctx with outputs := outputs, progress := progress }

/-- The key under which an edge's value is delivered:
`edge.targetHandle || edge.sourceHandle || edge.source` (JS truthiness). -/
def portKey (edge : EdgeT) : String :=
  jsOrS edge.targetHandle (jsOrS edge.sourceHandle edge.source)

/-- `getNodeInputs(nodeId, edges)`: one map entry per incoming edge whose
source has a recorded, non-error output. -/
def getNodeInputs (ctx : ExecutionContext) (nodeId : String) (edges : List EdgeT) :
    List (String × Value) :=
  let incomingEdges := edges.filter (fun e => e.target == nodeId)
  incomingEdges.foldl
    (fun inputs edge =>
      match JSMap.get ctx.outputs edge.source with
      | some sourceOutput =>
          if sourceOutput.error.isNone then
            JSMap.set inputs (portKey edge) sourceOutput.data
          else inputs
      | none => inputs)
    []

/-- `setCurrentNode`. -/
def setCurrentNode (ctx : ExecutionContext) (nodeId : String) : ExecutionContext :=
  { ctx with progress := { ctx.progress with currentNodeId := nodeId } }

/-- `getProgress` (a snapshot copy; in the pure model, the record itself). -/
def getProgress (ctx : ExecutionContext) : ExecutionProgress :=
  ctx.progress

/-- `abort()`. -/
def abort (ctx : ExecutionContext) : ExecutionContext :=
  { ctx with aborted := true }

/-- `isAborted()`. -/
def isAborted (ctx : ExecutionContext) : Bool :=
  ctx.aborted

/-- `getAllOutputs()` (a copy of the outputs map). -/
def getAllOutputs (ctx : ExecutionContext) : List (String × NodeOutput) :=
  ctx.outputs

/-- `clear()`: reset all per-pass state to the initial one. -/
def clear (ctx : ExecutionContext) : ExecutionContext :=
  { ctx with
    outputs := []
    progress :=
      { currentNodeId := ""
        completed := []
        failed := []
        remaining := ctx.executionOrder
        totalNodes := ctx.nodes.length }
    aborted := false }

end ExecutionContext

/-- One `setNodeOutput` call, for reasoning about call sequences. -/
structure SetCall where
  id : String
  data : Value
  error : Option String := none
  now : Nat := 0

/-- Apply a sequence of `setNodeOutput` calls to a context. -/
def applyCalls : ExecutionContext → List SetCall → ExecutionContext
  | ctx, [] => ctx
  | ctx, c :: cs => applyCalls (ctx.setNodeOutput c.id c.data c.error c.now) cs

namespace ExecutionContext

/-- A source output is usable as an input iff recorded without an error. -/
def goodSource (ctx : ExecutionContext) (srcId : String) : Prop :=
  ∃ o, JSMap.get ctx.outputs srcId = some o ∧ o.error = none

theorem getNodeInputs_fold_isSome (ctx : ExecutionContext) (es : List EdgeT)
    (acc : List (String × Value)) (k : String) :
    (JSMap.get
      (es.foldl
        (fun inputs edge =>
          match JSMap.get ctx.outputs edge.source with
          | some sourceOutput =>
              if sourceOutput.error.isNone then
                JSMap.set inputs (portKey edge) sourceOutput.data
              else inputs
          | none => inputs)
        acc) k).isSome = true ↔
    ((JSMap.get acc k).isSome = true ∨
      ∃ e ∈ es, portKey e = k ∧ goodSource ctx e.source) := by
  induction es generalizing acc with
  | nil => simp
  | cons e es ih =>
      simp only [List.foldl_cons]
      rcases hsrc : JSMap.get ctx.outputs e.source with _ | o
      · rw [ih]
        constructor
        · rintro (h | ⟨e', he', hk, hg⟩)
          · exact Or.inl h
          · exact Or.inr ⟨e', List.mem_cons_of_mem _ he', hk, hg⟩
        · rintro (h | ⟨e', he', hk, hg⟩)
          · exact Or.inl h
          · rcases List.mem_cons.mp he' with rfl | he''
            · rcases hg with ⟨o, ho, _⟩
              rw [hsrc] at ho
              exact absurd ho (by simp)
            · exact Or.inr ⟨e', he'', hk, hg⟩
      · rcases herr : o.error with _ | msg
        · simp only [herr, Option.isNone_none, if_true]
          rw [ih]
          constructor
          · rintro (h | ⟨e', he', hk, hg⟩)
            · rw [JSMap.get_set] at h
              by_cases hpk : portKey e = k
              · exact Or.inr ⟨e, List.mem_cons_self e es, hpk, o, hsrc, herr⟩
              · rw [if_neg hpk] at h
                exact Or.inl h
            · exact Or.inr ⟨e', List.mem_cons_of_mem _ he', hk, hg⟩
          · rintro (h | ⟨e', he', hk, hg⟩)
            · rw [JSMap.get_set]
              by_cases hpk : portKey e = k
              · simp [hpk]
              · rw [if_neg hpk]
                exact Or.inl h
            · rcases List.mem_cons.mp he' with rfl | he''
              · rw [JSMap.get_set]
                subst hk
                exact Or.inl (by simp)
              · exact Or.inr ⟨e', he'', hk, hg⟩
        · simp only [herr, Option.isNone_some, if_false]
          rw [ih]
          constructor
          · rintro (h | ⟨e', he', hk, hg⟩)
            · exact Or.inl h
            · exact Or.inr ⟨e', List.mem_cons_of_mem _ he', hk, hg⟩
          · rintro (h | ⟨e', he', hk, hg⟩)
            · exact Or.inl h
            · rcases List.mem_cons.mp he' with rfl | he''
              · rcases hg with ⟨o', ho', herr'⟩
                rw [hsrc] at ho'
                cases Option.some.inj ho'
                rw [herr] at herr'
                exact absurd herr' (by simp)
              · exact Or.inr ⟨e', he'', hk, hg⟩

theorem removeFirst_eq_filter (l : List String) (k : String) (h : l.Nodup) :
    removeFirst l k = l.filter (fun x => !(x == k)) := by
  induction l with
  | nil => rfl
  | cons x xs ih =>
      rcases List.nodup_cons.mp h with ⟨hx, hxs⟩
      by_cases hxk : x = k
      · subst hxk
        simp only [removeFirst, if_pos rfl, List.filter_cons]
        rw [show (!(x == x)) = false by simp]
        simp only [Bool.false_eq_true, if_false]
        exact ((List.filter_eq_self).mpr (fun a ha => by
          simp only [Bool.not_eq_eq_eq_not, Bool.not_true, beq_eq_false_iff_ne, ne_eq]
          rintro rfl
          exact hx ha)).symm
      · simp only [removeFirst, if_neg hxk, List.filter_cons]
        rw [show (!(x == k)) = true by simp [hxk]]
        simp only [if_true]
        rw [ih hxs]

theorem getNodeInputs_isSome_iff (ctx : ExecutionContext) (nodeId : String)
    (edges : List EdgeT) (k : String) :
    (JSMap.get (ctx.getNodeInputs nodeId edges) k).isSome = true ↔
    ∃ e ∈ edges, e.target = nodeId ∧ portKey e = k ∧ goodSource ctx e.source := by
  unfold getNodeInputs
  rw [getNodeInputs_fold_isSome]
  simp only [JSMap.get_nil, Option.isSome_none, Bool.false_eq_true, false_or]
  constructor
  · rintro ⟨e, he, hk, hg⟩
    rcases List.mem_filter.mp he with ⟨hmem, htgt⟩
    exact ⟨e, hmem, by simpa using htgt, hk, hg⟩
  · rintro ⟨e, he, htgt, hk, hg⟩
    exact ⟨e, List.mem_filter.mpr ⟨he, by simpa using htgt⟩, hk, hg⟩

end ExecutionContext

/--
C7: For every node id and edge list, `getNodeInputs` returns a mapping
containing an entry for an incoming edge exactly when the edge's source has a
recorded output without an error (a failed upstream node yields a missing, not
null, entry); the entry's key is the edge's `targetHandle` if present and
non-empty, else its `sourceHandle` if present and non-empty, else the raw
source node id (`portKey`, which models the JS expression
`edge.targetHandle || edge.sourceHandle || edge.source`).
-/
theorem claim_C7 (ctx : ExecutionContext) (nodeId : String) (edges : List EdgeT)
    (k : String) :
    (JSMap.get (ctx.getNodeInputs nodeId edges) k).isSome = true ↔
    ∃ e ∈ edges, e.target = nodeId ∧ ExecutionContext.portKey e = k ∧
      ExecutionContext.goodSource ctx e.source :=
  ExecutionContext.getNodeInputs_isSome_iff ctx nodeId edges k

/--
C7 counterexample to the claim as stated: an incoming edge whose
`targetHandle` is present (the empty string) and whose `sourceHandle` is
`"s"`. The claim's key rule ("targetHandle if present") demands the entry be
keyed `""`, but the code's `||` chain treats `""` as falsy and keys the entry
`"s"` instead.
-/
theorem claim_C7_counterexample :
    (({ id := "e1", source := "a", target := "b", sourceHandle := some "s",
        targetHandle := some "" } : EdgeT).targetHandle = some "") ∧
    JSMap.get
      (((ExecutionContext.init
          [{ id := "a", type := some "t" }, { id := "b", type := some "t" }]
          ["a", "b"]).setNodeOutput "a" (Value.vstr "x") none 0).getNodeInputs "b"
        [{ id := "e1", source := "a", target := "b", sourceHandle := some "s",
           targetHandle := some "" }]) "" = none ∧
    JSMap.get
      (((ExecutionContext.init
          [{ id := "a", type := some "t" }, { id := "b", type := some "t" }]
          ["a", "b"]).setNodeOutput "a" (Value.vstr "x") none 0).getNodeInputs "b"
        [{ id := "e1", source := "a", target := "b", sourceHandle := some "s",
           targetHandle := some "" }]) "s" = some (Value.vstr "x") :=
  ⟨rfl, rfl, rfl⟩

/-- The ids already recorded by `setNodeOutput`, in recording order per list. -/
def processedOf (ctx : ExecutionContext) : List String :=
  ctx.progress.completed ++ ctx.progress.failed

/-- The state invariant maintained by `setNodeOutput` over a context built by
`ExecutionContext.init`. -/
structure CtxInv (nodes : List Node) (order : List String) (ctx : ExecutionContext) : Prop where
  nodes_eq : ctx.nodes = nodes
  order_eq : ctx.executionOrder = order
  total_eq : ctx.progress.totalNodes = nodes.length
  proc_nodup : (processedOf ctx).Nodup
  proc_sub : ∀ x ∈ processedOf ctx, x ∈ order
  remaining_eq : ctx.progress.remaining =
    order.filter (fun x => decide (x ∉ processedOf ctx))

theorem ctxInv_init (nodes : List Node) (order : List String) :
    CtxInv nodes order (ExecutionContext.init nodes order) := by
  refine ⟨rfl, rfl, rfl, ?_, ?_, ?_⟩
  · simp [processedOf, ExecutionContext.init]
  · simp [processedOf, ExecutionContext.init]
  · simp [processedOf, ExecutionContext.init]

theorem setNodeOutput_nodes (ctx : ExecutionContext) (id : String) (d : Value)
    (e : Option String) (n : Nat) : (ctx.setNodeOutput id d e n).nodes = ctx.nodes := rfl

theorem setNodeOutput_order (ctx : ExecutionContext) (id : String) (d : Value)
    (e : Option String) (n : Nat) :
    (ctx.setNodeOutput id d e n).executionOrder = ctx.executionOrder := rfl

theorem setNodeOutput_total (ctx : ExecutionContext) (id : String) (d : Value)
    (e : Option String) (n : Nat) :
    (ctx.setNodeOutput id d e n).progress.totalNodes = ctx.progress.totalNodes := by
  rcases e with _ | msg <;> rfl

theorem setNodeOutput_remaining (ctx : ExecutionContext) (id : String) (d : Value)
    (e : Option String) (n : Nat) :
    (ctx.setNodeOutput id d e n).progress.remaining =
      ExecutionContext.removeFirst ctx.progress.remaining id := by
  rcases e with _ | msg <;> rfl

theorem processedOf_setNodeOutput_none (ctx : ExecutionContext) (id : String)
    (d : Value) (n : Nat) :
    processedOf (ctx.setNodeOutput id d none n) =
      (ctx.progress.completed ++ [id]) ++ ctx.progress.failed := rfl

theorem processedOf_setNodeOutput_some (ctx : ExecutionContext) (id : String)
    (d : Value) (msg : String) (n : Nat) :
    processedOf (ctx.setNodeOutput id d (some msg) n) =
      ctx.progress.completed ++ (ctx.progress.failed ++ [id]) := rfl

theorem processedOf_setNodeOutput_perm (ctx : ExecutionContext) (id : String)
    (d : Value) (e : Option String) (n : Nat) :
    List.Perm (processedOf (ctx.setNodeOutput id d e n)) (processedOf ctx ++ [id]) := by
  rcases e with _ | msg
  · rw [processedOf_setNodeOutput_none]
    unfold processedOf
    refine List.Perm.trans (List.perm_append_comm.append_right _) ?_
    rw [List.append_assoc]
    exact List.perm_append_comm
  · rw [processedOf_setNodeOutput_some]
    unfold processedOf
    rw [List.append_assoc]

theorem ctxInv_setNodeOutput (nodes : List Node) (order : List String)
    (ctx : ExecutionContext) (inv : CtxInv nodes order ctx) (hord : order.Nodup)
    (id : String) (data : Value) (err : Option String) (now : Nat)
    (hmem : id ∈ order) (hnew : id ∉ processedOf ctx) :
    CtxInv nodes order (ctx.setNodeOutput id data err now) ∧
    ∀ x, x ∈ processedOf (ctx.setNodeOutput id data err now) ↔
      (x ∈ processedOf ctx ∨ x = id) := by
  have hperm := processedOf_setNodeOutput_perm ctx id data err now
  have hproc : ∀ x, x ∈ processedOf (ctx.setNodeOutput id data err now) ↔
      (x ∈ processedOf ctx ∨ x = id) := by
    intro x
    rw [hperm.mem_iff]
    simp [List.mem_append]
  have hprocnd : (processedOf (ctx.setNodeOutput id data err now)).Nodup := by
    refine hperm.nodup_iff.mpr ?_
    rw [List.nodup_append]
    exact ⟨inv.proc_nodup, List.nodup_singleton id,
      by intro a ha hb; simp at hb; subst hb; exact hnew ha⟩
  have hrem : (ctx.setNodeOutput id data err now).progress.remaining =
      order.filter (fun x => decide (x ∉ processedOf (ctx.setNodeOutput id data err now))) := by
    rw [setNodeOutput_remaining, ExecutionContext.removeFirst_eq_filter _ _
      (by rw [inv.remaining_eq]; exact hord.filter _)]
    rw [inv.remaining_eq, List.filter_filter]
    refine List.filter_congr ?_
    intro a _
    by_cases h1 : a ∈ processedOf ctx
    · have h2 : a ∈ processedOf (ctx.setNodeOutput id data err now) :=
        (hproc a).mpr (Or.inl h1)
      simp [h1, h2]
    · by_cases h3 : a = id
      · subst h3
        have h2 : a ∈ processedOf (ctx.setNodeOutput a data err now) :=
          (hproc a).mpr (Or.inr rfl)
        simp [h1, h2]
      · have h2 : a ∉ processedOf (ctx.setNodeOutput id data err now) := by
          rw [hproc a]
          rintro (h | h)
          · exact h1 h
          · exact h3 h
        simp [h1, h2, h3]
  refine ⟨⟨?_, ?_, ?_, hprocnd, ?_, hrem⟩, hproc⟩
  · rw [setNodeOutput_nodes]; exact inv.nodes_eq
  · rw [setNodeOutput_order]; exact inv.order_eq
  · rw [setNodeOutput_total]; exact inv.total_eq
  · intro x hx
    rcases (hproc x).mp hx with h | h
    · exact inv.proc_sub x h
    · subst h; exact hmem

theorem ctxInv_applyCalls (nodes : List Node) (order : List String)
    (hord : order.Nodup) :
    ∀ (calls : List SetCall) (ctx : ExecutionContext), CtxInv nodes order ctx →
      (calls.map (·.id)).Nodup →
      (∀ c ∈ calls, c.id ∈ order) →
      (∀ c ∈ calls, c.id ∉ processedOf ctx) →
      CtxInv nodes order (applyCalls ctx calls) := by
  intro calls
  induction calls with
  | nil => intro ctx inv _ _ _; exact inv
  | cons c cs ih =>
      intro ctx inv hnd hsub hfresh
      rw [List.map_cons] at hnd
      rcases List.nodup_cons.mp hnd with ⟨hnotin, hndcs⟩
      have hstep := ctxInv_setNodeOutput nodes order ctx inv hord c.id c.data
        c.error c.now (hsub c (List.mem_cons_self c cs))
        (hfresh c (List.mem_cons_self c cs))
      refine ih _ hstep.1 hndcs
        (fun c' hc' => hsub c' (List.mem_cons_of_mem _ hc')) ?_
      intro c' hc'
      rw [hstep.2]
      rintro (h | h)
      · exact hfresh c' (List.mem_cons_of_mem _ hc') h
      · exact hnotin (h ▸ List.mem_map_of_mem (·.id) hc')

theorem length_filter_mem (order proc : List String) (hord : order.Nodup)
    (hproc : proc.Nodup) (hsub : ∀ x ∈ proc, x ∈ order) :
    (order.filter (fun x => decide (x ∈ proc))).length = proc.length := by
  have h1 : (order.filter (fun x => decide (x ∈ proc))).Nodup := hord.filter _
  have h2 : (order.filter (fun x => decide (x ∈ proc))).toFinset = proc.toFinset := by
    ext a
    simp only [List.mem_toFinset, List.mem_filter, decide_eq_true_eq]
    exact ⟨fun h => h.2, fun h => ⟨hsub a h, h⟩⟩
  rw [← List.toFinset_card_of_nodup h1, h2, List.toFinset_card_of_nodup hproc]

/--
C10: For every `ExecutionContext` constructed from a node list and an
execution order listing exactly those nodes' ids, after any sequence of
`setNodeOutput` calls each naming a distinct id from the execution order, the
`completed`, `failed` and `remaining` lists of `getProgress()` are pairwise
disjoint and their lengths sum to `totalNodes`; `clear()` restores the state
to the initial one.
-/
theorem claim_C10 (nodes : List Node) (order : List String) (calls : List SetCall)
    (hord : order.Nodup) (hperm : List.Perm order (nodes.map (·.id)))
    (hnd : (calls.map (·.id)).Nodup) (hsub : ∀ c ∈ calls, c.id ∈ order) :
    (∀ x ∈ (applyCalls (ExecutionContext.init nodes order) calls).getProgress.completed,
        x ∉ (applyCalls (ExecutionContext.init nodes order) calls).getProgress.failed) ∧
    (∀ x ∈ (applyCalls (ExecutionContext.init nodes order) calls).getProgress.completed,
        x ∉ (applyCalls (ExecutionContext.init nodes order) calls).getProgress.remaining) ∧
    (∀ x ∈ (applyCalls (ExecutionContext.init nodes order) calls).getProgress.failed,
        x ∉ (applyCalls (ExecutionContext.init nodes order) calls).getProgress.remaining) ∧
    (applyCalls (ExecutionContext.init nodes order) calls).getProgress.completed.length +
      (applyCalls (ExecutionContext.init nodes order) calls).getProgress.failed.length +
      (applyCalls (ExecutionContext.init nodes order) calls).getProgress.remaining.length =
      (applyCalls (ExecutionContext.init nodes order) calls).getProgress.totalNodes ∧
    (applyCalls (ExecutionContext.init nodes order) calls).clear =
      ExecutionContext.init nodes order := by
  have inv : CtxInv nodes order (applyCalls (ExecutionContext.init nodes order) calls) := by
    refine ctxInv_applyCalls nodes order hord calls _ (ctxInv_init nodes order) hnd hsub ?_
    intro c _
    simp [processedOf, ExecutionContext.init]
  set ctx := applyCalls (ExecutionContext.init nodes order) calls with hctx
  have hdisj : ∀ x ∈ ctx.progress.completed, x ∉ ctx.progress.failed := by
    have := inv.proc_nodup
    unfold processedOf at this
    exact fun x hx => (List.nodup_append.mp this).2.2 hx
  have hprocmem : ∀ x, x ∈ ctx.progress.completed ∨ x ∈ ctx.progress.failed →
      x ∉ ctx.progress.remaining := by
    intro x hx
    rw [inv.remaining_eq]
    intro hmem
    rcases List.mem_filter.mp hmem with ⟨_, hdec⟩
    rw [decide_eq_true_eq] at hdec
    exact hdec (by unfold processedOf; rw [List.mem_append]; exact hx)
  have hlen : ctx.progress.completed.length + ctx.progress.failed.length +
      ctx.progress.remaining.length = ctx.progress.totalNodes := by
    have hfa : order.length = (order.filter (fun x => decide (x ∈ processedOf ctx))).length +
        (order.filter (fun x => !(decide (x ∈ processedOf ctx)))).length :=
      List.length_eq_length_filter_add _
    have hca : (order.filter (fun x => decide (x ∈ processedOf ctx))).length =
        (processedOf ctx).length :=
      length_filter_mem order (processedOf ctx) hord inv.proc_nodup inv.proc_sub
    have hre : ctx.progress.remaining =
        order.filter (fun x => !(decide (x ∈ processedOf ctx))) := by
      rw [inv.remaining_eq]
      exact List.filter_congr (fun a _ => by by_cases h : a ∈ processedOf ctx <;> simp [h])
    have hp : (processedOf ctx).length =
        ctx.progress.completed.length + ctx.progress.failed.length := by
      unfold processedOf
      exact List.length_append _ _
    have hol : order.length = nodes.length := by
      rw [hperm.length_eq, List.length_map]
    rw [inv.total_eq, hre]
    omega
  refine ⟨hdisj, fun x hx => hprocmem x (Or.inl hx), fun x hx => hprocmem x (Or.inr hx),
    hlen, ?_⟩
  have h1 := inv.nodes_eq
  have h2 := inv.order_eq
  unfold ExecutionContext.clear ExecutionContext.init
  rw [h1, h2]

/--
C10 witness: a two-node context with one successful and one failed
`setNodeOutput` call satisfies the sum identity, and `clear()` restores the
initial state.
-/
theorem claim_C10_witness :
    (applyCalls
        (ExecutionContext.init
          [{ id := "a", type := some "t" }, { id := "b", type := some "t" }] ["a", "b"])
        [{ id := "a", data := Value.vnull },
         { id := "b", data := Value.vnull, error := some "boom" }]).getProgress.completed.length +
      (applyCalls
        (ExecutionContext.init
          [{ id := "a", type := some "t" }, { id := "b", type := some "t" }] ["a", "b"])
        [{ id := "a", data := Value.vnull },
         { id := "b", data := Value.vnull, error := some "boom" }]).getProgress.failed.length +
      (applyCalls
        (ExecutionContext.init
          [{ id := "a", type := some "t" }, { id := "b", type := some "t" }] ["a", "b"])
        [{ id := "a", data := Value.vnull },
         { id := "b", data := Value.vnull, error := some "boom" }]).getProgress.remaining.length =
      (applyCalls
        (ExecutionContext.init
          [{ id := "a", type := some "t" }, { id := "b", type := some "t" }] ["a", "b"])
        [{ id := "a", data := Value.vnull },
         { id := "b", data := Value.vnull, error := some "boom" }]).getProgress.totalNodes ∧
    (applyCalls
        (ExecutionContext.init
          [{ id := "a", type := some "t" }, { id := "b", type := some "t" }] ["a", "b"])
        [{ id := "a", data := Value.vnull },
         { id := "b", data := Value.vnull, error := some "boom" }]).clear =
      ExecutionContext.init
        [{ id := "a", type := some "t" }, { id := "b", type := some "t" }] ["a", "b"] :=
  (claim_C10
    [{ id := "a", type := some "t" }, { id := "b", type := some "t" }] ["a", "b"]
    [{ id := "a", data := Value.vnull },
     { id := "b", data := Value.vnull, error := some "boom" }]
    (by decide) (by decide) (by decide) (by decide)).2.2.2

/-! ## Topological scheduler (`src/engine/TopologicalSort.ts`) -/

/-- A sorted node with its depth level (`SortedNode` in `TopologicalSort.ts`). -/
structure SortedNode where
  node : Node
  level : Nat
deriving Repr

namespace TopologicalSort

/-- The three maps built before Kahn's algorithm runs. -/
structure BuildState where
  nodeMap : List (String × Node)
  adjacencyList : List (String × List String)
  inDegree : List (String × Int)

/-- The body of the initialization loop: the node gets a `nodeMap` entry, an
empty adjacency list, and in-degree `0`. -/
def initStep (s : BuildState) (node : Node) : BuildState :=
  { nodeMap := JSMap.set s.nodeMap node.id node
    adjacencyList := JSMap.set s.adjacencyList node.id []
    inDegree := JSMap.set s.inDegree node.id 0 }

/-- The initialization loop over all nodes. -/
def initMaps (nodes : List Node) : BuildState :=
  nodes.foldl initStep { nodeMap := [], adjacencyList := [], inDegree := [] }

/-- The edge loop: `adjacencyList.get(source)?.push(target)` (a no-op when the
source key is absent) and `inDegree.set(target, (inDegree.get(target) || 0) + 1)`. -/
def addEdge (s : BuildState) (edge : EdgeT) : BuildState :=
  { s with
    adjacencyList :=
      match JSMap.get s.adjacencyList edge.source with
      | some targets => JSMap.set s.adjacencyList edge.source (targets ++ [edge.target])
      | none => s.adjacencyList
    inDegree := JSMap.set s.inDegree edge.target (JSMap.getD s.inDegree edge.target 0 + 1) }

/-- The graph-construction phase of `sort`. -/
def buildState (nodes : List Node) (edges : List EdgeT) : BuildState :=
  edges.foldl addEdge (initMaps nodes)

/-- The seeding loop: enqueue `(nodeId, 0)` for every entry of in-degree `0`,
in map insertion order. -/
def seedQueue (inDegree : List (String × Int)) : List (String × Nat) :=
  inDegree.filterMap (fun p => if p.2 = 0 then some (p.1, 0) else none)

/-- The neighbor loop of one dequeue step: decrement each neighbor's count
(JS `(inDegree.get(n) || 0) - 1`) and enqueue it at `level + 1` when the new
count is exactly `0`. -/
def processNeighbors (level : Nat) :
    List String → List (String × Int) → List (String × Nat) →
      List (String × Int) × List (String × Nat)
  | [], inDeg, queue => (inDeg, queue)
  | nb :: rest, inDeg, queue =>
      let newInDegree := JSMap.getD inDeg nb 0 - 1
      let inDeg2 := JSMap.set inDeg nb newInDegree
      let queue2 := if newInDegree = 0 then queue ++ [(nb, level + 1)] else queue
      processNeighbors level rest inDeg2 queue2

/-- Kahn's main loop: dequeue, emit the node (when the id resolves in
`nodeMap`), process its neighbors. The fuel argument only bounds the number
of iterations; `sort` passes enough fuel for the queue to drain. -/
def kahnLoop (adj : List (String × List String)) (nodeMap : List (String × Node)) :
    Nat → List (String × Nat) → List (String × Int) → List SortedNode → List SortedNode
  | _, [], _, result => result
  | 0, _ :: _, _, result => result
  | fuel + 1, (currentId, level) :: rest, inDeg, result =>
      let result2 :=
        match JSMap.get nodeMap currentId with
        | some currentNode => result ++ [{ node := currentNode, level := level }]
        | none => result
      let next := processNeighbors level (JSMap.getD adj currentId []) inDeg rest
      kahnLoop adj nodeMap fuel next.2 next.1 result2

/-- `TopologicalSort.sort(nodes, edges)`. -/
def sort (nodes : List Node) (edges : List EdgeT) : List SortedNode :=
  let s := buildState nodes edges
  kahnLoop s.adjacencyList s.nodeMap (2 * (nodes.length + edges.length) + 1)
    (seedQueue s.inDegree) s.inDegree []

/-- `TopologicalSort.getExecutionOrder(sortedNodes)`. -/
def getExecutionOrder (sortedNodes : List SortedNode) : List String :=
  sortedNodes.map (fun sn => sn.node.id)

end TopologicalSort

/-! ## The executor-side scheduler (`src/engine/ExecutionEngine.ts`) -/

namespace ExecutionEngine

/-- JS `(x || 1)` on the result of `inDegree.get`: `undefined` and `0` are falsy. -/
def jsOrI1 : Option Int → Int
  | none => 1
  | some d => if d = 0 then 1 else d

/-- The body of the engine's node-initialization loop. -/
def engineInitStep (m : List (String × List String) × List (String × Int))
    (node : Node) : List (String × List String) × List (String × Int) :=
  (JSMap.set m.1 node.id [], JSMap.set m.2 node.id 0)

/-- The body of the engine's edge loop. -/
def engineEdgeStep (m : List (String × List String) × List (String × Int))
    (edge : EdgeT) : List (String × List String) × List (String × Int) :=
  (match JSMap.get m.1 edge.source with
   | some targets => JSMap.set m.1 edge.source (targets ++ [edge.target])
   | none => m.1,
   JSMap.set m.2 edge.target (JSMap.getD m.2 edge.target 0 + 1))

/-- The engine's adjacency/in-degree construction (same loops as
`TopologicalSort`, without the node map). -/
def engineBuild (nodes : List Node) (edges : List EdgeT) :
    List (String × List String) × List (String × Int) :=
  edges.foldl engineEdgeStep (nodes.foldl engineInitStep ([], []))

/-- The engine's neighbor loop: note the decrement is
`(inDegree.get(neighbor) || 1) - 1`, with `0` falsy. -/
def engineProcessNeighbors :
    List String → List (String × Int) → List String →
      List (String × Int) × List String
  | [], inDeg, queue => (inDeg, queue)
  | nb :: rest, inDeg, queue =>
      let newDegree := jsOrI1 (JSMap.get inDeg nb) - 1
      let inDeg2 := JSMap.set inDeg nb newDegree
      let queue2 := if newDegree = 0 then queue ++ [nb] else queue
      engineProcessNeighbors rest inDeg2 queue2

/-- The engine's Kahn loop: every dequeued id is pushed onto `order`. -/
def engineLoop (graph : List (String × List String)) :
    Nat → List String → List (String × Int) → List String → List String
  | _, [], _, order => order
  | 0, _ :: _, _, order => order
  | fuel + 1, current :: rest, inDeg, order =>
      let next := engineProcessNeighbors (JSMap.getD graph current []) inDeg rest
      engineLoop graph fuel next.2 next.1 (order ++ [current])

/-- `ExecutionEngine.getExecutionOrder(nodes, edges)` with no `entryNodeId`:
seed all in-degree-0 ids, run Kahn's algorithm, and `throw` (here: return
`Except.error`) when fewer ids than nodes were emitted. -/
def getExecutionOrder (nodes : List Node) (edges : List EdgeT) :
    Except String (List String) :=
  let maps := engineBuild nodes edges
  let queue := maps.2.filterMap (fun p => if p.2 = 0 then some p.1 else none)
  let order := engineLoop maps.1 (2 * (nodes.length + edges.length) + 1) queue maps.2 []
  if order.length < nodes.length then Except.error "Cycle detected in workflow graph"
  else Except.ok order

end ExecutionEngine

/-! ## Directed walks and cycles over an edge list -/

/-- A directed walk of exactly `k` edges from `a` to `b`. -/
def walkN (edges : List EdgeT) : Nat → String → String → Prop
  | 0, a, b => a = b
  | k + 1, a, b => ∃ e ∈ edges, e.source = a ∧ walkN edges k e.target b

/-- The edge list contains a directed cycle. -/
def HasCycle (edges : List EdgeT) : Prop :=
  ∃ v k, 0 < k ∧ walkN edges k v v

def decWalkN (edges : List EdgeT) : ∀ (k : Nat) (a b : String), Decidable (walkN edges k a b)
  | 0, a, b => if h : a = b then .isTrue h else .isFalse h
  | k + 1, a, b =>
      haveI : ∀ e : EdgeT, Decidable (walkN edges k e.target b) :=
        fun e => decWalkN edges k e.target b
      inferInstanceAs (Decidable (∃ e ∈ edges, e.source = a ∧ walkN edges k e.target b))

instance (edges : List EdgeT) (k : Nat) (a b : String) : Decidable (walkN edges k a b) :=
  decWalkN edges k a b

/-- If some rank strictly increases along every edge, the graph is acyclic. -/
theorem noCycle_of_rank (edges : List EdgeT) (rank : String → Nat)
    (h : ∀ e ∈ edges, rank e.source < rank e.target) : ¬HasCycle edges := by
  have hwalk : ∀ k a b, walkN edges k a b → rank a + k ≤ rank b := by
    intro k
    induction k with
    | zero => intro a b hab; cases hab; omega
    | succ k ih =>
        rintro a b ⟨e, he, hsrc, hw⟩
        have h1 := h e he
        rw [hsrc] at h1
        have h2 := ih e.target b hw
        omega
  rintro ⟨v, k, hk, hw⟩
  have := hwalk k v v hw
  omega

/-! ## Static facts about the graph-construction phase -/

namespace JSMap

theorem get_eq_some_of_mem {α : Type} (m : List (String × α)) (k : String) (v : α)
    (hnd : (keys m).Nodup) (hmem : (k, v) ∈ m) : get m k = some v := by
  induction m with
  | nil => cases hmem
  | cons p rest ih =>
      obtain ⟨k₀, v₀⟩ := p
      have hnd' : k₀ ∉ keys rest ∧ (keys rest).Nodup :=
        List.nodup_cons.mp (show (k₀ :: keys rest).Nodup from hnd)
      rcases List.mem_cons.mp hmem with h | h
      · cases h
        simp [get]
      · have hkmem : k ∈ keys rest := List.mem_map_of_mem Prod.fst h
        have hk : k₀ ≠ k := by
          rintro rfl
          exact hnd'.1 hkmem
        simp only [get, if_neg hk]
        exact ih hnd'.2 h

theorem mem_of_get_eq_some {α : Type} (m : List (String × α)) (k : String) (v : α)
    (h : get m k = some v) : (k, v) ∈ m := by
  induction m with
  | nil => simp [get] at h
  | cons p rest ih =>
      obtain ⟨k₀, v₀⟩ := p
      by_cases hk : k₀ = k
      · subst hk
        have hv : v₀ = v := by simpa [get] using h
        subst hv
        exact List.mem_cons_self _ _
      · simp only [get, if_neg hk] at h
        exact List.mem_cons_of_mem _ (ih h)

end JSMap

namespace TopologicalSort

/-- The number of edges into `v` whose source is not yet emitted. -/
def cnt (edges : List EdgeT) (out : List String) (v : String) : Nat :=
  (edges.filter (fun e => decide (e.target = v ∧ e.source ∉ out))).length

/-- The targets of the edges out of `v`, in edge order. -/
def targetsOf (edges : List EdgeT) (v : String) : List String :=
  (edges.filter (fun e => decide (e.source = v))).map (fun e => e.target)

theorem addEdge_nodeMap (s : BuildState) (e : EdgeT) : (addEdge s e).nodeMap = s.nodeMap := rfl

theorem foldl_addEdge_nodeMap (es : List EdgeT) (s : BuildState) :
    (es.foldl addEdge s).nodeMap = s.nodeMap := by
  induction es generalizing s with
  | nil => rfl
  | cons e rest ih => rw [List.foldl_cons, ih, addEdge_nodeMap]

theorem initFold_unchanged (nodes : List Node) :
    ∀ (acc : BuildState) (k : String), (∀ n ∈ nodes, n.id ≠ k) →
      (JSMap.get (nodes.foldl initStep acc).nodeMap k = JSMap.get acc.nodeMap k) ∧
      (JSMap.get (nodes.foldl initStep acc).adjacencyList k = JSMap.get acc.adjacencyList k) ∧
      (JSMap.get (nodes.foldl initStep acc).inDegree k = JSMap.get acc.inDegree k) := by
  induction nodes with
  | nil => intro acc k _; exact ⟨rfl, rfl, rfl⟩
  | cons n ns ih =>
      intro acc k hk
      have hne : n.id ≠ k := hk n (List.mem_cons_self n ns)
      have h2 := ih (initStep acc n) k (fun m hm => hk m (List.mem_cons_of_mem _ hm))
      refine ⟨?_, ?_, ?_⟩
      · rw [List.foldl_cons, h2.1]
        show JSMap.get (JSMap.set acc.nodeMap n.id n) k = _
        rw [JSMap.get_set, if_neg hne]
      · rw [List.foldl_cons, h2.2.1]
        show JSMap.get (JSMap.set acc.adjacencyList n.id []) k = _
        rw [JSMap.get_set, if_neg hne]
      · rw [List.foldl_cons, h2.2.2]
        show JSMap.get (JSMap.set acc.inDegree n.id 0) k = _
        rw [JSMap.get_set, if_neg hne]

theorem initFold_get_mem (nodes : List Node) (hnd : (nodes.map (·.id)).Nodup) :
    ∀ (acc : BuildState),
      (∀ n ∈ nodes, JSMap.get (nodes.foldl initStep acc).nodeMap n.id = some n) ∧
      (∀ n ∈ nodes, JSMap.get (nodes.foldl initStep acc).adjacencyList n.id = some []) ∧
      (∀ n ∈ nodes, JSMap.get (nodes.foldl initStep acc).inDegree n.id = some 0) := by
  induction nodes with
  | nil => intro acc; exact ⟨fun n h => absurd h (List.not_mem_nil n),
      fun n h => absurd h (List.not_mem_nil n), fun n h => absurd h (List.not_mem_nil n)⟩
  | cons n ns ih =>
      intro acc
      rw [List.map_cons] at hnd
      rcases List.nodup_cons.mp hnd with ⟨hnotin, hndns⟩
      have ihs := ih hndns (initStep acc n)
      have hfresh : ∀ m ∈ ns, m.id ≠ n.id := by
        intro m hm heq
        exact hnotin (heq ▸ List.mem_map_of_mem (·.id) hm)
      have hunch := initFold_unchanged ns (initStep acc n) n.id hfresh
      refine ⟨?_, ?_, ?_⟩
      · intro m hm
        rcases List.mem_cons.mp hm with rfl | hm'
        · rw [List.foldl_cons, hunch.1]
          show JSMap.get (JSMap.set acc.nodeMap m.id m) m.id = some m
          rw [JSMap.get_set, if_pos rfl]
        · rw [List.foldl_cons]
          exact ihs.1 m hm'
      · intro m hm
        rcases List.mem_cons.mp hm with rfl | hm'
        · rw [List.foldl_cons, hunch.2.1]
          show JSMap.get (JSMap.set acc.adjacencyList m.id []) m.id = some []
          rw [JSMap.get_set, if_pos rfl]
        · rw [List.foldl_cons]
          exact ihs.2.1 m hm'
      · intro m hm
        rcases List.mem_cons.mp hm with rfl | hm'
        · rw [List.foldl_cons, hunch.2.2]
          show JSMap.get (JSMap.set acc.inDegree m.id 0) m.id = some 0
          rw [JSMap.get_set, if_pos rfl]
        · rw [List.foldl_cons]
          exact ihs.2.2 m hm'

theorem initFold_keys_inDegree (nodes : List Node) :
    ∀ (acc : BuildState), (∀ n ∈ nodes, n.id ∉ JSMap.keys acc.inDegree) →
      (nodes.map (·.id)).Nodup →
      JSMap.keys (nodes.foldl initStep acc).inDegree =
        JSMap.keys acc.inDegree ++ nodes.map (·.id) := by
  induction nodes with
  | nil => intro acc _ _; simp
  | cons n ns ih =>
      intro acc hfresh hnd
      rw [List.map_cons] at hnd
      rcases List.nodup_cons.mp hnd with ⟨hnotin, hndns⟩
      have hkeys1 : JSMap.keys (initStep acc n).inDegree = JSMap.keys acc.inDegree ++ [n.id] := by
        show JSMap.keys (JSMap.set acc.inDegree n.id 0) = _
        rw [JSMap.keys_set, if_neg (hfresh n (List.mem_cons_self n ns))]
      rw [List.foldl_cons, ih (initStep acc n) ?_ hndns, hkeys1]
      · rw [List.append_assoc]
        rfl
      · intro m hm
        rw [hkeys1]
        intro hmem
        rcases List.mem_append.mp hmem with h | h
        · exact hfresh m (List.mem_cons_of_mem _ hm) h
        · simp only [List.mem_singleton] at h
          exact hnotin (h ▸ List.mem_map_of_mem (·.id) hm)

theorem edgesFold_inDegree (ids : List String) (es : List EdgeT) :
    ∀ (s : BuildState) (f : String → Int),
      (∀ v ∈ ids, JSMap.get s.inDegree v = some (f v)) →
      JSMap.keys s.inDegree = ids →
      (∀ e ∈ es, e.target ∈ ids) →
      (∀ v ∈ ids, JSMap.get ((es.foldl addEdge s).inDegree) v =
        some (f v + ((es.filter (fun e => decide (e.target = v))).length : Int))) ∧
      JSMap.keys ((es.foldl addEdge s).inDegree) = ids := by
  induction es with
  | nil =>
      intro s f hget hkeys _
      exact ⟨fun v hv => by simpa using hget v hv, hkeys⟩
  | cons e rest ih =>
      intro s f hget hkeys het
      have htmem : e.target ∈ ids := het e (List.mem_cons_self e rest)
      have hstep : (addEdge s e).inDegree =
          JSMap.set s.inDegree e.target (JSMap.getD s.inDegree e.target 0 + 1) := rfl
      have hgd : JSMap.getD s.inDegree e.target 0 = f e.target := by
        rw [JSMap.getD, hget e.target htmem]
        rfl
      have hget' : ∀ v ∈ ids, JSMap.get (addEdge s e).inDegree v =
          some (if e.target = v then f v + 1 else f v) := by
        intro v hv
        rw [hstep, JSMap.get_set, hgd]
        by_cases h : e.target = v
        · rw [if_pos h, if_pos h, h]
        · rw [if_neg h, if_neg h]
          exact hget v hv
      have hkeys' : JSMap.keys (addEdge s e).inDegree = ids := by
        rw [hstep, JSMap.keys_set, hkeys, if_pos htmem]
      have ihs := ih (addEdge s e) (fun v => if e.target = v then f v + 1 else f v)
        hget' hkeys' (fun e' he' => het e' (List.mem_cons_of_mem _ he'))
      refine ⟨?_, ihs.2⟩
      intro v hv
      rw [List.foldl_cons, ihs.1 v hv]
      by_cases h : e.target = v
      · show some ((if e.target = v then f v + 1 else f v) +
          ((rest.filter (fun e => decide (e.target = v))).length : Int)) = _
        rw [if_pos h, List.filter_cons, if_pos (by simpa using h)]
        simp only [List.length_cons]
        congr 1
        push_cast
        ring
      · show some ((if e.target = v then f v + 1 else f v) +
          ((rest.filter (fun e => decide (e.target = v))).length : Int)) = _
        rw [if_neg h, List.filter_cons, if_neg (by simpa using h)]

theorem edgesFold_adjacency (ids : List String) (es : List EdgeT) :
    ∀ (s : BuildState) (g : String → List String),
      (∀ v ∈ ids, JSMap.get s.adjacencyList v = some (g v)) →
      (∀ e ∈ es, e.source ∈ ids) →
      ∀ v ∈ ids, JSMap.get ((es.foldl addEdge s).adjacencyList) v =
        some (g v ++ targetsOf es v) := by
  induction es with
  | nil =>
      intro s g hget _ v hv
      simp [targetsOf, hget v hv]
  | cons e rest ih =>
      intro s g hget hes v hv
      have hsmem : e.source ∈ ids := hes e (List.mem_cons_self e rest)
      have hstep : (addEdge s e).adjacencyList =
          JSMap.set s.adjacencyList e.source (g e.source ++ [e.target]) := by
        show (match JSMap.get s.adjacencyList e.source with
          | some targets => JSMap.set s.adjacencyList e.source (targets ++ [e.target])
          | none => s.adjacencyList) = _
        rw [hget e.source hsmem]
      have hget' : ∀ w ∈ ids, JSMap.get (addEdge s e).adjacencyList w =
          some (if e.source = w then g w ++ [e.target] else g w) := by
        intro w hw
        rw [hstep, JSMap.get_set]
        by_cases h : e.source = w
        · rw [if_pos h, if_pos h, h]
        · rw [if_neg h, if_neg h]
          exact hget w hw
      rw [List.foldl_cons, ih (addEdge s e) _ hget'
        (fun e' he' => hes e' (List.mem_cons_of_mem _ he')) v hv]
      by_cases h : e.source = v
      · rw [if_pos h]
        unfold targetsOf
        rw [List.filter_cons, if_pos (by simpa using h), List.map_cons, List.append_assoc]
        rfl
      · rw [if_neg h]
        unfold targetsOf
        rw [List.filter_cons, if_neg (by simpa using h)]

theorem cnt_nil_out (edges : List EdgeT) (v : String) :
    (cnt edges [] v : Int) = ((edges.filter (fun e => decide (e.target = v))).length : Int) := by
  unfold cnt
  congr 2
  refine List.filter_congr ?_
  intro e _
  simp

theorem mem_ids_iff (nodes : List Node) (v : String) :
    v ∈ nodes.map (·.id) ↔ ∃ n ∈ nodes, n.id = v := by
  simp [List.mem_map]

theorem buildState_nodeMap_mem (nodes : List Node) (edges : List EdgeT)
    (hnd : (nodes.map (·.id)).Nodup) :
    ∀ n ∈ nodes, JSMap.get (buildState nodes edges).nodeMap n.id = some n := by
  intro n hn
  rw [buildState, foldl_addEdge_nodeMap]
  exact (initFold_get_mem nodes hnd _).1 n hn

theorem buildState_inDegree (nodes : List Node) (edges : List EdgeT)
    (hnd : (nodes.map (·.id)).Nodup) (het : ∀ e ∈ edges, e.target ∈ nodes.map (·.id)) :
    (∀ v ∈ nodes.map (·.id), JSMap.get (buildState nodes edges).inDegree v =
      some (cnt edges [] v : Int)) ∧
    JSMap.keys (buildState nodes edges).inDegree = nodes.map (·.id) := by
  have hkeys0 : JSMap.keys (initMaps nodes).inDegree = nodes.map (·.id) := by
    have := initFold_keys_inDegree nodes
      { nodeMap := [], adjacencyList := [], inDegree := [] }
      (by intro n _ h; cases h) hnd
    simpa [initMaps, JSMap.keys] using this
  have hget0 : ∀ v ∈ nodes.map (·.id), JSMap.get (initMaps nodes).inDegree v = some 0 := by
    intro v hv
    rcases (mem_ids_iff nodes v).mp hv with ⟨n, hn, rfl⟩
    exact (initFold_get_mem nodes hnd _).2.2 n hn
  have := edgesFold_inDegree (nodes.map (·.id)) edges (initMaps nodes)
    (fun _ => 0) hget0 hkeys0 het
  refine ⟨?_, this.2⟩
  intro v hv
  rw [buildState]
  rw [this.1 v hv, cnt_nil_out]
  ring_nf

theorem buildState_adjacency (nodes : List Node) (edges : List EdgeT)
    (hnd : (nodes.map (·.id)).Nodup) (hes : ∀ e ∈ edges, e.source ∈ nodes.map (·.id)) :
    ∀ v ∈ nodes.map (·.id),
      JSMap.getD (buildState nodes edges).adjacencyList v [] = targetsOf edges v := by
  intro v hv
  have hget0 : ∀ w ∈ nodes.map (·.id),
      JSMap.get (initMaps nodes).adjacencyList w = some [] := by
    intro w hw
    rcases (mem_ids_iff nodes w).mp hw with ⟨n, hn, rfl⟩
    exact (initFold_get_mem nodes hnd _).2.1 n hn
  have := edgesFold_adjacency (nodes.map (·.id)) edges (initMaps nodes)
    (fun _ => []) hget0 hes v hv
  rw [buildState, JSMap.getD, this]
  rfl

theorem engineInitFold_eq (nodes : List Node) :
    ∀ (acc : BuildState),
      nodes.foldl ExecutionEngine.engineInitStep (acc.adjacencyList, acc.inDegree) =
        ((nodes.foldl initStep acc).adjacencyList, (nodes.foldl initStep acc).inDegree) := by
  induction nodes with
  | nil => intro acc; rfl
  | cons n ns ih =>
      intro acc
      rw [List.foldl_cons, List.foldl_cons]
      exact ih (initStep acc n)

theorem engineEdgeFold_eq (es : List EdgeT) :
    ∀ (s : BuildState),
      es.foldl ExecutionEngine.engineEdgeStep (s.adjacencyList, s.inDegree) =
        ((es.foldl addEdge s).adjacencyList, (es.foldl addEdge s).inDegree) := by
  induction es with
  | nil => intro s; rfl
  | cons e rest ih =>
      intro s
      rw [List.foldl_cons, List.foldl_cons]
      have hstep : ExecutionEngine.engineEdgeStep (s.adjacencyList, s.inDegree) e =
          ((addEdge s e).adjacencyList, (addEdge s e).inDegree) := by
        unfold ExecutionEngine.engineEdgeStep addEdge
        rcases h : JSMap.get s.adjacencyList e.source with _ | targets <;> simp [h]
      rw [hstep]
      exact ih (addEdge s e)

theorem engineBuild_eq (nodes : List Node) (edges : List EdgeT) :
    ExecutionEngine.engineBuild nodes edges =
      ((buildState nodes edges).adjacencyList, (buildState nodes edges).inDegree) := by
  unfold ExecutionEngine.engineBuild buildState
  have h0 : (([], []) : List (String × List String) × List (String × Int)) =
      (({ nodeMap := [], adjacencyList := [], inDegree := [] } : BuildState).adjacencyList,
       ({ nodeMap := [], adjacencyList := [], inDegree := [] } : BuildState).inDegree) := rfl
  rw [h0, engineInitFold_eq, engineEdgeFold_eq]
  rfl

theorem seedQueue_eq_filter (m : List (String × Int)) :
    seedQueue m = (m.filter (fun p => decide (p.2 = 0))).map (fun p => (p.1, (0 : Nat))) := by
  induction m with
  | nil => rfl
  | cons p rest ih =>
      by_cases h : p.2 = 0 <;>
        simp [seedQueue, List.filterMap_cons, List.filter_cons, h] <;>
        simpa [seedQueue] using ih

theorem engineSeed_eq (m : List (String × Int)) :
    m.filterMap (fun p => if p.2 = 0 then some p.1 else none) =
      (seedQueue m).map (·.1) := by
  induction m with
  | nil => rfl
  | cons p rest ih =>
      by_cases h : p.2 = 0 <;>
        simp [seedQueue, List.filterMap_cons, h] <;>
        simpa [seedQueue] using ih

theorem seedQueue_ids_sublist (m : List (String × Int)) :
    List.Sublist ((seedQueue m).map (·.1)) (JSMap.keys m) := by
  rw [seedQueue_eq_filter, List.map_map]
  have : ((fun p : String × Nat => p.1) ∘ fun p : String × Int => (p.1, (0 : Nat))) =
      (fun p : String × Int => p.1) := rfl
  rw [this]
  exact (List.filter_sublist m).map _

theorem mem_seedQueue_ids (m : List (String × Int)) (x : String) :
    x ∈ (seedQueue m).map (·.1) ↔ ∃ d, (x, d) ∈ m ∧ d = 0 := by
  rw [seedQueue_eq_filter]
  constructor
  · intro hx
    rcases List.mem_map.mp hx with ⟨p, hp, hpx⟩
    rcases List.mem_map.mp hp with ⟨q, hq, hqp⟩
    rcases List.mem_filter.mp hq with ⟨hqm, hq0⟩
    refine ⟨q.2, ?_, by simpa using hq0⟩
    have : q.1 = x := by
      rw [← hqp] at hpx
      simpa using hpx
    rw [← this]
    exact hqm
  · rintro ⟨d, hd, rfl⟩
    refine List.mem_map.mpr ⟨(x, 0), ?_, rfl⟩
    refine List.mem_map.mpr ⟨(x, 0), ?_, rfl⟩
    exact List.mem_filter.mpr ⟨hd, by simp⟩

/-! ### Counting lemmas for `cnt` -/

theorem filter_length_partition {α : Type} (l : List α) (p q : α → Bool) :
    (l.filter p).length =
      (l.filter (fun a => p a && q a)).length +
      (l.filter (fun a => p a && !q a)).length := by
  induction l with
  | nil => rfl
  | cons a rest ih =>
      rcases hp : p a with _ | _ <;> rcases hq : q a with _ | _ <;>
        simp [List.filter_cons, hp, hq, ih] <;> omega

theorem count_targetsOf (edges : List EdgeT) (cid v : String) :
    (targetsOf edges cid).count v =
      (edges.filter (fun e => decide (e.target = v ∧ e.source = cid))).length := by
  unfold targetsOf
  rw [List.count_eq_countP, List.countP_map, List.countP_eq_length_filter,
    List.filter_filter]
  congr 1
  refine List.filter_congr ?_
  intro e _
  show ((e.target == v) && decide (e.source = cid)) = decide (e.target = v ∧ e.source = cid)
  by_cases h1 : e.target = v <;> by_cases h2 : e.source = cid <;> simp [h1, h2]

theorem cnt_out_extend (edges : List EdgeT) (out : List String) (v cid : String)
    (hcid : cid ∉ out) :
    cnt edges out v = cnt edges (out ++ [cid]) v + (targetsOf edges cid).count v := by
  rw [count_targetsOf]
  unfold cnt
  rw [filter_length_partition edges (fun e => decide (e.target = v ∧ e.source ∉ out))
    (fun e => decide (e.source = cid))]
  have hA : ∀ e ∈ edges, (decide (e.target = v ∧ e.source ∉ out) && decide (e.source = cid)) =
      decide (e.target = v ∧ e.source = cid) := by
    intro e _
    by_cases h1 : e.target = v
    · by_cases h2 : e.source = cid
      · have h3 : e.source ∉ out := by rw [h2]; exact hcid
        simp [h1, h2, h3, hcid]
      · simp [h1, h2]
    · simp [h1]
  have hB : ∀ e ∈ edges, (decide (e.target = v ∧ e.source ∉ out) && !decide (e.source = cid)) =
      decide (e.target = v ∧ e.source ∉ out ++ [cid]) := by
    intro e _
    by_cases h1 : e.target = v
    · by_cases h2 : e.source = cid
      · simp [h1, h2, hcid, List.mem_append]
      · by_cases h3 : e.source ∈ out
        · simp [h1, h2, h3]
        · simp [h1, h2, h3, List.mem_append]
    · simp [h1]
  rw [List.filter_congr hA, List.filter_congr hB]
  omega

theorem cnt_eq_zero_iff (edges : List EdgeT) (out : List String) (v : String) :
    cnt edges out v = 0 ↔ ∀ e ∈ edges, e.target = v → e.source ∈ out := by
  unfold cnt
  rw [List.length_eq_zero, List.filter_eq_nil]
  constructor
  · intro h e he ht
    by_contra hs
    exact h e he (by simp [ht, hs])
  · intro h e he
    simp only [decide_eq_true_eq, not_and, not_not]
    intro ht
    by_contra hs
    exact hs (h e he ht)

theorem cnt_pos_iff (edges : List EdgeT) (out : List String) (v : String) :
    0 < cnt edges out v ↔ ∃ e ∈ edges, e.target = v ∧ e.source ∉ out := by
  rw [Nat.pos_iff_ne_zero, Ne, cnt_eq_zero_iff]
  constructor
  · intro h
    push_neg at h
    exact h
  · rintro ⟨e, he, ht, hs⟩ hall
    exact hs (hall e he ht)

theorem nodup_subset_length_le (l L : List String) (hnd : l.Nodup)
    (hsub : ∀ x ∈ l, x ∈ L) : l.length ≤ L.length := by
  calc l.length = l.toFinset.card := (List.toFinset_card_of_nodup hnd).symm
    _ ≤ L.toFinset.card := Finset.card_le_card (by
        intro a ha
        rw [List.mem_toFinset] at ha
        rw [List.mem_toFinset]
        exact hsub a ha)
    _ ≤ L.length := L.toFinset_card_le

theorem jsOrI1_of_ne_zero (d : Int) (h : d ≠ 0) :
    ExecutionEngine.jsOrI1 (some d) = d := by
  simp [ExecutionEngine.jsOrI1, h]

theorem count_tail_zero (x nb : String) (rest : List String)
    (h : List.count x (nb :: rest) = 0) : List.count x rest = 0 := by
  by_cases hx : x = nb
  · subst hx
    rw [List.count_cons_self] at h
    omega
  · rwa [List.count_cons_of_ne hx] at h

theorem processNeighbors_spec (edges : List EdgeT) (ids : List String)
    (out' : List String) (level : Nat) :
    ∀ (todo : List String) (inDeg : List (String × Int)) (queue : List (String × Nat)),
      (∀ t ∈ todo, t ∈ ids) →
      (∀ t ∈ todo, t ∉ out') →
      (∀ v ∈ ids, JSMap.get inDeg v = some ((cnt edges out' v : Int) + (todo.count v : Int))) →
      ((out' ++ queue.map (·.1)).Nodup) →
      (∀ x ∈ queue.map (·.1), x ∈ ids) →
      (∀ x ∈ queue.map (·.1), cnt edges out' x = 0 ∧ todo.count x = 0) →
      (∀ v ∈ ids, v ∉ out' → v ∉ queue.map (·.1) →
        0 < cnt edges out' v + todo.count v) →
      (∀ v ∈ ids, JSMap.get (processNeighbors level todo inDeg queue).1 v =
        some (cnt edges out' v : Int)) ∧
      ((out' ++ (processNeighbors level todo inDeg queue).2.map (·.1)).Nodup) ∧
      (∀ x ∈ (processNeighbors level todo inDeg queue).2.map (·.1), x ∈ ids) ∧
      (∀ x ∈ (processNeighbors level todo inDeg queue).2.map (·.1),
        cnt edges out' x = 0) ∧
      (∀ v ∈ ids, v ∉ out' → v ∉ (processNeighbors level todo inDeg queue).2.map (·.1) →
        0 < cnt edges out' v) ∧
      (ExecutionEngine.engineProcessNeighbors todo inDeg (queue.map (·.1)) =
        ((processNeighbors level todo inDeg queue).1,
         (processNeighbors level todo inDeg queue).2.map (·.1))) := by
  intro todo
  induction todo with
  | nil =>
      intro inDeg queue _ _ hval hnodup hqids hqzero hpos
      refine ⟨?_, hnodup, hqids, fun x hx => (hqzero x hx).1, ?_, rfl⟩
      · intro v hv
        have := hval v hv
        simpa using this
      · intro v hv hvo hvq
        have := hpos v hv hvo hvq
        simpa using this
  | cons nb rest ih =>
      intro inDeg queue htodo htodoOut hval hnodup hqids hqzero hpos
      have hnbid : nb ∈ ids := htodo nb (List.mem_cons_self nb rest)
      have hstored := hval nb hnbid
      have hcountc : ((nb :: rest).count nb : Int) = (rest.count nb : Int) + 1 := by
        rw [List.count_cons_self]
        push_cast
        ring
      have hnew : JSMap.getD inDeg nb 0 - 1 =
          (cnt edges out' nb : Int) + (rest.count nb : Int) := by
        rw [JSMap.getD, hstored]
        simp only [Option.getD_some]
        rw [hcountc]
        ring
      have hunfold : processNeighbors level (nb :: rest) inDeg queue =
          processNeighbors level rest
            (JSMap.set inDeg nb (JSMap.getD inDeg nb 0 - 1))
            (if JSMap.getD inDeg nb 0 - 1 = 0 then queue ++ [(nb, level + 1)] else queue) := rfl
      have hvalrest : ∀ v ∈ ids,
          JSMap.get (JSMap.set inDeg nb (JSMap.getD inDeg nb 0 - 1)) v =
            some ((cnt edges out' v : Int) + (rest.count v : Int)) := by
        intro v hv
        rw [JSMap.get_set]
        by_cases h : nb = v
        · rw [if_pos h, hnew, h]
        · rw [if_neg h, hval v hv, List.count_cons_of_ne (fun hh => h hh.symm)]
      have hnbni : nb ∉ queue.map (·.1) := by
        intro hmem
        have := (hqzero nb hmem).2
        rw [List.count_cons_self] at this
        omega
      have htodo' : ∀ t ∈ rest, t ∈ ids := fun t ht => htodo t (List.mem_cons_of_mem _ ht)
      have htodoOut' : ∀ t ∈ rest, t ∉ out' :=
        fun t ht => htodoOut t (List.mem_cons_of_mem _ ht)
      have hengstep : ExecutionEngine.engineProcessNeighbors (nb :: rest) inDeg (queue.map (·.1)) =
          ExecutionEngine.engineProcessNeighbors rest
            (JSMap.set inDeg nb (JSMap.getD inDeg nb 0 - 1))
            (if JSMap.getD inDeg nb 0 - 1 = 0 then queue.map (·.1) ++ [nb]
             else queue.map (·.1)) := by
        have hjs : ExecutionEngine.jsOrI1 (JSMap.get inDeg nb) - 1 =
            JSMap.getD inDeg nb 0 - 1 := by
          rw [hstored, jsOrI1_of_ne_zero, JSMap.getD, hstored]
          · rfl
          · rw [hcountc]
            have h1 : (0 : Int) ≤ (cnt edges out' nb : Int) := Int.natCast_nonneg _
            have h2 : (0 : Int) ≤ (rest.count nb : Int) := Int.natCast_nonneg _
            omega
        show ExecutionEngine.engineProcessNeighbors rest
            (JSMap.set inDeg nb (ExecutionEngine.jsOrI1 (JSMap.get inDeg nb) - 1))
            (if ExecutionEngine.jsOrI1 (JSMap.get inDeg nb) - 1 = 0
             then queue.map (·.1) ++ [nb] else queue.map (·.1)) = _
        rw [hjs]
      by_cases hzero : JSMap.getD inDeg nb 0 - 1 = 0
      · -- the new count is zero: `nb` is enqueued at `level + 1`
        have hcz : cnt edges out' nb = 0 ∧ rest.count nb = 0 := by
          rw [hnew] at hzero
          constructor <;> omega
        have hnodup' : (out' ++ (queue ++ [(nb, level + 1)]).map (·.1)).Nodup := by
          rw [List.map_append]
          rw [show out' ++ (queue.map (·.1) ++ ([(nb, level + 1)].map (·.1))) =
            (out' ++ queue.map (·.1)) ++ [nb] by rw [List.append_assoc]; rfl]
          rw [List.nodup_append]
          refine ⟨hnodup, List.nodup_singleton nb, ?_⟩
          intro a ha hb
          rw [List.mem_singleton] at hb
          rw [hb] at ha
          rcases List.mem_append.mp ha with h | h
          · exact htodoOut nb (List.mem_cons_self nb rest) h
          · exact hnbni h
        have hqids' : ∀ x ∈ (queue ++ [(nb, level + 1)]).map (·.1), x ∈ ids := by
          intro x hx
          rw [List.map_append] at hx
          rcases List.mem_append.mp hx with h | h
          · exact hqids x h
          · rw [show ([(nb, level + 1)].map (·.1)) = [nb] from rfl, List.mem_singleton] at h
            rw [h]
            exact hnbid
        have hqzero' : ∀ x ∈ (queue ++ [(nb, level + 1)]).map (·.1),
            cnt edges out' x = 0 ∧ rest.count x = 0 := by
          intro x hx
          rw [List.map_append] at hx
          rcases List.mem_append.mp hx with h | h
          · exact ⟨(hqzero x h).1, count_tail_zero x nb rest (hqzero x h).2⟩
          · rw [show ([(nb, level + 1)].map (·.1)) = [nb] from rfl, List.mem_singleton] at h
            rw [h]
            exact hcz
        have hpos' : ∀ v ∈ ids, v ∉ out' → v ∉ (queue ++ [(nb, level + 1)]).map (·.1) →
            0 < cnt edges out' v + rest.count v := by
          intro v hv hvo hvq
          rw [List.map_append] at hvq
          have hvq1 : v ∉ queue.map (·.1) := fun h => hvq (List.mem_append.mpr (Or.inl h))
          have hvne : v ≠ nb := by
            rintro rfl
            exact hvq (List.mem_append.mpr (Or.inr (by simp)))
          have := hpos v hv hvo hvq1
          rw [List.count_cons_of_ne hvne] at this
          exact this
        have ihs := ih (JSMap.set inDeg nb (JSMap.getD inDeg nb 0 - 1))
          (queue ++ [(nb, level + 1)]) htodo' htodoOut' hvalrest hnodup' hqids' hqzero' hpos'
        rw [hunfold, if_pos hzero]
        refine ⟨ihs.1, ihs.2.1, ihs.2.2.1, ihs.2.2.2.1, ihs.2.2.2.2.1, ?_⟩
        rw [hengstep, if_pos hzero]
        have hmq : queue.map (·.1) ++ [nb] = (queue ++ [(nb, level + 1)]).map (·.1) := by
          rw [List.map_append]
          rfl
        rw [hmq]
        exact ihs.2.2.2.2.2
      · -- the new count is nonzero: the queue is unchanged
        have hqzero' : ∀ x ∈ queue.map (·.1),
            cnt edges out' x = 0 ∧ rest.count x = 0 := by
          intro x hx
          exact ⟨(hqzero x hx).1, count_tail_zero x nb rest (hqzero x hx).2⟩
        have hpos' : ∀ v ∈ ids, v ∉ out' → v ∉ queue.map (·.1) →
            0 < cnt edges out' v + rest.count v := by
          intro v hv hvo hvq
          by_cases hvne : v = nb
          · subst hvne
            rw [hnew] at hzero
            have h1 : cnt edges out' v + rest.count v ≠ 0 := by
              intro hh
              apply hzero
              have h2 : cnt edges out' v = 0 := by omega
              have h3 : rest.count v = 0 := by omega
              rw [h2, h3]
              simp
            omega
          · have := hpos v hv hvo hvq
            rw [List.count_cons_of_ne hvne] at this
            exact this
        have ihs := ih (JSMap.set inDeg nb (JSMap.getD inDeg nb 0 - 1)) queue
          htodo' htodoOut' hvalrest hnodup hqids hqzero' hpos'
        rw [hunfold, if_neg hzero]
        refine ⟨ihs.1, ihs.2.1, ihs.2.2.1, ihs.2.2.2.1, ihs.2.2.2.2.1, ?_⟩
        rw [hengstep, if_neg hzero]
        exact ihs.2.2.2.2.2

theorem mem_targetsOf (edges : List EdgeT) (v x : String) :
    x ∈ targetsOf edges v ↔ ∃ e ∈ edges, e.source = v ∧ e.target = x := by
  unfold targetsOf
  simp only [List.mem_map, List.mem_filter, decide_eq_true_eq]
  constructor
  · rintro ⟨e, ⟨he, hs⟩, ht⟩
    exact ⟨e, he, hs, ht⟩
  · rintro ⟨e, he, hs, ht⟩
    exact ⟨e, ⟨he, hs⟩, ht⟩

theorem kahnLoop_nil (adj : List (String × List String)) (nm : List (String × Node))
    (fuel : Nat) (inDeg : List (String × Int)) (result : List SortedNode) :
    kahnLoop adj nm fuel [] inDeg result = result := by
  cases fuel <;> rfl

theorem kahnLoop_cons (adj : List (String × List String)) (nm : List (String × Node))
    (fuel : Nat) (cid : String) (lvl : Nat) (rest : List (String × Nat))
    (inDeg : List (String × Int)) (result : List SortedNode) :
    kahnLoop adj nm (fuel + 1) ((cid, lvl) :: rest) inDeg result =
      kahnLoop adj nm fuel
        (processNeighbors lvl (JSMap.getD adj cid []) inDeg rest).2
        (processNeighbors lvl (JSMap.getD adj cid []) inDeg rest).1
        (match JSMap.get nm cid with
         | some currentNode => result ++ [{ node := currentNode, level := lvl }]
         | none => result) := rfl

theorem kahnLoop_cons_some (adj : List (String × List String)) (nm : List (String × Node))
    (fuel : Nat) (cid : String) (lvl : Nat) (rest : List (String × Nat))
    (inDeg : List (String × Int)) (result : List SortedNode) (nn : Node)
    (hget : JSMap.get nm cid = some nn) :
    kahnLoop adj nm (fuel + 1) ((cid, lvl) :: rest) inDeg result =
      kahnLoop adj nm fuel
        (processNeighbors lvl (JSMap.getD adj cid []) inDeg rest).2
        (processNeighbors lvl (JSMap.getD adj cid []) inDeg rest).1
        (result ++ [({ node := nn, level := lvl } : SortedNode)]) := by
  rw [kahnLoop_cons, hget]

theorem engineLoop_nil (adj : List (String × List String)) (fuel : Nat)
    (inDeg : List (String × Int)) (order : List String) :
    ExecutionEngine.engineLoop adj fuel [] inDeg order = order := by
  cases fuel <;> rfl

theorem engineLoop_cons (adj : List (String × List String)) (fuel : Nat)
    (cid : String) (rest : List String) (inDeg : List (String × Int))
    (order : List String) :
    ExecutionEngine.engineLoop adj (fuel + 1) (cid :: rest) inDeg order =
      ExecutionEngine.engineLoop adj fuel
        (ExecutionEngine.engineProcessNeighbors (JSMap.getD adj cid []) inDeg rest).2
        (ExecutionEngine.engineProcessNeighbors (JSMap.getD adj cid []) inDeg rest).1
        (order ++ [cid]) := rfl

/-- The outer-loop invariant of Kahn's algorithm: `out` is the list of emitted
ids, `queueIds` the queued ids, `inDeg` the current in-degree map. -/
structure KahnInv (nodes : List Node) (edges : List EdgeT)
    (out queueIds : List String) (inDeg : List (String × Int)) : Prop where
  nodup : (out ++ queueIds).Nodup
  sub : ∀ x ∈ out ++ queueIds, x ∈ nodes.map (·.id)
  val : ∀ v ∈ nodes.map (·.id), JSMap.get inDeg v = some (cnt edges out v : Int)
  qsrc : ∀ x ∈ queueIds, ∀ e ∈ edges, e.target = x → e.source ∈ out
  pos : ∀ v ∈ nodes.map (·.id), v ∉ out → v ∉ queueIds → 0 < cnt edges out v
  ord : ∀ e ∈ edges, e.target ∈ out →
    ∃ i j, i < j ∧ out.get? i = some e.source ∧ out.get? j = some e.target

theorem kahnLoop_spec (nodes : List Node) (edges : List EdgeT)
    (hnd : (nodes.map (·.id)).Nodup)
    (hes : ∀ e ∈ edges, e.source ∈ nodes.map (·.id))
    (het : ∀ e ∈ edges, e.target ∈ nodes.map (·.id)) :
    ∀ (fuel : Nat) (queue : List (String × Nat)) (inDeg : List (String × Int))
      (result : List SortedNode),
      (nodes.map (·.id)).length ≤ fuel + (result.map (fun sn => sn.node.id)).length →
      KahnInv nodes edges (result.map (fun sn => sn.node.id)) (queue.map (·.1)) inDeg →
      (∀ sn ∈ result,
        JSMap.get (buildState nodes edges).nodeMap sn.node.id = some sn.node) →
      (∃ ext, kahnLoop (buildState nodes edges).adjacencyList
          (buildState nodes edges).nodeMap fuel queue inDeg result = result ++ ext) ∧
      ((kahnLoop (buildState nodes edges).adjacencyList
          (buildState nodes edges).nodeMap fuel queue inDeg result).map
          (fun sn => sn.node.id)).Nodup ∧
      (∀ x ∈ (kahnLoop (buildState nodes edges).adjacencyList
          (buildState nodes edges).nodeMap fuel queue inDeg result).map
          (fun sn => sn.node.id), x ∈ nodes.map (·.id)) ∧
      (∀ v ∈ nodes.map (·.id),
        v ∉ (kahnLoop (buildState nodes edges).adjacencyList
          (buildState nodes edges).nodeMap fuel queue inDeg result).map
          (fun sn => sn.node.id) →
        0 < cnt edges ((kahnLoop (buildState nodes edges).adjacencyList
          (buildState nodes edges).nodeMap fuel queue inDeg result).map
          (fun sn => sn.node.id)) v) ∧
      (∀ e ∈ edges, e.target ∈ (kahnLoop (buildState nodes edges).adjacencyList
          (buildState nodes edges).nodeMap fuel queue inDeg result).map
          (fun sn => sn.node.id) →
        ∃ i j, i < j ∧
          ((kahnLoop (buildState nodes edges).adjacencyList
            (buildState nodes edges).nodeMap fuel queue inDeg result).map
            (fun sn => sn.node.id)).get? i = some e.source ∧
          ((kahnLoop (buildState nodes edges).adjacencyList
            (buildState nodes edges).nodeMap fuel queue inDeg result).map
            (fun sn => sn.node.id)).get? j = some e.target) ∧
      (∀ sn ∈ kahnLoop (buildState nodes edges).adjacencyList
          (buildState nodes edges).nodeMap fuel queue inDeg result,
        JSMap.get (buildState nodes edges).nodeMap sn.node.id = some sn.node) ∧
      (ExecutionEngine.engineLoop (buildState nodes edges).adjacencyList fuel
          (queue.map (·.1)) inDeg (result.map (fun sn => sn.node.id)) =
        (kahnLoop (buildState nodes edges).adjacencyList
          (buildState nodes edges).nodeMap fuel queue inDeg result).map
          (fun sn => sn.node.id)) := by
  intro fuel
  induction fuel with
  | zero =>
      intro queue inDeg result hfuel inv hres
      rcases queue with _ | ⟨⟨cid, lvl⟩, rest⟩
      · rw [kahnLoop_nil, List.map_nil, engineLoop_nil]
        rw [List.map_nil] at inv
        refine ⟨⟨[], by simp⟩, ?_, ?_, ?_, ?_, hres, rfl⟩
        · have := inv.nodup
          rw [List.append_nil] at this
          exact this
        · intro x hx
          exact inv.sub x (by rw [List.append_nil]; exact hx)
        · intro v hv hvo
          exact inv.pos v hv hvo (List.not_mem_nil v)
        · exact inv.ord
      · exfalso
        have hlen := nodup_subset_length_le _ _ inv.nodup inv.sub
        rw [List.length_append, List.map_cons, List.length_cons] at hlen
        omega
  | succ fuel ih =>
      intro queue inDeg result hfuel inv hres
      rcases queue with _ | ⟨⟨cid, lvl⟩, rest⟩
      · rw [kahnLoop_nil, List.map_nil, engineLoop_nil]
        rw [List.map_nil] at inv
        refine ⟨⟨[], by simp⟩, ?_, ?_, ?_, ?_, hres, rfl⟩
        · have := inv.nodup
          rw [List.append_nil] at this
          exact this
        · intro x hx
          exact inv.sub x (by rw [List.append_nil]; exact hx)
        · intro v hv hvo
          exact inv.pos v hv hvo (List.not_mem_nil v)
        · exact inv.ord
      · -- main step: dequeue `cid`
        have hqmap : (((cid, lvl) :: rest).map (·.1)) = cid :: rest.map (·.1) := rfl
        rw [hqmap] at inv
        set out := result.map (fun sn => sn.node.id) with hout
        have hcid_q : cid ∈ cid :: rest.map (·.1) := List.mem_cons_self _ _
        have hcid_mem : cid ∈ nodes.map (·.id) :=
          inv.sub cid (List.mem_append.mpr (Or.inr hcid_q))
        have hcid_notout : cid ∉ out := by
          intro h
          exact (List.nodup_append.mp inv.nodup).2.2 h hcid_q
        rcases (mem_ids_iff nodes cid).mp hcid_mem with ⟨nn, hnn, hnnid⟩
        have hnm : JSMap.get (buildState nodes edges).nodeMap cid = some nn := by
          rw [← hnnid]
          exact buildState_nodeMap_mem nodes edges hnd nn hnn
        have hadj : JSMap.getD (buildState nodes edges).adjacencyList cid [] =
            targetsOf edges cid :=
          buildState_adjacency nodes edges hnd hes cid hcid_mem
        -- the new emitted list
        have hout2 : (result ++ [({ node := nn, level := lvl } : SortedNode)]).map (fun sn => sn.node.id) =
            out ++ [cid] := by
          rw [List.map_append]
          rw [show ([({ node := nn, level := lvl } : SortedNode)].map (fun sn => sn.node.id)) =
            [nn.id] from rfl]
          rw [hout, hnnid]
        -- inner-loop hypotheses
        have htodo : ∀ t ∈ targetsOf edges cid, t ∈ nodes.map (·.id) := by
          intro t ht
          rcases (mem_targetsOf edges cid t).mp ht with ⟨e, he, _, hte⟩
          rw [← hte]
          exact het e he
        have htodoOut : ∀ t ∈ targetsOf edges cid, t ∉ out ++ [cid] := by
          intro t ht hmem
          rcases (mem_targetsOf edges cid t).mp ht with ⟨e, he, hs, hte⟩
          rcases List.mem_append.mp hmem with h | h
          · -- `t` already emitted: its sources were emitted before, so `cid ∈ out`
            rcases inv.ord e he (by rw [hte]; exact h) with ⟨i, j, _, hgi, _⟩
            have : e.source ∈ out := List.get?_mem hgi
            rw [hs] at this
            exact hcid_notout this
          · rw [List.mem_singleton] at h
            have := inv.qsrc cid hcid_q e he (by rw [hte, h])
            rw [hs] at this
            exact hcid_notout this
        have hval : ∀ v ∈ nodes.map (·.id),
            JSMap.get inDeg v = some ((cnt edges (out ++ [cid]) v : Int) +
              ((targetsOf edges cid).count v : Int)) := by
          intro v hv
          rw [inv.val v hv]
          congr 1
          rw [cnt_out_extend edges out v cid hcid_notout]
          push_cast
          ring
        have hinnernodup : ((out ++ [cid]) ++ rest.map (·.1)).Nodup := by
          have := inv.nodup
          rw [show out ++ cid :: rest.map (·.1) = (out ++ [cid]) ++ rest.map (·.1) by
            rw [List.append_assoc]; rfl] at this
          exact this
        have hqids : ∀ x ∈ rest.map (·.1), x ∈ nodes.map (·.id) := by
          intro x hx
          exact inv.sub x (List.mem_append.mpr (Or.inr (List.mem_cons_of_mem _ hx)))
        have hqzero : ∀ x ∈ rest.map (·.1),
            cnt edges (out ++ [cid]) x = 0 ∧ (targetsOf edges cid).count x = 0 := by
          intro x hx
          constructor
          · rw [cnt_eq_zero_iff]
            intro e he hte
            have := inv.qsrc x (List.mem_cons_of_mem _ hx) e he hte
            exact List.mem_append.mpr (Or.inl this)
          · rw [List.count_eq_zero]
            intro hmem
            rcases (mem_targetsOf edges cid x).mp hmem with ⟨e, he, hs, hte⟩
            have := inv.qsrc x (List.mem_cons_of_mem _ hx) e he hte
            rw [hs] at this
            exact hcid_notout this
        have hpos : ∀ v ∈ nodes.map (·.id), v ∉ out ++ [cid] → v ∉ rest.map (·.1) →
            0 < cnt edges (out ++ [cid]) v + (targetsOf edges cid).count v := by
          intro v hv hvo hvq
          have hv1 : v ∉ out := fun h => hvo (List.mem_append.mpr (Or.inl h))
          have hv2 : v ≠ cid := fun h => hvo (List.mem_append.mpr (Or.inr (by simp [h])))
          have hv3 : v ∉ cid :: rest.map (·.1) := by
            intro h
            rcases List.mem_cons.mp h with h' | h'
            · exact hv2 h'
            · exact hvq h'
          have := inv.pos v hv hv1 hv3
          rw [cnt_out_extend edges out v cid hcid_notout] at this
          exact this
        have hinner := processNeighbors_spec edges (nodes.map (·.id)) (out ++ [cid]) lvl
          (targetsOf edges cid) inDeg rest htodo htodoOut hval hinnernodup hqids hqzero hpos
        -- the invariant for the recursive call
        have hord' : ∀ e ∈ edges, e.target ∈ out ++ [cid] →
            ∃ i j, i < j ∧ (out ++ [cid]).get? i = some e.source ∧
              (out ++ [cid]).get? j = some e.target := by
          intro e he hte
          rcases List.mem_append.mp hte with h | h
          · rcases inv.ord e he h with ⟨i, j, hij, hgi, hgj⟩
            have hi : i < out.length := by
              rcases List.get?_eq_some.mp hgi with ⟨h', _⟩
              exact h'
            have hj : j < out.length := by
              rcases List.get?_eq_some.mp hgj with ⟨h', _⟩
              exact h'
            exact ⟨i, j, hij, by rw [List.get?_append hi]; exact hgi,
              by rw [List.get?_append hj]; exact hgj⟩
          · rw [List.mem_singleton] at h
            have hsrc : e.source ∈ out := inv.qsrc cid hcid_q e he h
            rcases List.get?_of_mem hsrc with ⟨i, hgi⟩
            have hi : i < out.length := by
              rcases List.get?_eq_some.mp hgi with ⟨h', _⟩
              exact h'
            refine ⟨i, out.length, hi, by rw [List.get?_append hi]; exact hgi, ?_⟩
            rw [h, List.get?_concat_length]
        have hinv' : KahnInv nodes edges (out ++ [cid])
            ((processNeighbors lvl (targetsOf edges cid) inDeg rest).2.map (·.1))
            (processNeighbors lvl (targetsOf edges cid) inDeg rest).1 :=
          { nodup := hinner.2.1
            sub := by
              intro x hx
              rcases List.mem_append.mp hx with h | h
              · rcases List.mem_append.mp h with h' | h'
                · exact inv.sub x (List.mem_append.mpr (Or.inl h'))
                · rw [List.mem_singleton] at h'
                  rw [h']
                  exact hcid_mem
              · exact hinner.2.2.1 x h
            val := hinner.1
            qsrc := by
              intro x hx e he hte
              have hz := hinner.2.2.2.1 x hx
              rw [cnt_eq_zero_iff] at hz
              exact hz e he hte
            pos := hinner.2.2.2.2.1
            ord := hord' }
        have hres' : ∀ sn ∈ result ++ [({ node := nn, level := lvl } : SortedNode)],
            JSMap.get (buildState nodes edges).nodeMap sn.node.id = some sn.node := by
          intro sn hsn
          rcases List.mem_append.mp hsn with h | h
          · exact hres sn h
          · rw [List.mem_singleton] at h
            rw [h]
            show JSMap.get (buildState nodes edges).nodeMap nn.id = some nn
            exact buildState_nodeMap_mem nodes edges hnd nn hnn
        have hfuel' : (nodes.map (·.id)).length ≤ fuel +
            ((result ++ [({ node := nn, level := lvl } : SortedNode)]).map (fun sn => sn.node.id)).length := by
          rw [hout2, List.length_append]
          simp only [List.length_singleton]
          omega
        have hih := ih (processNeighbors lvl (targetsOf edges cid) inDeg rest).2
          (processNeighbors lvl (targetsOf edges cid) inDeg rest).1
          (result ++ [({ node := nn, level := lvl } : SortedNode)])
          hfuel'
          (by rw [hout2]; exact hinv') hres'
        -- step equations
        rw [kahnLoop_cons_some (buildState nodes edges).adjacencyList
          (buildState nodes edges).nodeMap fuel cid lvl rest inDeg result nn hnm]
        rw [hqmap, engineLoop_cons]
        rw [hadj]
        refine ⟨?_, hih.2.1, hih.2.2.1, hih.2.2.2.1, hih.2.2.2.2.1, hih.2.2.2.2.2.1, ?_⟩
        · rcases hih.1 with ⟨ext, hext⟩
          exact ⟨[({ node := nn, level := lvl } : SortedNode)] ++ ext, by
            rw [hext, List.append_assoc]⟩
        · have heng := hinner.2.2.2.2.2
          rw [heng, ← hout2]
          exact hih.2.2.2.2.2.2

theorem nodup_indexOf_of_get? (l : List String) (hnd : l.Nodup) :
    ∀ (i : Nat) (x : String), l.get? i = some x → l.indexOf x = i := by
  induction l with
  | nil => intro i x h; simp [List.get?] at h
  | cons a as ih =>
      intro i x h
      rcases List.nodup_cons.mp hnd with ⟨hnotin, hndas⟩
      rcases i with _ | i
      · have : a = x := by simpa using h
        rw [← this, List.indexOf_cons_self]
      · have h' : as.get? i = some x := by simpa using h
        have hmem : x ∈ as := List.get?_mem h'
        have hne : x ≠ a := by
          rintro rfl
          exact hnotin hmem
        rw [List.indexOf_cons_ne as (fun hh => hne hh.symm), ih hndas i x h']

/-- The bundled facts about `sort` (and the engine loop on the same state),
instantiating `kahnLoop_spec` at the initial state. -/
theorem sort_main (nodes : List Node) (edges : List EdgeT)
    (hnd : (nodes.map (·.id)).Nodup)
    (hes : ∀ e ∈ edges, e.source ∈ nodes.map (·.id))
    (het : ∀ e ∈ edges, e.target ∈ nodes.map (·.id)) :
    ((sort nodes edges).map (fun sn => sn.node.id)).Nodup ∧
    (∀ x ∈ (sort nodes edges).map (fun sn => sn.node.id), x ∈ nodes.map (·.id)) ∧
    (∀ v ∈ nodes.map (·.id), v ∉ (sort nodes edges).map (fun sn => sn.node.id) →
      0 < cnt edges ((sort nodes edges).map (fun sn => sn.node.id)) v) ∧
    (∀ e ∈ edges, e.target ∈ (sort nodes edges).map (fun sn => sn.node.id) →
      ∃ i j, i < j ∧
        ((sort nodes edges).map (fun sn => sn.node.id)).get? i = some e.source ∧
        ((sort nodes edges).map (fun sn => sn.node.id)).get? j = some e.target) ∧
    (∀ sn ∈ sort nodes edges,
      JSMap.get (buildState nodes edges).nodeMap sn.node.id = some sn.node) ∧
    (ExecutionEngine.engineLoop (buildState nodes edges).adjacencyList
        (2 * (nodes.length + edges.length) + 1)
        ((seedQueue (buildState nodes edges).inDegree).map (·.1))
        (buildState nodes edges).inDegree [] =
      (sort nodes edges).map (fun sn => sn.node.id)) := by
  have hbi := buildState_inDegree nodes edges hnd het
  have hseed_nodup : ((seedQueue (buildState nodes edges).inDegree).map (·.1)).Nodup := by
    refine (seedQueue_ids_sublist _).nodup ?_
    rw [hbi.2]
    exact hnd
  have hseed_sub : ∀ x ∈ (seedQueue (buildState nodes edges).inDegree).map (·.1),
      x ∈ nodes.map (·.id) := by
    intro x hx
    have := (seedQueue_ids_sublist (buildState nodes edges).inDegree).subset hx
    rw [hbi.2] at this
    exact this
  have hseed_cnt : ∀ x ∈ (seedQueue (buildState nodes edges).inDegree).map (·.1),
      cnt edges [] x = 0 := by
    intro x hx
    rcases (mem_seedQueue_ids _ x).mp hx with ⟨d, hd, rfl⟩
    have hget : JSMap.get (buildState nodes edges).inDegree x = some 0 := by
      refine JSMap.get_eq_some_of_mem _ _ _ ?_ hd
      rw [hbi.2]
      exact hnd
    have := hbi.1 x (hseed_sub x hx)
    rw [hget] at this
    have h0 : ((cnt edges [] x : Nat) : Int) = 0 := (Option.some.inj this).symm
    exact_mod_cast h0
  have hinv : KahnInv nodes edges []
      ((seedQueue (buildState nodes edges).inDegree).map (·.1))
      (buildState nodes edges).inDegree :=
    { nodup := by rw [List.nil_append]; exact hseed_nodup
      sub := by
        intro x hx
        rw [List.nil_append] at hx
        exact hseed_sub x hx
      val := hbi.1
      qsrc := by
        intro x hx e he hte
        have := hseed_cnt x hx
        rw [cnt_eq_zero_iff] at this
        exact this e he hte
      pos := by
        intro v hv _ hvq
        rcases Nat.eq_zero_or_pos (cnt edges [] v) with h0 | hpos
        · exfalso
          have hget := hbi.1 v hv
          rw [h0] at hget
          have hmem : (v, (0 : Int)) ∈ (buildState nodes edges).inDegree := by
            apply JSMap.mem_of_get_eq_some
            simpa using hget
          exact hvq ((mem_seedQueue_ids _ v).mpr ⟨0, hmem, rfl⟩)
        · exact hpos
      ord := by
        intro e _ hte
        exact absurd hte (List.not_mem_nil _) }
  have hfuel : (nodes.map (·.id)).length ≤ 2 * (nodes.length + edges.length) + 1 +
      (([] : List SortedNode).map (fun sn => sn.node.id)).length := by
    rw [List.length_map, List.map_nil]
    simp only [List.length_nil]
    omega
  have hmain := kahnLoop_spec nodes edges hnd hes het
    (2 * (nodes.length + edges.length) + 1)
    (seedQueue (buildState nodes edges).inDegree)
    (buildState nodes edges).inDegree [] hfuel
    (by rw [List.map_nil]; exact hinv)
    (fun sn hsn => absurd hsn (List.not_mem_nil sn))
  have hsort_eq : sort nodes edges =
      kahnLoop (buildState nodes edges).adjacencyList (buildState nodes edges).nodeMap
        (2 * (nodes.length + edges.length) + 1)
        (seedQueue (buildState nodes edges).inDegree)
        (buildState nodes edges).inDegree [] := rfl
  rw [hsort_eq]
  refine ⟨hmain.2.1, hmain.2.2.1, hmain.2.2.2.1, hmain.2.2.2.2.1, hmain.2.2.2.2.2.1, ?_⟩
  have := hmain.2.2.2.2.2.2
  rw [List.map_nil] at this
  exact this

/-- If Kahn's algorithm leaves some node unemitted, every unemitted node keeps
an unemitted predecessor, and iterating the predecessor choice long enough
pigeonholes into a directed cycle. -/
theorem cycle_of_incomplete (nodes : List Node) (edges : List EdgeT)
    (hes : ∀ e ∈ edges, e.source ∈ nodes.map (·.id))
    (fids : List String)
    (hmiss : ∀ v ∈ nodes.map (·.id), v ∉ fids → 0 < cnt edges fids v)
    (v₀ : String) (hv₀ : v₀ ∈ nodes.map (·.id)) (hv₀n : v₀ ∉ fids) :
    HasCycle edges := by
  classical
  set f : String → String := fun v =>
    match edges.find? (fun e => decide (e.target = v ∧ e.source ∉ fids)) with
    | some e => e.source
    | none => v with hf
  have hstep : ∀ v, v ∈ nodes.map (·.id) → v ∉ fids →
      (f v ∈ nodes.map (·.id) ∧ f v ∉ fids ∧
        ∃ e ∈ edges, e.source = f v ∧ e.target = v) := by
    intro v hv hvn
    have hpos := hmiss v hv hvn
    rw [cnt_pos_iff] at hpos
    rcases hpos with ⟨e, he, hte, hse⟩
    rcases hfind : edges.find? (fun e => decide (e.target = v ∧ e.source ∉ fids)) with _ | e'
    · exfalso
      have := List.find?_eq_none.mp hfind e he
      simp only [decide_eq_true_eq, not_and, not_not] at this
      exact hse (this hte)
    · have hmem := List.mem_of_find?_eq_some hfind
      have hprop := List.find?_some hfind
      simp only [decide_eq_true_eq] at hprop
      have hfv : f v = e'.source := by
        rw [hf]
        simp only [hfind]
      rw [hfv]
      exact ⟨hes e' hmem, hprop.2, e', hmem, rfl, hprop.1⟩
  have hiter : ∀ m, f^[m] v₀ ∈ nodes.map (·.id) ∧ f^[m] v₀ ∉ fids := by
    intro m
    induction m with
    | zero => exact ⟨hv₀, hv₀n⟩
    | succ m ihm =>
        rw [Function.iterate_succ_apply']
        exact ⟨(hstep _ ihm.1 ihm.2).1, (hstep _ ihm.1 ihm.2).2.1⟩
  have hedge : ∀ m, ∃ e ∈ edges, e.source = f^[m + 1] v₀ ∧ e.target = f^[m] v₀ := by
    intro m
    rw [Function.iterate_succ_apply']
    exact (hstep _ (hiter m).1 (hiter m).2).2.2
  have hwalk : ∀ d a, walkN edges d (f^[a + d] v₀) (f^[a] v₀) := by
    intro d
    induction d with
    | zero => intro a; rfl
    | succ d ihd =>
        intro a
        rcases hedge (a + d) with ⟨e, he, hsrc, htgt⟩
        refine ⟨e, he, by rw [show a + (d + 1) = a + d + 1 from by omega]; exact hsrc, ?_⟩
        rw [htgt]
        exact ihd a
  -- pigeonhole on the iterates
  set B : List String := (nodes.map (·.id)).filter (fun v => decide (v ∉ fids)) with hB
  have hmapsto : ∀ m ∈ Finset.range (B.length + 1), f^[m] v₀ ∈ B.toFinset := by
    intro m _
    rw [List.mem_toFinset, hB, List.mem_filter]
    exact ⟨(hiter m).1, by simpa using (hiter m).2⟩
  have hcard : B.toFinset.card < (Finset.range (B.length + 1)).card := by
    rw [Finset.card_range]
    have := B.toFinset_card_le
    omega
  rcases Finset.exists_ne_map_eq_of_card_lt_of_maps_to hcard hmapsto with
    ⟨i, _, j, _, hij, heq⟩
  rcases Nat.lt_or_ge i j with hlt | hge
  · refine ⟨f^[i] v₀, j - i, by omega, ?_⟩
    have := hwalk (j - i) i
    rw [show i + (j - i) = j by omega] at this
    rw [← heq] at this
    exact this
  · have hlt' : j < i := by
      rcases Nat.eq_or_lt_of_le hge with h | h
      · exact absurd h.symm hij
      · exact h
    refine ⟨f^[j] v₀, i - j, by omega, ?_⟩
    have := hwalk (i - j) j
    rw [show j + (i - j) = i by omega] at this
    rw [heq] at this
    exact this

/-- Walking along edges moves strictly backwards in the emitted order. -/
theorem walk_indexOf_lt (edges : List EdgeT) (fids : List String) (hnd : fids.Nodup)
    (hord : ∀ e ∈ edges, e.target ∈ fids →
      ∃ i j, i < j ∧ fids.get? i = some e.source ∧ fids.get? j = some e.target) :
    ∀ (k : Nat) (a b : String), walkN edges k a b → b ∈ fids →
      a ∈ fids ∧ (1 ≤ k → fids.indexOf a < fids.indexOf b) := by
  intro k
  induction k with
  | zero =>
      intro a b hab _
      cases hab
      exact ⟨by assumption, by omega⟩
  | succ k ihk =>
      rintro a b ⟨e, he, hsrc, hw⟩ hb
      rcases ihk e.target b hw hb with ⟨htmem, hidx⟩
      rcases hord e he htmem with ⟨i, j, hij, hgi, hgj⟩
      have hia : fids.indexOf e.source = i := nodup_indexOf_of_get? fids hnd i _ hgi
      have hjt : fids.indexOf e.target = j := nodup_indexOf_of_get? fids hnd j _ hgj
      have hsmem : e.source ∈ fids := List.get?_mem hgi
      rw [hsrc] at hsmem
      refine ⟨hsmem, fun _ => ?_⟩
      rcases Nat.eq_zero_or_pos k with hk0 | hkpos
      · subst hk0
        cases hw
        rw [← hsrc, hia, hjt]
        exact hij
      · have h2 := hidx hkpos
        rw [← hsrc, hia]
        omega

end TopologicalSort

/--
C1: For every acyclic graph (node list with unique ids, edge list whose
endpoints are node ids), `TopologicalSort.sort` returns a sequence containing
every node exactly once, and for every edge `(u → v)`, `u` appears strictly
before `v` in that sequence.
-/
theorem claim_C1 (nodes : List Node) (edges : List EdgeT)
    (hnd : (nodes.map (·.id)).Nodup)
    (hep : ∀ e ∈ edges, e.source ∈ nodes.map (·.id) ∧ e.target ∈ nodes.map (·.id))
    (hac : ¬HasCycle edges) :
    List.Perm ((TopologicalSort.sort nodes edges).map (fun sn => sn.node)) nodes ∧
    ∀ e ∈ edges,
      (TopologicalSort.getExecutionOrder (TopologicalSort.sort nodes edges)).indexOf
          e.source <
        (TopologicalSort.getExecutionOrder (TopologicalSort.sort nodes edges)).indexOf
          e.target := by
  have hes : ∀ e ∈ edges, e.source ∈ nodes.map (·.id) := fun e he => (hep e he).1
  have het : ∀ e ∈ edges, e.target ∈ nodes.map (·.id) := fun e he => (hep e he).2
  have hmain := TopologicalSort.sort_main nodes edges hnd hes het
  have hcomplete : ∀ v ∈ nodes.map (·.id),
      v ∈ (TopologicalSort.sort nodes edges).map (fun sn => sn.node.id) := by
    intro v hv
    by_contra hvn
    exact hac (TopologicalSort.cycle_of_incomplete nodes edges hes _
      hmain.2.2.1 v hv hvn)
  have hperm_ids : List.Perm
      ((TopologicalSort.sort nodes edges).map (fun sn => sn.node.id))
      (nodes.map (·.id)) := by
    refine (List.perm_ext_iff_of_nodup hmain.1 hnd).mpr ?_
    intro a
    exact ⟨fun h => hmain.2.1 a h, fun h => hcomplete a h⟩
  constructor
  · -- every node exactly once
    have h1 : (TopologicalSort.sort nodes edges).map (fun sn => sn.node) =
        ((TopologicalSort.sort nodes edges).map (fun sn => sn.node.id)).map
          (fun k => (JSMap.get (TopologicalSort.buildState nodes edges).nodeMap k).getD
            { id := k }) := by
      rw [List.map_map]
      refine List.map_congr_left ?_
      intro sn hsn
      show sn.node =
        (JSMap.get (TopologicalSort.buildState nodes edges).nodeMap sn.node.id).getD
          { id := sn.node.id }
      rw [hmain.2.2.2.2.1 sn hsn]
      rfl
    have h2 : (nodes.map (·.id)).map
        (fun k => (JSMap.get (TopologicalSort.buildState nodes edges).nodeMap k).getD
          { id := k }) = nodes := by
      rw [List.map_map]
      have : ∀ n ∈ nodes,
          ((fun k => (JSMap.get (TopologicalSort.buildState nodes edges).nodeMap k).getD
            { id := k }) ∘ (·.id)) n = (fun x => x) n := by
        intro n hn
        show (JSMap.get (TopologicalSort.buildState nodes edges).nodeMap n.id).getD
          { id := n.id } = n
        rw [TopologicalSort.buildState_nodeMap_mem nodes edges hnd n hn]
        rfl
      rw [List.map_congr_left this, List.map_id' nodes]
    have hpm := hperm_ids.map
      (fun k => (JSMap.get (TopologicalSort.buildState nodes edges).nodeMap k).getD
        { id := k })
    rw [h2] at hpm
    rw [h1]
    exact hpm
  · -- edge ordering
    intro e he
    have htmem : e.target ∈ (TopologicalSort.sort nodes edges).map (fun sn => sn.node.id) :=
      hcomplete e.target (het e he)
    rcases hmain.2.2.2.1 e he htmem with ⟨i, j, hij, hgi, hgj⟩
    show ((TopologicalSort.sort nodes edges).map (fun sn => sn.node.id)).indexOf e.source <
      ((TopologicalSort.sort nodes edges).map (fun sn => sn.node.id)).indexOf e.target
    rw [TopologicalSort.nodup_indexOf_of_get? _ hmain.1 i _ hgi,
      TopologicalSort.nodup_indexOf_of_get? _ hmain.1 j _ hgj]
    exact hij

/--
C1 witness: on the two-node graph `a → b` the sort is a permutation of the
nodes and `a` precedes `b`.
-/
theorem claim_C1_witness :
    List.Perm ((TopologicalSort.sort
        [{ id := "a", type := some "t" }, { id := "b", type := some "t" }]
        [{ id := "e1", source := "a", target := "b" }]).map (fun sn => sn.node))
      [{ id := "a", type := some "t" }, { id := "b", type := some "t" }] ∧
    ∀ e ∈ [({ id := "e1", source := "a", target := "b" } : EdgeT)],
      (TopologicalSort.getExecutionOrder (TopologicalSort.sort
          [{ id := "a", type := some "t" }, { id := "b", type := some "t" }]
          [{ id := "e1", source := "a", target := "b" }])).indexOf e.source <
      (TopologicalSort.getExecutionOrder (TopologicalSort.sort
          [{ id := "a", type := some "t" }, { id := "b", type := some "t" }]
          [{ id := "e1", source := "a", target := "b" }])).indexOf e.target :=
  claim_C1
    [{ id := "a", type := some "t" }, { id := "b", type := some "t" }]
    [{ id := "e1", source := "a", target := "b" }]
    (by decide) (by decide)
    (noCycle_of_rank _ (fun s => if s = "a" then 0 else 1) (by decide))

/--
C2: For every graph (with unique node ids and edge endpoints among the node
ids) containing a directed cycle, the scheduler never silently emits all
nodes: `TopologicalSort.sort` emits strictly fewer nodes than exist, and its
caller in the executor, `ExecutionEngine.getExecutionOrder`, fails with the
`CycleDetected` error rather than returning a partial order.
-/
theorem claim_C2 (nodes : List Node) (edges : List EdgeT)
    (hnd : (nodes.map (·.id)).Nodup)
    (hep : ∀ e ∈ edges, e.source ∈ nodes.map (·.id) ∧ e.target ∈ nodes.map (·.id))
    (hcy : HasCycle edges) :
    (TopologicalSort.sort nodes edges).length < nodes.length ∧
    ExecutionEngine.getExecutionOrder nodes edges =
      Except.error "Cycle detected in workflow graph" := by
  have hes : ∀ e ∈ edges, e.source ∈ nodes.map (·.id) := fun e he => (hep e he).1
  have het : ∀ e ∈ edges, e.target ∈ nodes.map (·.id) := fun e he => (hep e he).2
  have hmain := TopologicalSort.sort_main nodes edges hnd hes het
  rcases hcy with ⟨v, k, hk, hwalk⟩
  have hvmem : v ∈ nodes.map (·.id) := by
    rcases k with _ | k
    · omega
    · rcases hwalk with ⟨e, he, hsrc, _⟩
      rw [← hsrc]
      exact hes e he
  have hvnot : v ∉ (TopologicalSort.sort nodes edges).map (fun sn => sn.node.id) := by
    intro hin
    have := (TopologicalSort.walk_indexOf_lt edges _ hmain.1 hmain.2.2.2.1
      k v v hwalk hin).2 hk
    omega
  have hlt : ((TopologicalSort.sort nodes edges).map (fun sn => sn.node.id)).length <
      nodes.length := by
    have hsub : ∀ x ∈ (TopologicalSort.sort nodes edges).map (fun sn => sn.node.id),
        x ∈ (nodes.map (·.id)).erase v := by
      intro x hx
      have hxv : x ≠ v := by
        rintro rfl
        exact hvnot hx
      exact (List.mem_erase_of_ne hxv).mpr (hmain.2.1 x hx)
    have h1 := TopologicalSort.nodup_subset_length_le _ _ hmain.1 hsub
    have h2 : ((nodes.map (·.id)).erase v).length = (nodes.map (·.id)).length - 1 :=
      List.length_erase_of_mem hvmem
    have h3 : 0 < (nodes.map (·.id)).length := List.length_pos_of_mem hvmem
    rw [List.length_map] at *
    omega
  constructor
  · rw [List.length_map] at hlt
    exact hlt
  · have hgeo : ExecutionEngine.getExecutionOrder nodes edges =
        (if (ExecutionEngine.engineLoop (ExecutionEngine.engineBuild nodes edges).1
            (2 * (nodes.length + edges.length) + 1)
            ((ExecutionEngine.engineBuild nodes edges).2.filterMap
              (fun p => if p.2 = 0 then some p.1 else none))
            (ExecutionEngine.engineBuild nodes edges).2 []).length < nodes.length
         then Except.error "Cycle detected in workflow graph"
         else Except.ok (ExecutionEngine.engineLoop (ExecutionEngine.engineBuild nodes edges).1
            (2 * (nodes.length + edges.length) + 1)
            ((ExecutionEngine.engineBuild nodes edges).2.filterMap
              (fun p => if p.2 = 0 then some p.1 else none))
            (ExecutionEngine.engineBuild nodes edges).2 [])) := rfl
    rw [hgeo, TopologicalSort.engineBuild_eq]
    have hq : ((TopologicalSort.buildState nodes edges).adjacencyList,
        (TopologicalSort.buildState nodes edges).inDegree).2.filterMap
          (fun p => if p.2 = 0 then some p.1 else none) =
        (TopologicalSort.seedQueue
          (TopologicalSort.buildState nodes edges).inDegree).map (·.1) :=
      TopologicalSort.engineSeed_eq _
    rw [hq]
    have heng := hmain.2.2.2.2.2
    rw [show ((TopologicalSort.buildState nodes edges).adjacencyList,
        (TopologicalSort.buildState nodes edges).inDegree).1 =
        (TopologicalSort.buildState nodes edges).adjacencyList from rfl,
      show ((TopologicalSort.buildState nodes edges).adjacencyList,
        (TopologicalSort.buildState nodes edges).inDegree).2 =
        (TopologicalSort.buildState nodes edges).inDegree from rfl]
    rw [heng, if_pos hlt]

/--
C2 witness: on the two-node cycle `a → b → a` the sort emits fewer than two
nodes and `getExecutionOrder` reports the cycle error.
-/
theorem claim_C2_witness :
    (TopologicalSort.sort
        [{ id := "a", type := some "t" }, { id := "b", type := some "t" }]
        [{ id := "e1", source := "a", target := "b" },
         { id := "e2", source := "b", target := "a" }]).length <
      ([{ id := "a", type := some "t" }, { id := "b", type := some "t" }] : List Node).length ∧
    ExecutionEngine.getExecutionOrder
        [{ id := "a", type := some "t" }, { id := "b", type := some "t" }]
        [{ id := "e1", source := "a", target := "b" },
         { id := "e2", source := "b", target := "a" }] =
      Except.error "Cycle detected in workflow graph" :=
  claim_C2
    [{ id := "a", type := some "t" }, { id := "b", type := some "t" }]
    [{ id := "e1", source := "a", target := "b" },
     { id := "e2", source := "b", target := "a" }]
    (by decide) (by decide) ⟨"a", 2, by omega, by decide⟩

/-! ## Graph validator (`GraphValidator` in `src/engine/GraphExecutor.ts`) -/

/-- The validated unit: nodes and edges (plus the id used in error details). -/
structure Graph where
  id : String := ""
  nodes : List Node
  edges : List EdgeT
deriving Repr

/-- The `details` payload attached to a `ValidationError`. -/
inductive ErrorDetails where
  | dGraphId (graphId : String)
  | dNode (node : Node)
  | dNodeId (nodeId : String)
  | dEdge (edge : EdgeT)
  | dEdgeRef (edgeId : String) (refId : String)
  | dEdgePort (edgeId : String) (port : String)
  | dCycle (cycle : Option (List String))
deriving Repr, DecidableEq

/-- A structural validation error (`ValidationError`): message, code, details. -/
structure ValidationError where
  message : String
  code : String
  details : ErrorDetails
deriving Repr, DecidableEq

/-- The result of `validateGraph`. -/
structure ValidationResult where
  valid : Bool
  errors : List ValidationError
  warnings : List String
deriving Repr, DecidableEq

namespace GraphValidator

/-- `validateNodeConfig(node)`: currently no node-type specific checks. -/
def validateNodeConfig (_node : Node) : List ValidationError := []

/-- `validateNode(node, graph)`: missing id, missing type, duplicate id,
config checks. -/
def validateNode (node : Node) (graph : Graph) : List ValidationError :=
  (if node.id = "" then
    [{ message := "Node missing ID", code := "NODE_MISSING_ID",
       details := .dNode node }] else []) ++
  (if strTruthy node.type then [] else
    [{ message := "Node missing type", code := "NODE_MISSING_TYPE",
       details := .dNodeId node.id }]) ++
  (if (graph.nodes.filter (fun n => n.id == node.id)).length > 1 then
    [{ message := "Duplicate node ID", code := "NODE_DUPLICATE_ID",
       details := .dNodeId node.id }] else []) ++
  (if node.data.isSome then validateNodeConfig node else [])

/-- `validateEdge(edge, graph)`: missing endpoints, dangling endpoints, and the
port checks. Note `sourceNode.data?.outputs?.some(...)` is `undefined` when the
node carries no port metadata, and `!undefined` is `true`, so a specified
handle on a metadata-less node is reported as an invalid port. -/
def validateEdge (edge : EdgeT) (graph : Graph) : List ValidationError :=
  (if edge.source = "" then
    [{ message := "Edge missing source", code := "EDGE_MISSING_SOURCE",
       details := .dEdge edge }] else []) ++
  (if edge.target = "" then
    [{ message := "Edge missing target", code := "EDGE_MISSING_TARGET",
       details := .dEdge edge }] else []) ++
  (if (graph.nodes.find? (fun n => n.id == edge.source)).isNone then
    [{ message := "Edge source node not found", code := "EDGE_SOURCE_NOT_FOUND",
       details := .dEdgeRef edge.id edge.source }] else []) ++
  (if (graph.nodes.find? (fun n => n.id == edge.target)).isNone then
    [{ message := "Edge target node not found", code := "EDGE_TARGET_NOT_FOUND",
       details := .dEdgeRef edge.id edge.target }] else []) ++
  (if strTruthy edge.sourceHandle then
    match graph.nodes.find? (fun n => n.id == edge.source) with
    | some sourceNode =>
        if ((sourceNode.data.bind (fun d => d.outputs)).map
            (fun ps => ps.any (fun p => p.name == edge.sourceHandle.getD ""))) =
            some true then []
        else
          [{ message := "Invalid source port", code := "EDGE_INVALID_SOURCE_PORT",
             details := .dEdgePort edge.id (edge.sourceHandle.getD "") }]
    | none => []
   else []) ++
  (if strTruthy edge.targetHandle then
    match graph.nodes.find? (fun n => n.id == edge.target) with
    | some targetNode =>
        if ((targetNode.data.bind (fun d => d.inputs)).map
            (fun ps => ps.any (fun p => p.name == edge.targetHandle.getD ""))) =
            some true then []
        else
          [{ message := "Invalid target port", code := "EDGE_INVALID_TARGET_PORT",
             details := .dEdgePort edge.id (edge.targetHandle.getD "") }]
    | none => []
   else [])

/-- The DFS state of `detectCycles`: visited set, recursion stack, path. -/
structure DfsState where
  visited : List String
  stack : List String
  path : List String
deriving Repr

/-- `Set.add`: append if absent. -/
def addSet (l : List String) (x : String) : List String :=
  if x ∈ l then l else l ++ [x]

/-- `Set.delete`: remove the element. -/
def delSet (l : List String) (x : String) : List String :=
  l.filter (fun y => !(y == x))

/-- The `for (const edge of outgoingEdges)` loop inside `dfs`: recurse (via
`rec`, the recursive `dfs` call) into unvisited targets; report a cycle when a
target is on the recursion stack. -/
def goEdges (rec : String → DfsState → Bool × DfsState) :
    List EdgeT → DfsState → Bool × DfsState
  | [], s => (false, s)
  | e :: rest, s =>
      if e.target ∈ s.visited then
        if e.target ∈ s.stack then (true, { s with path := s.path ++ [e.target] })
        else goEdges rec rest s
      else
        let r := rec e.target s
        if r.1 then r else goEdges rec rest r.2

/-- The recursive `dfs` closure of `detectCycles`: mark the node visited, on
the stack and on the path; explore outgoing edges; on no cycle pop the node. -/
def dfs (graph : Graph) : Nat → String → DfsState → Bool × DfsState
  | 0, _, s => (false, s)
  | fuel + 1, nodeId, s =>
      let s1 : DfsState :=
        { visited := addSet s.visited nodeId
          stack := addSet s.stack nodeId
          path := s.path ++ [nodeId] }
      let r := goEdges (dfs graph fuel)
        (graph.edges.filter (fun e => e.source == nodeId)) s1
      if r.1 then r
      else
        (false,
          { visited := r.2.visited
            stack := delSet r.2.stack nodeId
            path := r.2.path.dropLast })

/-- The fuel passed to the DFS: one more than the number of ids it can ever
visit (node ids plus edge targets). -/
def dfsFuel (graph : Graph) : Nat :=
  (graph.nodes.map (·.id) ++ graph.edges.map (·.target)).length + 1

/-- The `for (const node of graph.nodes)` loop of `detectCycles`. -/
def detectLoop (graph : Graph) (fuel : Nat) : List Node → DfsState → Option (List String)
  | [], _ => none
  | n :: rest, s =>
      if n.id ∈ s.visited then detectLoop graph fuel rest s
      else
        let r := dfs graph fuel n.id s
        if r.1 then some r.2.path
        else detectLoop graph fuel rest r.2

/-- The result record of `detectCycles`. -/
structure CycleResult where
  hasCycle : Bool
  cycle : Option (List String) := none
deriving Repr, DecidableEq

/-- `detectCycles(graph)`: DFS with a recursion stack over every node. -/
def detectCycles (graph : Graph) : CycleResult :=
  match detectLoop graph (dfsFuel graph) graph.nodes
      { visited := [], stack := [], path := [] } with
  | some p => { hasCycle := true, cycle := some p }
  | none => { hasCycle := false }

/-- `findDisconnectedNodes(graph)`: nodes with no incoming and no outgoing edge. -/
def findDisconnectedNodes (graph : Graph) : List Node :=
  graph.nodes.filter (fun node =>
    !(graph.edges.any (fun e => e.target == node.id)) &&
    !(graph.edges.any (fun e => e.source == node.id)))

/-- `validateGraph(graph)`: empty check, per-node and per-edge checks, cycle
detection, disconnection and no-source warnings. -/
def validateGraph (graph : Graph) : ValidationResult :=
  if graph.nodes.length = 0 then
    { valid := false
      errors := [{ message := "Graph is empty", code := "GRAPH_EMPTY",
                   details := .dGraphId graph.id }]
      warnings := [] }
  else
    let errors := graph.nodes.foldl (fun acc n => acc ++ validateNode n graph) []
    let errors := graph.edges.foldl (fun acc e => acc ++ validateEdge e graph) errors
    let cycleResult := detectCycles graph
    let errors := errors ++
      (if cycleResult.hasCycle then
        [{ message := "Graph contains cycles", code := "GRAPH_CYCLE_DETECTED",
           details := .dCycle cycleResult.cycle }] else [])
    let disconnected := findDisconnectedNodes graph
    let warnings : List String :=
      if disconnected.length > 0 then
        ["Found " ++ toString disconnected.length ++ " disconnected nodes: " ++
          String.intercalate ", " (disconnected.map (·.id))]
      else []
    let warnings := warnings ++
      (if (graph.nodes.filter (fun n =>
          !(graph.edges.any (fun e => e.target == n.id)))).length = 0 then
        ["No source nodes found - graph may not execute properly"] else [])
    { valid := errors.length = 0, errors := errors, warnings := warnings }

/-- Modelled from the spec: the `GraphValidator.validate(nodes, edges)`
overload called by `GraphExecutor.execute` is not among the sources (only
`validateGraph(graph)` is). Per §4.1 it runs the same checks on the node/edge
set, so it wraps the pair in a graph container. -/
def validate (nodes : List Node) (edges : List EdgeT) : ValidationResult :=
  validateGraph { id := "", nodes := nodes, edges := edges }

end GraphValidator

/--
C9 (amended): For every edge that specifies a source or target port handle
whose endpoint node exists but declares no port metadata (no
`outputs`/`inputs` list in its data), validation reports
`EDGE_INVALID_SOURCE_PORT` / `EDGE_INVALID_TARGET_PORT` for that edge: the
absent metadata makes the port lookup `undefined`, which the check treats as
a failed match rather than skipping the check.
-/
theorem claim_C9 (edge : EdgeT) (graph : Graph) :
    (strTruthy edge.sourceHandle = true →
      ∀ sn, graph.nodes.find? (fun n => n.id == edge.source) = some sn →
        sn.data.bind (fun d => d.outputs) = none →
        ∃ err ∈ GraphValidator.validateEdge edge graph,
          err.code = "EDGE_INVALID_SOURCE_PORT") ∧
    (strTruthy edge.targetHandle = true →
      ∀ tn, graph.nodes.find? (fun n => n.id == edge.target) = some tn →
        tn.data.bind (fun d => d.inputs) = none →
        ∃ err ∈ GraphValidator.validateEdge edge graph,
          err.code = "EDGE_INVALID_TARGET_PORT") := by
  constructor
  · intro hsh sn hfind hdata
    refine ⟨⟨"Invalid source port", "EDGE_INVALID_SOURCE_PORT",
      .dEdgePort edge.id (edge.sourceHandle.getD "")⟩, ?_, rfl⟩
    unfold GraphValidator.validateEdge
    refine List.mem_append.mpr (Or.inl (List.mem_append.mpr (Or.inr ?_)))
    rw [if_pos hsh, hfind]
    simp [hdata]
  · intro hth tn hfind hdata
    refine ⟨⟨"Invalid target port", "EDGE_INVALID_TARGET_PORT",
      .dEdgePort edge.id (edge.targetHandle.getD "")⟩, ?_, rfl⟩
    unfold GraphValidator.validateEdge
    refine List.mem_append.mpr (Or.inr ?_)
    rw [if_pos hth, hfind]
    simp [hdata]

/--
C9 witness: a node without any `data` payload, referenced as the source of an
edge carrying `sourceHandle = "out"`, is reported with
`EDGE_INVALID_SOURCE_PORT`.
-/
theorem claim_C9_witness :
    strTruthy (({ id := "e1", source := "a", target := "b",
                  sourceHandle := some "out" } : EdgeT)).sourceHandle = true ∧
    ∃ err ∈ (GraphValidator.validateEdge
        { id := "e1", source := "a", target := "b", sourceHandle := some "out" }
        { nodes := [{ id := "a", type := some "t" }, { id := "b", type := some "t" }],
          edges := [] }),
      err.code = "EDGE_INVALID_SOURCE_PORT" :=
  ⟨rfl,
    (claim_C9
      { id := "e1", source := "a", target := "b", sourceHandle := some "out" }
      { nodes := [{ id := "a", type := some "t" }, { id := "b", type := some "t" }],
        edges := [] }).1 rfl { id := "a", type := some "t" } rfl rfl⟩

/--
C9 counterexample to the claim as stated: the source node `a` carries no port
metadata (`data = none`), yet `validateEdge` reports
`EDGE_INVALID_SOURCE_PORT` for the edge with `sourceHandle = "out"` — the
claim demands no such error be reported.
-/
theorem claim_C9_counterexample :
    (({ id := "a", type := some "t" } : Node)).data = none ∧
    (GraphValidator.validateEdge
        { id := "e1", source := "a", target := "b", sourceHandle := some "out" }
        { nodes := [{ id := "a", type := some "t" }, { id := "b", type := some "t" }],
          edges := [] }).map (fun err => err.code) = ["EDGE_INVALID_SOURCE_PORT"] :=
  ⟨rfl, rfl⟩

/--
C8 counterexample to the claim as stated: on the graph `a → b → c → b` the
carried cycle path is the whole DFS path `["a", "b", "c", "b"]`, whose first
id `"a"` differs from its last id `"b"` — the path is not itself a cycle.
-/
theorem claim_C8_counterexample :
    GraphValidator.detectCycles
        { nodes := [{ id := "a", type := some "t" }, { id := "b", type := some "t" },
            { id := "c", type := some "t" }],
          edges := [{ id := "e1", source := "a", target := "b" },
            { id := "e2", source := "b", target := "c" },
            { id := "e3", source := "c", target := "b" }] } =
      { hasCycle := true, cycle := some ["a", "b", "c", "b"] } ∧
    (GraphValidator.validateGraph
        { nodes := [{ id := "a", type := some "t" }, { id := "b", type := some "t" },
            { id := "c", type := some "t" }],
          edges := [{ id := "e1", source := "a", target := "b" },
            { id := "e2", source := "b", target := "c" },
            { id := "e3", source := "c", target := "b" }] }).valid = false ∧
    ({ message := "Graph contains cycles", code := "GRAPH_CYCLE_DETECTED",
       details := .dCycle (some ["a", "b", "c", "b"]) } : ValidationError) ∈
      (GraphValidator.validateGraph
        { nodes := [{ id := "a", type := some "t" }, { id := "b", type := some "t" },
            { id := "c", type := some "t" }],
          edges := [{ id := "e1", source := "a", target := "b" },
            { id := "e2", source := "b", target := "c" },
            { id := "e3", source := "c", target := "b" }] }).errors ∧
    (["a", "b", "c", "b"] : List String).head? = some "a" ∧
    (["a", "b", "c", "b"] : List String).getLast? = some "b" ∧
    ("a" : String) ≠ "b" := by
  refine ⟨rfl, rfl, ?_, rfl, rfl, by decide⟩
  decide

/-! ## Graph executor (`src/engine/GraphExecutor.ts`, handler-registry version)

The executor drives callbacks (`onProgress`, `onNodeExecute`, `onNodeComplete`,
`onNodeError`, `onComplete`, `onError`); the model records each invocation as
an `Event` in a trace, in invocation order. Handlers are `async` and looked up
in `nodeHandlerRegistry`; the model takes the lookup as a parameter
`getHandler` and a handler as a pure fallible function. An `abort()` arriving
from the outside between loop iterations is modelled by a schedule
`abortDuring : Nat → Bool`: the flag is set right after the iteration whose
index the schedule selects completes its dispatch. -/

/-- One callback invocation, in order of occurrence. -/
inductive Event where
  | progress (p : ExecutionProgress)
  | nodeExecute (nodeId : String)
  | nodeComplete (nodeId : String) (output : Value)
  | nodeError (nodeId : String) (message : String)
  | complete (outputs : List (String × Value))
  | error (message : String)
deriving Repr

namespace Event

/-- Discriminator for `onProgress` invocations. -/
def isProgress : Event → Bool
  | .progress _ => true
  | _ => false

/-- Discriminator for `onNodeExecute` invocations. -/
def isNodeExecute : Event → Bool
  | .nodeExecute _ => true
  | _ => false

/-- Discriminator for `onNodeError` invocations. -/
def isNodeError : Event → Bool
  | .nodeError _ _ => true
  | _ => false

/-- Discriminator for `onComplete` invocations. -/
def isComplete : Event → Bool
  | .complete _ => true
  | _ => false

/-- Discriminator for `onError` invocations. -/
def isError : Event → Bool
  | .error _ => true
  | _ => false

/-- The node id of an `onNodeExecute` invocation, if any. -/
def execId : Event → Option String
  | .nodeExecute nodeId => some nodeId
  | _ => none

end Event

/-- The execution context handed to a handler (`NodeHandler.ts`
`ExecutionContext`): the node id and a fresh variables map (the source field
is named `variables`, a reserved word here). -/
structure HandlerExecContext where
  nodeId : String
  vars : List (String × Value)

/-- A handler's result (`NodeOutput` in `NodeHandler.ts`): the executor reads
only `result.data`. -/
structure HandlerOutput where
  data : Value
  metadata : Option Value := none

/-- A node handler's `execute` method: a fallible function of the node, its
inputs and the handler execution context. -/
abbrev Handler :=
  Node → List (String × Value) → HandlerExecContext → Except String HandlerOutput

namespace GraphExecutor

/-- `${node.type}` in a template literal: `undefined` prints as "undefined". -/
def typeStr : Option String → String
  | none => "undefined"
  | some s => s

/-- A port list as a JS value (for the fallback output's `data` field). -/
def encodePorts : Option (List Port) → Value
  | none => Value.vnull
  | some ps => Value.vlist (ps.map (fun p => Value.vobj [("name", Value.vstr p.name)]))

/-- A node's `data` payload as a JS value (the fallback output embeds it). -/
def encodeData : Option NodeData → Value
  | none => Value.vnull
  | some d => Value.vobj [("inputs", encodePorts d.inputs), ("outputs", encodePorts d.outputs)]

/-- `executeNode(node, inputs)`: dispatch to the registered handler and return
`result.data`, wrapping a handler failure in a
"Handler execution failed ..." error; without a handler, return the fallback
object (with `node.type || 'unknown'` under JS truthiness). -/
def executeNode (getHandler : Node → Option Handler) (now : Nat) (node : Node)
    (inputs : List (String × Value)) : Except String Value :=
  match getHandler node with
  | some handler =>
      match handler node inputs { nodeId := node.id, vars := [] } with
      | Except.ok result => Except.ok result.data
      | Except.error e =>
          Except.error ("Handler execution failed for node type \"" ++
            typeStr node.type ++ "\": " ++ e)
  | none =>
      Except.ok (Value.vobj
        [("nodeId", Value.vstr node.id),
         ("type", Value.vstr (jsOrS node.type "unknown")),
         ("inputs", Value.vobj inputs),
         ("data", encodeData node.data),
         ("timestamp", Value.vnum (Int.ofNat now)),
         ("warning", Value.vstr "No handler registered for this node type")])

/-- The `for (const nodeId of executionOrder)` loop of `execute`: check
`isAborted()` before each node; resolve the node (skip if absent);
`setCurrentNode`; fire `onNodeExecute`; gather inputs; dispatch; on success
record the output, fire `onNodeComplete` then `onProgress`; on failure record
the error, fire `onNodeError` and stop with the error. Returns the final
context, the emitted events and the propagated error, if any. -/
def execLoop (getHandler : Node → Option Handler) (now : Nat)
    (abortDuring : Nat → Bool) (nodes : List Node) (edges : List EdgeT) :
    List String → Nat → ExecutionContext →
      ExecutionContext × List Event × Option String
  | [], _, ctx => (ctx, [], none)
  | nodeId :: rest, i, ctx =>
      if ctx.isAborted then (ctx, [], none)
      else
        match nodes.find? (fun n => n.id == nodeId) with
        | none => execLoop getHandler now abortDuring nodes edges rest (i + 1) ctx
        | some node =>
            let ctx1 := ctx.setCurrentNode nodeId
            match executeNode getHandler now node (ctx1.getNodeInputs nodeId edges) with
            | Except.ok output =>
                let ctx2 := ctx1.setNodeOutput nodeId output none now
                let ctx3 := if abortDuring i then ctx2.abort else ctx2
                let r := execLoop getHandler now abortDuring nodes edges rest (i + 1) ctx3
                (r.1,
                 Event.nodeExecute nodeId :: Event.nodeComplete nodeId output ::
                   Event.progress ctx2.getProgress :: r.2.1,
                 r.2.2)
            | Except.error err =>
                (ctx1.setNodeOutput nodeId Value.vnull (some err) now,
                 [Event.nodeExecute nodeId, Event.nodeError nodeId err],
                 some err)

/-- `validation.errors.join(', ')`: each `ValidationError` stringifies as
`"ValidationError: " + message` (its `name` is set in the constructor). -/
def joinErrors (errors : List ValidationError) : String :=
  String.intercalate ", " (errors.map (fun e => "ValidationError: " ++ e.message))

/-- The observable outcome of `execute`: the returned/thrown result, the
callback trace, and the execution context (absent when validation failed
before one was created). -/
structure ExecResult where
  result : Except String (List (String × Value))
  trace : List Event
  ctx : Option ExecutionContext

/-- `GraphExecutor.execute(nodes, edges, options)`: validate (on failure fire
`onError` and throw, and the outer catch fires `onError` again); sort; run the
node loop; on a node error the outer catch fires `onError` and rethrows;
otherwise assemble the non-error outputs and fire `onComplete`. -/
def execute (getHandler : Node → Option Handler) (now : Nat)
    (abortDuring : Nat → Bool) (nodes : List Node) (edges : List EdgeT) :
    ExecResult :=
  let validation := GraphValidator.validate nodes edges
  if validation.valid then
    let executionOrder :=
      TopologicalSort.getExecutionOrder (TopologicalSort.sort nodes edges)
    let ctx0 := ExecutionContext.init nodes executionOrder
    let r := execLoop getHandler now abortDuring nodes edges executionOrder 0 ctx0
    match r.2.2 with
    | some err =>
        { result := Except.error err
          trace := r.2.1 ++ [Event.error err]
          ctx := some r.1 }
    | none =>
        let outputs := r.1.getAllOutputs.foldl
          (fun acc p => if p.2.error.isNone then JSMap.set acc p.1 p.2.data else acc) []
        { result := Except.ok outputs
          trace := r.2.1 ++ [Event.complete outputs]
          ctx := some r.1 }
  else
    let msg := "Graph validation failed: " ++ joinErrors validation.errors
    { result := Except.error msg
      trace := [Event.error msg, Event.error msg]
      ctx := none }

/-- The three callbacks fired for one successfully executed node:
`onNodeExecute`, `onNodeComplete` with its output, `onProgress` with the
snapshot taken after the output was stored. -/
def tripleEvents (st : String × Value × ExecutionProgress) : List Event :=
  [Event.nodeExecute st.1, Event.nodeComplete st.1 st.2.1, Event.progress st.2.2]

/-- The context state after a successful iteration: current node set, output
recorded, and the abort flag raised when the schedule selects this iteration. -/
def afterOk (now : Nat) (ab : Nat → Bool) (i : Nat) (nodeId : String)
    (output : Value) (ctx : ExecutionContext) : ExecutionContext :=
  let ctx2 := (ctx.setCurrentNode nodeId).setNodeOutput nodeId output none now
  if ab i then ctx2.abort else ctx2

theorem getNodeOutput_setNodeOutput (ctx : ExecutionContext) (id k : String)
    (d : Value) (e : Option String) (n : Nat) :
    (ctx.setNodeOutput id d e n).getNodeOutput k =
      if id = k then some { nodeId := id, data := d, timestamp := n, error := e }
      else ctx.getNodeOutput k := by
  simp only [ExecutionContext.setNodeOutput, ExecutionContext.getNodeOutput]
  exact JSMap.get_set ctx.outputs id k _

theorem afterOk_getNodeOutput (now : Nat) (ab : Nat → Bool) (i : Nat)
    (nodeId : String) (output : Value) (ctx : ExecutionContext) (k : String) :
    (afterOk now ab i nodeId output ctx).getNodeOutput k =
      if nodeId = k then
        some { nodeId := nodeId, data := output, timestamp := now, error := none }
      else ctx.getNodeOutput k := by
  have hbase : ((ctx.setCurrentNode nodeId).setNodeOutput nodeId output none
      now).getNodeOutput k =
      if nodeId = k then
        some { nodeId := nodeId, data := output, timestamp := now, error := none }
      else ctx.getNodeOutput k :=
    getNodeOutput_setNodeOutput (ctx.setCurrentNode nodeId) nodeId k output none now
  cases habi : ab i with
  | true =>
      simp only [afterOk, habi, if_true]
      exact hbase
  | false =>
      simp only [afterOk, habi, if_false]
      exact hbase

theorem execLoop_nil (g : Node → Option Handler) (now : Nat) (ab : Nat → Bool)
    (nodes : List Node) (edges : List EdgeT) (i : Nat) (ctx : ExecutionContext) :
    execLoop g now ab nodes edges [] i ctx = (ctx, [], none) := rfl

theorem execLoop_cons_aborted (g : Node → Option Handler) (now : Nat)
    (ab : Nat → Bool) (nodes : List Node) (edges : List EdgeT) (nodeId : String)
    (rest : List String) (i : Nat) (ctx : ExecutionContext)
    (hab : ctx.isAborted = true) :
    execLoop g now ab nodes edges (nodeId :: rest) i ctx = (ctx, [], none) := by
  simp [execLoop, hab]

theorem execLoop_aborted (g : Node → Option Handler) (now : Nat) (ab : Nat → Bool)
    (nodes : List Node) (edges : List EdgeT) (order : List String) (i : Nat)
    (ctx : ExecutionContext) (hab : ctx.isAborted = true) :
    execLoop g now ab nodes edges order i ctx = (ctx, [], none) := by
  cases order with
  | nil => rfl
  | cons nodeId rest => exact execLoop_cons_aborted g now ab nodes edges nodeId rest i ctx hab

theorem execLoop_cons_skip (g : Node → Option Handler) (now : Nat)
    (ab : Nat → Bool) (nodes : List Node) (edges : List EdgeT) (nodeId : String)
    (rest : List String) (i : Nat) (ctx : ExecutionContext)
    (hab : ctx.isAborted = false)
    (hfind : nodes.find? (fun n => n.id == nodeId) = none) :
    execLoop g now ab nodes edges (nodeId :: rest) i ctx =
      execLoop g now ab nodes edges rest (i + 1) ctx := by
  simp [execLoop, hab, hfind]

theorem execLoop_cons_ok (g : Node → Option Handler) (now : Nat)
    (ab : Nat → Bool) (nodes : List Node) (edges : List EdgeT) (nodeId : String)
    (rest : List String) (i : Nat) (ctx : ExecutionContext) (node : Node)
    (output : Value)
    (hab : ctx.isAborted = false)
    (hfind : nodes.find? (fun n => n.id == nodeId) = some node)
    (hexec : executeNode g now node
      ((ctx.setCurrentNode nodeId).getNodeInputs nodeId edges) = Except.ok output) :
    execLoop g now ab nodes edges (nodeId :: rest) i ctx =
      ((execLoop g now ab nodes edges rest (i + 1)
          (afterOk now ab i nodeId output ctx)).1,
       Event.nodeExecute nodeId :: Event.nodeComplete nodeId output ::
         Event.progress
           (((ctx.setCurrentNode nodeId).setNodeOutput nodeId output none
             now).getProgress) ::
         (execLoop g now ab nodes edges rest (i + 1)
           (afterOk now ab i nodeId output ctx)).2.1,
       (execLoop g now ab nodes edges rest (i + 1)
         (afterOk now ab i nodeId output ctx)).2.2) := by
  simp [execLoop, hab, hfind, hexec, afterOk]

theorem execLoop_cons_err (g : Node → Option Handler) (now : Nat)
    (ab : Nat → Bool) (nodes : List Node) (edges : List EdgeT) (nodeId : String)
    (rest : List String) (i : Nat) (ctx : ExecutionContext) (node : Node)
    (err : String)
    (hab : ctx.isAborted = false)
    (hfind : nodes.find? (fun n => n.id == nodeId) = some node)
    (hexec : executeNode g now node
      ((ctx.setCurrentNode nodeId).getNodeInputs nodeId edges) =
        Except.error err) :
    execLoop g now ab nodes edges (nodeId :: rest) i ctx =
      ((ctx.setCurrentNode nodeId).setNodeOutput nodeId Value.vnull (some err) now,
       [Event.nodeExecute nodeId, Event.nodeError nodeId err],
       some err) := by
  simp [execLoop, hab, hfind, hexec]

/-- The node loop never fires `onComplete` or `onError` itself (both belong to
the surrounding `execute`). -/
theorem execLoop_no_outer (g : Node → Option Handler) (now : Nat)
    (ab : Nat → Bool) (nodes : List Node) (edges : List EdgeT) :
    ∀ (order : List String) (i : Nat) (ctx : ExecutionContext),
      (execLoop g now ab nodes edges order i ctx).2.1.countP Event.isComplete = 0 ∧
      (execLoop g now ab nodes edges order i ctx).2.1.countP Event.isError = 0 := by
  intro order
  induction order with
  | nil => intro i ctx; exact ⟨rfl, rfl⟩
  | cons nodeId rest ih =>
      intro i ctx
      by_cases hab : ctx.isAborted = true
      · rw [execLoop_aborted g now ab nodes edges _ i ctx hab]
        exact ⟨rfl, rfl⟩
      · have hab' : ctx.isAborted = false := by
          cases h : ctx.isAborted
          · rfl
          · exact absurd h hab
        cases hfind : nodes.find? (fun n => n.id == nodeId) with
        | none =>
            rw [execLoop_cons_skip g now ab nodes edges nodeId rest i ctx hab' hfind]
            exact ih (i + 1) ctx
        | some node =>
            cases hexec : executeNode g now node
                ((ctx.setCurrentNode nodeId).getNodeInputs nodeId edges) with
            | ok output =>
                rw [execLoop_cons_ok g now ab nodes edges nodeId rest i ctx node
                  output hab' hfind hexec]
                have h := ih (i + 1) (afterOk now ab i nodeId output ctx)
                simp [List.countP_cons, Event.isComplete, Event.isError, h.1, h.2]
            | error err =>
                rw [execLoop_cons_err g now ab nodes edges nodeId rest i ctx node
                  err hab' hfind hexec]
                exact ⟨rfl, rfl⟩

/-- The node loop leaves outputs of ids outside the remaining order untouched. -/
theorem execLoop_frame (g : Node → Option Handler) (now : Nat) (ab : Nat → Bool)
    (nodes : List Node) (edges : List EdgeT) :
    ∀ (order : List String) (i : Nat) (ctx : ExecutionContext) (k : String),
      k ∉ order →
      ((execLoop g now ab nodes edges order i ctx).1).getNodeOutput k =
        ctx.getNodeOutput k := by
  intro order
  induction order with
  | nil => intro i ctx k _; rfl
  | cons nodeId rest ih =>
      intro i ctx k hk
      have hkne : nodeId ≠ k := fun h => hk (h ▸ List.mem_cons_self _ _)
      have hkrest : k ∉ rest := fun h => hk (List.mem_cons_of_mem _ h)
      by_cases hab : ctx.isAborted = true
      · rw [execLoop_aborted g now ab nodes edges _ i ctx hab]
      · have hab' : ctx.isAborted = false := by
          cases h : ctx.isAborted
          · rfl
          · exact absurd h hab
        cases hfind : nodes.find? (fun n => n.id == nodeId) with
        | none =>
            rw [execLoop_cons_skip g now ab nodes edges nodeId rest i ctx hab' hfind]
            exact ih (i + 1) ctx k hkrest
        | some node =>
            cases hexec : executeNode g now node
                ((ctx.setCurrentNode nodeId).getNodeInputs nodeId edges) with
            | ok output =>
                rw [execLoop_cons_ok g now ab nodes edges nodeId rest i ctx node
                  output hab' hfind hexec]
                have h1 := ih (i + 1) (afterOk now ab i nodeId output ctx) k hkrest
                rw [h1, afterOk_getNodeOutput, if_neg hkne]
            | error err =>
                rw [execLoop_cons_err g now ab nodes edges nodeId rest i ctx node
                  err hab' hfind hexec]
                have := getNodeOutput_setNodeOutput (ctx.setCurrentNode nodeId)
                  nodeId k Value.vnull (some err) now
                rw [this, if_neg hkne]
                rfl

theorem mem_foldl_append {α β : Type} (f : α → List β) :
    ∀ (l : List α) (init : List β) (x : β), x ∈ init →
      x ∈ l.foldl (fun acc y => acc ++ f y) init := by
  intro l
  induction l with
  | nil => intro init x hx; exact hx
  | cons a rest ih =>
      intro init x hx
      rw [List.foldl_cons]
      exact ih (init ++ f a) x (List.mem_append_left _ hx)

theorem mem_foldl_append_of_mem {α β : Type} (f : α → List β) :
    ∀ (l : List α) (init : List β) (a : α), a ∈ l → ∀ x ∈ f a,
      x ∈ l.foldl (fun acc y => acc ++ f y) init := by
  intro l
  induction l with
  | nil => intro init a ha; cases ha
  | cons b rest ih =>
      intro init a ha x hx
      rw [List.foldl_cons]
      rcases List.mem_cons.mp ha with h | h
      · subst h
        exact mem_foldl_append f rest _ x (List.mem_append_right _ hx)
      · exact ih _ a h x hx

/-- Every error reported for an individual node of a non-empty graph appears
in the aggregated `validateGraph` error list. -/
theorem validateGraph_errors_node (graph : Graph) (n : Node) (hn : n ∈ graph.nodes)
    (err : ValidationError) (he : err ∈ GraphValidator.validateNode n graph)
    (hne : ¬graph.nodes.length = 0) :
    err ∈ (GraphValidator.validateGraph graph).errors := by
  simp only [GraphValidator.validateGraph, if_neg hne]
  refine List.mem_append_left _ ?_
  exact mem_foldl_append _ graph.edges _ err
    (mem_foldl_append_of_mem _ graph.nodes [] n hn err he)

/-- Every error reported for an individual edge of a non-empty graph appears
in the aggregated `validateGraph` error list. -/
theorem validateGraph_errors_edge (graph : Graph) (e : EdgeT) (hee : e ∈ graph.edges)
    (err : ValidationError) (he : err ∈ GraphValidator.validateEdge e graph)
    (hne : ¬graph.nodes.length = 0) :
    err ∈ (GraphValidator.validateGraph graph).errors := by
  simp only [GraphValidator.validateGraph, if_neg hne]
  refine List.mem_append_left _ ?_
  exact mem_foldl_append_of_mem _ graph.edges _ e hee err he

/-- If `validate` reports no error, the node ids are pairwise distinct and
every edge endpoint names an existing node: a duplicate id would have produced
`NODE_DUPLICATE_ID`, a dangling endpoint `EDGE_SOURCE_NOT_FOUND` /
`EDGE_TARGET_NOT_FOUND`. -/
theorem validate_sound (nodes : List Node) (edges : List EdgeT)
    (hv : (GraphValidator.validate nodes edges).valid = true) :
    (nodes.map (·.id)).Nodup ∧
    (∀ e ∈ edges, e.source ∈ nodes.map (·.id) ∧ e.target ∈ nodes.map (·.id)) := by
  by_cases hn : nodes.length = 0
  · exfalso
    simp [GraphValidator.validate, GraphValidator.validateGraph, hn] at hv
  · have hvalid : (GraphValidator.validate nodes edges).valid =
        decide ((GraphValidator.validate nodes edges).errors.length = 0) := by
      simp only [GraphValidator.validate, GraphValidator.validateGraph, if_neg hn]
    have hlen : (GraphValidator.validate nodes edges).errors.length = 0 := by
      rw [hvalid] at hv
      exact of_decide_eq_true hv
    have herrs : (GraphValidator.validate nodes edges).errors = [] :=
      List.length_eq_zero.mp hlen
    constructor
    · by_contra hnd
      rw [List.nodup_iff_count_le_one] at hnd
      push_neg at hnd
      obtain ⟨a, ha⟩ := hnd
      have hmem : a ∈ nodes.map (·.id) := by
        rw [← List.count_pos_iff_mem]
        omega
      obtain ⟨n, hn', hna⟩ := List.mem_map.mp hmem
      have hcnt : (nodes.map (·.id)).count a =
          (nodes.filter (fun m => m.id == a)).length := by
        rw [List.count_eq_countP a (nodes.map (·.id)), List.countP_map,
          List.countP_eq_length_filter]
        rfl
      have hgt : (nodes.filter (fun m => m.id == n.id)).length > 1 := by
        rw [hna, ← hcnt]
        exact ha
      have he : ({ message := "Duplicate node ID",
                   code := "NODE_DUPLICATE_ID",
                   details := .dNodeId n.id } : ValidationError) ∈
          GraphValidator.validateNode n { id := "", nodes := nodes, edges := edges } := by
        simp only [GraphValidator.validateNode]
        refine List.mem_append.mpr (Or.inl (List.mem_append.mpr (Or.inr ?_)))
        rw [if_pos hgt]
        exact List.mem_singleton.mpr rfl
      have hmem2 :=
        validateGraph_errors_node { id := "", nodes := nodes, edges := edges }
          n hn' _ he hn
      have h3 : ({ message := "Duplicate node ID",
                   code := "NODE_DUPLICATE_ID",
                   details := .dNodeId n.id } : ValidationError) ∈
          (GraphValidator.validate nodes edges).errors := hmem2
      rw [herrs] at h3
      cases h3
    · intro e he
      constructor
      · by_contra hsrc
        have hfind : nodes.find? (fun m => m.id == e.source) = none := by
          rw [List.find?_eq_none]
          intro x hx
          simp only [beq_iff_eq]
          intro h
          exact hsrc (List.mem_map.mpr ⟨x, hx, h⟩)
        have hmem3 : ({ message := "Edge source node not found",
                        code := "EDGE_SOURCE_NOT_FOUND",
                        details := .dEdgeRef e.id e.source } : ValidationError) ∈
            GraphValidator.validateEdge e
              { id := "", nodes := nodes, edges := edges } := by
          simp only [GraphValidator.validateEdge]
          refine List.mem_append.mpr (Or.inl (List.mem_append.mpr (Or.inl
            (List.mem_append.mpr (Or.inl (List.mem_append.mpr (Or.inr ?_)))))))
          have hcond : (nodes.find? (fun m => m.id == e.source)).isNone = true := by
            rw [hfind]
            rfl
          rw [if_pos hcond]
          exact List.mem_singleton.mpr rfl
        have hmem4 :=
          validateGraph_errors_edge { id := "", nodes := nodes, edges := edges }
            e he _ hmem3 hn
        have h4 : ({ message := "Edge source node not found",
                     code := "EDGE_SOURCE_NOT_FOUND",
                     details := .dEdgeRef e.id e.source } : ValidationError) ∈
            (GraphValidator.validate nodes edges).errors := hmem4
        rw [herrs] at h4
        cases h4
      · by_contra htgt
        have hfind : nodes.find? (fun m => m.id == e.target) = none := by
          rw [List.find?_eq_none]
          intro x hx
          simp only [beq_iff_eq]
          intro h
          exact htgt (List.mem_map.mpr ⟨x, hx, h⟩)
        have hmem3 : ({ message := "Edge target node not found",
                        code := "EDGE_TARGET_NOT_FOUND",
                        details := .dEdgeRef e.id e.target } : ValidationError) ∈
            GraphValidator.validateEdge e
              { id := "", nodes := nodes, edges := edges } := by
          simp only [GraphValidator.validateEdge]
          refine List.mem_append.mpr (Or.inl (List.mem_append.mpr (Or.inl
            (List.mem_append.mpr (Or.inr ?_)))))
          have hcond : (nodes.find? (fun m => m.id == e.target)).isNone = true := by
            rw [hfind]
            rfl
          rw [if_pos hcond]
          exact List.mem_singleton.mpr rfl
        have hmem4 :=
          validateGraph_errors_edge { id := "", nodes := nodes, edges := edges }
            e he _ hmem3 hn
        have h4 : ({ message := "Edge target node not found",
                     code := "EDGE_TARGET_NOT_FOUND",
                     details := .dEdgeRef e.id e.target } : ValidationError) ∈
            (GraphValidator.validate nodes edges).errors := hmem4
        rw [herrs] at h4
        cases h4

/-- An id occurring among the node ids resolves through `Array.find`. -/
theorem find_of_mem_ids (nodes : List Node) (id : String)
    (h : id ∈ nodes.map (·.id)) :
    ∃ node, nodes.find? (fun n => n.id == id) = some node := by
  cases hfind : nodes.find? (fun n => n.id == id) with
  | some node => exact ⟨node, rfl⟩
  | none =>
      obtain ⟨n, hn, hid⟩ := List.mem_map.mp h
      have := List.find?_eq_none.mp hfind n hn
      simp [hid] at this

/-- The progress record after a successful node: current node set, the node
appended to `completed`, `failed` and `totalNodes` untouched, the node removed
from `remaining`. -/
theorem okStep_progress (now : Nat) (nodeId : String) (output : Value)
    (ctx : ExecutionContext) :
    ((ctx.setCurrentNode nodeId).setNodeOutput nodeId output none now).progress =
      { currentNodeId := nodeId,
        completed := ctx.progress.completed ++ [nodeId],
        failed := ctx.progress.failed,
        remaining := ExecutionContext.removeFirst ctx.progress.remaining nodeId,
        totalNodes := ctx.progress.totalNodes } := rfl

/-- A scheduled abort does not alter the progress record. -/
theorem afterOk_progress (now : Nat) (ab : Nat → Bool) (i : Nat)
    (nodeId : String) (output : Value) (ctx : ExecutionContext) :
    (afterOk now ab i nodeId output ctx).progress =
      ((ctx.setCurrentNode nodeId).setNodeOutput nodeId output none
        now).progress := by
  cases habi : ab i <;> simp [afterOk, habi, ExecutionContext.abort]

/-- Every run of the node loop decomposes into per-node callback triples
(`onNodeExecute`, `onNodeComplete`, `onProgress`): the triples' node ids are
an in-order subsequence of the remaining order (on failure the failing node
follows them), and the `onProgress` snapshot after the `j`-th completed node
reports exactly the nodes completed so far — the starting `completed` list
extended by the first `j+1` triple ids — with that node current and `failed`
and `totalNodes` untouched. -/
theorem execLoop_shape (g : Node → Option Handler) (now : Nat) (ab : Nat → Bool)
    (nodes : List Node) (edges : List EdgeT) :
    ∀ (order : List String) (i : Nat) (ctx : ExecutionContext),
      ∃ steps : List (String × Value × ExecutionProgress),
        (steps.map (·.1)).Sublist order ∧
        (∀ j st, steps.get? j = some st →
          st.2.2.currentNodeId = st.1 ∧
          st.2.2.completed =
            ctx.progress.completed ++ (steps.take (j + 1)).map (·.1) ∧
          st.2.2.failed = ctx.progress.failed ∧
          st.2.2.totalNodes = ctx.progress.totalNodes) ∧
        (((execLoop g now ab nodes edges order i ctx).2.2 = none ∧
          (execLoop g now ab nodes edges order i ctx).2.1 =
            steps.bind tripleEvents) ∨
        (∃ x e, (execLoop g now ab nodes edges order i ctx).2.2 = some e ∧
          (execLoop g now ab nodes edges order i ctx).2.1 =
            steps.bind tripleEvents ++
              [Event.nodeExecute x, Event.nodeError x e] ∧
          (steps.map (·.1) ++ [x]).Sublist order)) := by
  intro order
  induction order with
  | nil =>
      intro i ctx
      refine ⟨[], List.nil_sublist _, ?_, Or.inl ⟨rfl, rfl⟩⟩
      intro j st hst
      cases hst
  | cons nodeId rest ih =>
      intro i ctx
      by_cases hab : ctx.isAborted = true
      · rw [execLoop_aborted g now ab nodes edges _ i ctx hab]
        refine ⟨[], List.nil_sublist _, ?_, Or.inl ⟨rfl, rfl⟩⟩
        intro j st hst
        cases hst
      · have hab' : ctx.isAborted = false := by
          cases h : ctx.isAborted
          · rfl
          · exact absurd h hab
        cases hfind : nodes.find? (fun n => n.id == nodeId) with
        | none =>
            rw [execLoop_cons_skip g now ab nodes edges nodeId rest i ctx hab' hfind]
            obtain ⟨steps, hsub, hsnap, hcase⟩ := ih (i + 1) ctx
            refine ⟨steps, List.Sublist.cons _ hsub, hsnap, ?_⟩
            rcases hcase with h | ⟨x, e, h1, h2, h3⟩
            · exact Or.inl h
            · exact Or.inr ⟨x, e, h1, h2, List.Sublist.cons _ h3⟩
        | some node =>
            cases hexec : executeNode g now node
                ((ctx.setCurrentNode nodeId).getNodeInputs nodeId edges) with
            | ok output =>
                rw [execLoop_cons_ok g now ab nodes edges nodeId rest i ctx node
                  output hab' hfind hexec]
                obtain ⟨steps, hsub, hsnap, hcase⟩ :=
                  ih (i + 1) (afterOk now ab i nodeId output ctx)
                refine ⟨(nodeId, output,
                  ((ctx.setCurrentNode nodeId).setNodeOutput nodeId output none
                    now).getProgress) :: steps, ?_, ?_, ?_⟩
                · exact List.Sublist.cons₂ _ hsub
                · intro j st hst
                  cases j with
                  | zero =>
                      have hst0 : st = (nodeId, output,
                          ((ctx.setCurrentNode nodeId).setNodeOutput nodeId
                            output none now).getProgress) := by
                        have h := hst
                        simp only [List.get?_cons_zero, Option.some.injEq] at h
                        exact h.symm
                      subst hst0
                      exact ⟨rfl, rfl, rfl, rfl⟩
                  | succ j =>
                      have hst' : steps.get? j = some st := hst
                      have h := hsnap j st hst'
                      refine ⟨h.1, ?_, ?_, ?_⟩
                      · rw [h.2.1, afterOk_progress, okStep_progress]
                        show (ctx.progress.completed ++ [nodeId]) ++
                            (steps.take (j + 1)).map (·.1) = _
                        rw [List.append_assoc]
                        rfl
                      · rw [h.2.2.1, afterOk_progress, okStep_progress]
                      · rw [h.2.2.2, afterOk_progress, okStep_progress]
                · rcases hcase with ⟨h1, h2⟩ | ⟨x, e, h1, h2, h3⟩
                  · left
                    refine ⟨h1, ?_⟩
                    rw [h2]
                    rfl
                  · right
                    refine ⟨x, e, h1, ?_, ?_⟩
                    · rw [h2]
                      rfl
                    · exact List.Sublist.cons₂ _ h3
            | error err =>
                rw [execLoop_cons_err g now ab nodes edges nodeId rest i ctx node
                  err hab' hfind hexec]
                refine ⟨[], List.nil_sublist _, ?_,
                  Or.inr ⟨nodeId, err, rfl, rfl, ?_⟩⟩
                · intro j st hst
                  cases hst
                · exact List.Sublist.cons₂ _ (List.nil_sublist _)

/-- When the node loop propagates an error, the trace ends with the failing
node's `onNodeExecute`/`onNodeError` pair, no earlier `onNodeError` fired, the
failing node's error is recorded in the final context, and every earlier
completed output is still recorded without error. -/
theorem execLoop_error_shape (g : Node → Option Handler) (now : Nat)
    (ab : Nat → Bool) (nodes : List Node) (edges : List EdgeT) :
    ∀ (order : List String) (i : Nat) (ctx : ExecutionContext) (err : String),
      order.Nodup →
      (execLoop g now ab nodes edges order i ctx).2.2 = some err →
      ∃ evs x,
        (execLoop g now ab nodes edges order i ctx).2.1 =
          evs ++ [Event.nodeExecute x, Event.nodeError x err] ∧
        evs.countP Event.isNodeError = 0 ∧
        (∃ o, ((execLoop g now ab nodes edges order i ctx).1).getNodeOutput x =
          some o ∧ o.error = some err ∧ o.data = Value.vnull) ∧
        (∀ id v, Event.nodeComplete id v ∈ evs →
          ∃ o, ((execLoop g now ab nodes edges order i ctx).1).getNodeOutput id =
            some o ∧ o.error = none ∧ o.data = v) := by
  intro order
  induction order with
  | nil =>
      intro i ctx err _ h
      cases h
  | cons nodeId rest ih =>
      intro i ctx err hnd h
      have hndr : rest.Nodup := (List.nodup_cons.mp hnd).2
      have hnm : nodeId ∉ rest := (List.nodup_cons.mp hnd).1
      by_cases hab : ctx.isAborted = true
      · rw [execLoop_aborted g now ab nodes edges _ i ctx hab] at h
        cases h
      · have hab' : ctx.isAborted = false := by
          cases hh : ctx.isAborted
          · rfl
          · exact absurd hh hab
        cases hfind : nodes.find? (fun n => n.id == nodeId) with
        | none =>
            rw [execLoop_cons_skip g now ab nodes edges nodeId rest i ctx hab'
              hfind] at h ⊢
            exact ih (i + 1) ctx err hndr h
        | some node =>
            cases hexec : executeNode g now node
                ((ctx.setCurrentNode nodeId).getNodeInputs nodeId edges) with
            | ok output =>
                rw [execLoop_cons_ok g now ab nodes edges nodeId rest i ctx node
                  output hab' hfind hexec] at h ⊢
                obtain ⟨evs, x, h2, hcnt, hout, hpres⟩ :=
                  ih (i + 1) (afterOk now ab i nodeId output ctx) err hndr h
                refine ⟨Event.nodeExecute nodeId :: Event.nodeComplete nodeId output ::
                  Event.progress
                    (((ctx.setCurrentNode nodeId).setNodeOutput nodeId output none
                      now).getProgress) :: evs, x, ?_, ?_, hout, ?_⟩
                · rw [h2]
                  rfl
                · simp [List.countP_cons, Event.isNodeError, hcnt]
                · intro id v hmem
                  rcases List.mem_cons.mp hmem with heq | hmem2
                  · cases heq
                  rcases List.mem_cons.mp hmem2 with heq | hmem3
                  · have hid : id = nodeId := by injection heq
                    have hveq : v = output := by injection heq
                    rw [hid, hveq]
                    have hget : ((execLoop g now ab nodes edges rest (i + 1)
                        (afterOk now ab i nodeId output ctx)).1).getNodeOutput nodeId =
                        some { nodeId := nodeId, data := output, timestamp := now, error := none } := by
                      rw [execLoop_frame g now ab nodes edges rest (i + 1)
                        (afterOk now ab i nodeId output ctx) nodeId hnm,
                        afterOk_getNodeOutput, if_pos rfl]
                    exact ⟨_, hget, rfl, rfl⟩
                  rcases List.mem_cons.mp hmem3 with heq | hmem4
                  · cases heq
                  · exact hpres id v hmem4
            | error err₀ =>
                rw [execLoop_cons_err g now ab nodes edges nodeId rest i ctx node
                  err₀ hab' hfind hexec] at h ⊢
                have herr : err₀ = err := by
                  injection h
                subst herr
                refine ⟨[], nodeId, rfl, rfl, ?_, ?_⟩
                · show ∃ o, (((ctx.setCurrentNode nodeId).setNodeOutput nodeId
                      Value.vnull (some err₀) now)).getNodeOutput nodeId = some o ∧
                      o.error = some err₀ ∧ o.data = Value.vnull
                  rw [getNodeOutput_setNodeOutput, if_pos rfl]
                  exact ⟨_, rfl, rfl, rfl⟩
                · intro id v hmem
                  cases hmem

/-- With every dispatch succeeding and an abort scheduled during iteration
`k`, the loop finishes without error, fires no `onNodeError`, and starts
exactly the order entries up to and including position `k`. -/
theorem execLoop_abort_spec (g : Node → Option Handler) (now : Nat) (k : Nat)
    (nodes : List Node) (edges : List EdgeT)
    (hok : ∀ node inputs, ∃ v, executeNode g now node inputs = Except.ok v) :
    ∀ (order : List String) (i : Nat) (ctx : ExecutionContext),
      (∀ id ∈ order, id ∈ nodes.map (·.id)) →
      ctx.isAborted = false → i ≤ k →
      (execLoop g now (fun j => j == k) nodes edges order i ctx).2.2 = none ∧
      (execLoop g now (fun j => j == k) nodes edges order i ctx).2.1.countP
        Event.isNodeError = 0 ∧
      (execLoop g now (fun j => j == k) nodes edges order i ctx).2.1.filterMap
        Event.execId = order.take (k + 1 - i) := by
  intro order
  induction order with
  | nil =>
      intro i ctx _ _ _
      refine ⟨rfl, rfl, ?_⟩
      rw [List.take_nil]
      exact rfl
  | cons nodeId rest ih =>
      intro i ctx hres hab hik
      obtain ⟨node, hfind⟩ :=
        find_of_mem_ids nodes nodeId (hres nodeId (List.mem_cons_self _ _))
      obtain ⟨output, hexec⟩ :=
        hok node ((ctx.setCurrentNode nodeId).getNodeInputs nodeId edges)
      rw [execLoop_cons_ok g now (fun j => j == k) nodes edges nodeId rest i ctx
        node output hab hfind hexec]
      by_cases hik2 : i = k
      · have habort : (afterOk now (fun j => j == k) i nodeId output
            ctx).isAborted = true := by
          simp [afterOk, hik2, ExecutionContext.isAborted, ExecutionContext.abort]
        rw [execLoop_aborted g now (fun j => j == k) nodes edges rest (i + 1) _
          habort]
        subst hik2
        refine ⟨rfl, rfl, ?_⟩
        rw [show i + 1 - i = 1 from by omega]
        rfl
      · have hlt : i < k := lt_of_le_of_ne hik hik2
        have hab3 : (afterOk now (fun j => j == k) i nodeId output
            ctx).isAborted = false := by
          simp [afterOk, hik2, ExecutionContext.isAborted, ExecutionContext.abort,
            ExecutionContext.setNodeOutput, ExecutionContext.setCurrentNode]
          exact hab
        obtain ⟨h1, h2, h3⟩ := ih (i + 1)
          (afterOk now (fun j => j == k) i nodeId output ctx)
          (fun id hid => hres id (List.mem_cons_of_mem _ hid)) hab3 (by omega)
        refine ⟨h1, ?_, ?_⟩
        · simp [List.countP_cons, Event.isNodeError, h2]
        · rw [show k + 1 - i = (k + 1 - (i + 1)) + 1 from by omega]
          rw [List.take_succ_cons]
          simp only [List.filterMap_cons, Event.execId]
          rw [h3]

/-- `execute` when validation passes and the loop propagates a node error:
the outer catch fires `onError` and the call rejects with the error. -/
theorem execute_valid_err (g : Node → Option Handler) (now : Nat)
    (ab : Nat → Bool) (nodes : List Node) (edges : List EdgeT) (err : String)
    (hv : (GraphValidator.validate nodes edges).valid = true)
    (herr : (execLoop g now ab nodes edges
        (TopologicalSort.getExecutionOrder (TopologicalSort.sort nodes edges)) 0
        (ExecutionContext.init nodes
          (TopologicalSort.getExecutionOrder
            (TopologicalSort.sort nodes edges)))).2.2 = some err) :
    execute g now ab nodes edges =
      { result := Except.error err
        trace := (execLoop g now ab nodes edges
            (TopologicalSort.getExecutionOrder (TopologicalSort.sort nodes edges)) 0
            (ExecutionContext.init nodes
              (TopologicalSort.getExecutionOrder
                (TopologicalSort.sort nodes edges)))).2.1 ++ [Event.error err]
        ctx := some (execLoop g now ab nodes edges
            (TopologicalSort.getExecutionOrder (TopologicalSort.sort nodes edges)) 0
            (ExecutionContext.init nodes
              (TopologicalSort.getExecutionOrder
                (TopologicalSort.sort nodes edges)))).1 } := by
  simp only [execute, hv, if_true, herr]

/-- `execute` when validation passes and the loop finishes without error:
`onComplete` fires with the non-error outputs and the call resolves. -/
theorem execute_valid_ok (g : Node → Option Handler) (now : Nat)
    (ab : Nat → Bool) (nodes : List Node) (edges : List EdgeT)
    (hv : (GraphValidator.validate nodes edges).valid = true)
    (hnone : (execLoop g now ab nodes edges
        (TopologicalSort.getExecutionOrder (TopologicalSort.sort nodes edges)) 0
        (ExecutionContext.init nodes
          (TopologicalSort.getExecutionOrder
            (TopologicalSort.sort nodes edges)))).2.2 = none) :
    execute g now ab nodes edges =
      { result := Except.ok ((execLoop g now ab nodes edges
          (TopologicalSort.getExecutionOrder (TopologicalSort.sort nodes edges)) 0
          (ExecutionContext.init nodes
            (TopologicalSort.getExecutionOrder
              (TopologicalSort.sort nodes
                edges)))).1.getAllOutputs.foldl
          (fun acc p => if p.2.error.isNone then JSMap.set acc p.1 p.2.data
           else acc) [])
        trace := (execLoop g now ab nodes edges
            (TopologicalSort.getExecutionOrder (TopologicalSort.sort nodes edges)) 0
            (ExecutionContext.init nodes
              (TopologicalSort.getExecutionOrder
                (TopologicalSort.sort nodes edges)))).2.1 ++
          [Event.complete ((execLoop g now ab nodes edges
            (TopologicalSort.getExecutionOrder (TopologicalSort.sort nodes edges)) 0
            (ExecutionContext.init nodes
              (TopologicalSort.getExecutionOrder
                (TopologicalSort.sort nodes
                  edges)))).1.getAllOutputs.foldl
            (fun acc p => if p.2.error.isNone then JSMap.set acc p.1 p.2.data
             else acc) [])]
        ctx := some (execLoop g now ab nodes edges
            (TopologicalSort.getExecutionOrder (TopologicalSort.sort nodes edges)) 0
            (ExecutionContext.init nodes
              (TopologicalSort.getExecutionOrder
                (TopologicalSort.sort nodes edges)))).1 } := by
  simp only [execute, hv, if_true, hnone]

/-- `execute` when validation fails: `onError` fires twice with the aggregated
message (once at the check, once in the outer catch) and the call rejects
before a context is created. -/
theorem execute_invalid (g : Node → Option Handler) (now : Nat) (ab : Nat → Bool)
    (nodes : List Node) (edges : List EdgeT)
    (hv : (GraphValidator.validate nodes edges).valid = false) :
    execute g now ab nodes edges =
      { result := Except.error ("Graph validation failed: " ++
          joinErrors (GraphValidator.validate nodes edges).errors)
        trace := [Event.error ("Graph validation failed: " ++
            joinErrors (GraphValidator.validate nodes edges).errors),
          Event.error ("Graph validation failed: " ++
            joinErrors (GraphValidator.validate nodes edges).errors)]
        ctx := none } := by
  simp only [execute, hv, Bool.false_eq_true, if_false]

/-- The per-node callback triples contain no event selected by a predicate
that rejects `nodeExecute`, `nodeComplete` and `progress` events. -/
theorem countP_triples_eq_zero (p : Event → Bool)
    (hexec : ∀ s, p (Event.nodeExecute s) = false)
    (hcompl : ∀ s v, p (Event.nodeComplete s v) = false)
    (hprog : ∀ pr, p (Event.progress pr) = false) :
    ∀ steps : List (String × Value × ExecutionProgress),
      (steps.bind tripleEvents).countP p = 0 := by
  intro steps
  induction steps with
  | nil => rfl
  | cons st rest ih =>
      show (tripleEvents st ++ rest.bind tripleEvents).countP p = 0
      rw [List.countP_append, ih]
      simp [tripleEvents, List.countP_cons, hexec, hcompl, hprog]

end GraphExecutor

/--
C4: For every node/edge input on which the validator reports at least one
error, `GraphExecutor.execute` invokes `onError` with the aggregated
validation errors and fails the call before any node runs: `onNodeExecute`
is never invoked for any node.
-/
theorem claim_C4 (getHandler : Node → Option Handler) (now : Nat)
    (abortDuring : Nat → Bool) (nodes : List Node) (edges : List EdgeT)
    (hv : (GraphValidator.validate nodes edges).valid = false) :
    (GraphExecutor.execute getHandler now abortDuring nodes edges).result =
      Except.error ("Graph validation failed: " ++
        GraphExecutor.joinErrors (GraphValidator.validate nodes edges).errors) ∧
    (GraphExecutor.execute getHandler now abortDuring nodes edges).trace =
      [Event.error ("Graph validation failed: " ++
          GraphExecutor.joinErrors (GraphValidator.validate nodes edges).errors),
        Event.error ("Graph validation failed: " ++
          GraphExecutor.joinErrors (GraphValidator.validate nodes edges).errors)] ∧
    (GraphExecutor.execute getHandler now abortDuring nodes edges).trace.countP
      Event.isNodeExecute = 0 := by
  rw [GraphExecutor.execute_invalid getHandler now abortDuring nodes edges hv]
  exact ⟨rfl, rfl, rfl⟩

/--
C4 witness: on the empty graph (validation reports `GRAPH_EMPTY`), `execute`
rejects with the aggregated message, fires `onError` twice with it, and
invokes no `onNodeExecute`.
-/
theorem claim_C4_witness :
    (GraphValidator.validate [] []).valid = false ∧
    ((GraphExecutor.execute (fun _ => none) 0 (fun _ => false) [] []).result =
      Except.error ("Graph validation failed: " ++
        GraphExecutor.joinErrors (GraphValidator.validate [] []).errors) ∧
    (GraphExecutor.execute (fun _ => none) 0 (fun _ => false) [] []).trace =
      [Event.error ("Graph validation failed: " ++
          GraphExecutor.joinErrors (GraphValidator.validate [] []).errors),
        Event.error ("Graph validation failed: " ++
          GraphExecutor.joinErrors (GraphValidator.validate [] []).errors)] ∧
    (GraphExecutor.execute (fun _ => none) 0 (fun _ => false) [] []).trace.countP
      Event.isNodeExecute = 0) :=
  ⟨by decide, claim_C4 (fun _ => none) 0 (fun _ => false) [] [] (by decide)⟩

/--
C3: For every execution in which some node's handler dispatch fails (i.e.
`onNodeError` fires), the trace ends with the failing node's
`onNodeExecute`/`onNodeError` pair followed by `onError`; no earlier
`onNodeError` fired, `onComplete` never fires, the call rejects with the
error, the failing node's error is recorded in the final context, and the
outputs of nodes completed before the failure remain recorded without error.
-/
theorem claim_C3 (getHandler : Node → Option Handler) (now : Nat)
    (abortDuring : Nat → Bool) (nodes : List Node) (edges : List EdgeT)
    (hv : (GraphValidator.validate nodes edges).valid = true)
    (hfail : (GraphExecutor.execute getHandler now abortDuring nodes
      edges).trace.countP Event.isNodeError ≠ 0) :
    ∃ evs x e finalCtx,
      (GraphExecutor.execute getHandler now abortDuring nodes edges).trace =
        evs ++ [Event.nodeExecute x, Event.nodeError x e, Event.error e] ∧
      evs.countP Event.isNodeError = 0 ∧
      (GraphExecutor.execute getHandler now abortDuring nodes edges).trace.countP
        Event.isComplete = 0 ∧
      (GraphExecutor.execute getHandler now abortDuring nodes edges).result =
        Except.error e ∧
      (GraphExecutor.execute getHandler now abortDuring nodes edges).ctx =
        some finalCtx ∧
      (∃ o, finalCtx.getNodeOutput x = some o ∧ o.error = some e ∧
        o.data = Value.vnull) ∧
      (∀ id v, Event.nodeComplete id v ∈ evs →
        ∃ o, finalCtx.getNodeOutput id = some o ∧ o.error = none ∧ o.data = v) := by
  obtain ⟨hnd, hep⟩ := GraphExecutor.validate_sound nodes edges hv
  have hmain := TopologicalSort.sort_main nodes edges hnd
    (fun e he => (hep e he).1) (fun e he => (hep e he).2)
  have hEOnd : (TopologicalSort.getExecutionOrder
      (TopologicalSort.sort nodes edges)).Nodup := hmain.1
  cases hout : (GraphExecutor.execLoop getHandler now abortDuring nodes edges
      (TopologicalSort.getExecutionOrder (TopologicalSort.sort nodes edges)) 0
      (ExecutionContext.init nodes (TopologicalSort.getExecutionOrder
        (TopologicalSort.sort nodes edges)))).2.2 with
  | none =>
      exfalso
      obtain ⟨steps, _, _, hcase⟩ := GraphExecutor.execLoop_shape getHandler now
        abortDuring nodes edges (TopologicalSort.getExecutionOrder
          (TopologicalSort.sort nodes edges)) 0 (ExecutionContext.init nodes
          (TopologicalSort.getExecutionOrder (TopologicalSort.sort nodes edges)))
      rcases hcase with ⟨h1, h2⟩ | ⟨x, e, h1, h2, h3⟩
      · apply hfail
        rw [GraphExecutor.execute_valid_ok getHandler now abortDuring nodes edges
          hv hout, h2]
        simp [List.countP_append, List.countP_cons,
          GraphExecutor.countP_triples_eq_zero Event.isNodeError (fun _ => rfl)
            (fun _ _ => rfl) (fun _ => rfl) steps, Event.isNodeError]
      · rw [hout] at h1
        cases h1
  | some err =>
      obtain ⟨evs, x, h2, hcnt, hout2, hpres⟩ :=
        GraphExecutor.execLoop_error_shape getHandler now abortDuring nodes edges
          (TopologicalSort.getExecutionOrder (TopologicalSort.sort nodes edges)) 0
          (ExecutionContext.init nodes (TopologicalSort.getExecutionOrder
            (TopologicalSort.sort nodes edges))) err hEOnd hout
      refine ⟨evs, x, err,
        (GraphExecutor.execLoop getHandler now abortDuring nodes edges
          (TopologicalSort.getExecutionOrder (TopologicalSort.sort nodes edges)) 0
          (ExecutionContext.init nodes (TopologicalSort.getExecutionOrder
            (TopologicalSort.sort nodes edges)))).1, ?_, hcnt, ?_, ?_, ?_, hout2,
        hpres⟩
      · rw [GraphExecutor.execute_valid_err getHandler now abortDuring nodes edges
          err hv hout, h2, List.append_assoc]
        rfl
      · have hnoc := (GraphExecutor.execLoop_no_outer getHandler now abortDuring
          nodes edges (TopologicalSort.getExecutionOrder
            (TopologicalSort.sort nodes edges)) 0 (ExecutionContext.init nodes
            (TopologicalSort.getExecutionOrder
              (TopologicalSort.sort nodes edges)))).1
        rw [GraphExecutor.execute_valid_err getHandler now abortDuring nodes edges
          err hv hout]
        simp [List.countP_append, List.countP_cons, hnoc, Event.isComplete]
      · rw [GraphExecutor.execute_valid_err getHandler now abortDuring nodes edges
          err hv hout]
      · rw [GraphExecutor.execute_valid_err getHandler now abortDuring nodes edges
          err hv hout]

/--
C3 witness: nodes `a, b` with edge `a → b`, a handler registered only for `b`
that fails with "boom": validation passes, `onNodeError` fires, and the run
has the claimed fail-fast shape.
-/
theorem claim_C3_witness :
    (GraphValidator.validate
        [{ id := "a", type := some "t" }, { id := "b", type := some "t" }]
        [{ id := "e1", source := "a", target := "b" }]).valid = true ∧
    (GraphExecutor.execute
        (fun n => if n.id == "b" then
          some (fun _ _ _ => Except.error "boom") else none)
        0 (fun _ => false)
        [{ id := "a", type := some "t" }, { id := "b", type := some "t" }]
        [{ id := "e1", source := "a", target := "b" }]).trace.countP
      Event.isNodeError ≠ 0 ∧
    (∃ evs x e finalCtx,
      (GraphExecutor.execute
          (fun n => if n.id == "b" then
            some (fun _ _ _ => Except.error "boom") else none)
          0 (fun _ => false)
          [{ id := "a", type := some "t" }, { id := "b", type := some "t" }]
          [{ id := "e1", source := "a", target := "b" }]).trace =
        evs ++ [Event.nodeExecute x, Event.nodeError x e, Event.error e] ∧
      evs.countP Event.isNodeError = 0 ∧
      (GraphExecutor.execute
          (fun n => if n.id == "b" then
            some (fun _ _ _ => Except.error "boom") else none)
          0 (fun _ => false)
          [{ id := "a", type := some "t" }, { id := "b", type := some "t" }]
          [{ id := "e1", source := "a", target := "b" }]).trace.countP
        Event.isComplete = 0 ∧
      (GraphExecutor.execute
          (fun n => if n.id == "b" then
            some (fun _ _ _ => Except.error "boom") else none)
          0 (fun _ => false)
          [{ id := "a", type := some "t" }, { id := "b", type := some "t" }]
          [{ id := "e1", source := "a", target := "b" }]).result =
        Except.error e ∧
      (GraphExecutor.execute
          (fun n => if n.id == "b" then
            some (fun _ _ _ => Except.error "boom") else none)
          0 (fun _ => false)
          [{ id := "a", type := some "t" }, { id := "b", type := some "t" }]
          [{ id := "e1", source := "a", target := "b" }]).ctx = some finalCtx ∧
      (∃ o, finalCtx.getNodeOutput x = some o ∧ o.error = some e ∧
        o.data = Value.vnull) ∧
      (∀ id v, Event.nodeComplete id v ∈ evs →
        ∃ o, finalCtx.getNodeOutput id = some o ∧ o.error = none ∧
          o.data = v)) :=
  ⟨by decide, by decide,
    claim_C3
      (fun n => if n.id == "b" then
        some (fun _ _ _ => Except.error "boom") else none)
      0 (fun _ => false)
      [{ id := "a", type := some "t" }, { id := "b", type := some "t" }]
      [{ id := "e1", source := "a", target := "b" }]
      (by decide) (by decide)⟩

/--
C5: Once `abort()` is called (here: scheduled during iteration `k`), no
further node in the execution order starts — exactly the order entries up to
position `k` fire `onNodeExecute` — and the abort itself causes no
`onNodeError` and no `onError`; the call still resolves with the collected
outputs (abort is a distinct, non-error outcome).
-/
theorem claim_C5 (getHandler : Node → Option Handler) (now : Nat) (k : Nat)
    (nodes : List Node) (edges : List EdgeT)
    (hv : (GraphValidator.validate nodes edges).valid = true)
    (hok : ∀ node inputs, ∃ v,
      GraphExecutor.executeNode getHandler now node inputs = Except.ok v) :
    (GraphExecutor.execute getHandler now (fun j => j == k) nodes
      edges).trace.countP Event.isNodeError = 0 ∧
    (GraphExecutor.execute getHandler now (fun j => j == k) nodes
      edges).trace.countP Event.isError = 0 ∧
    (GraphExecutor.execute getHandler now (fun j => j == k) nodes
      edges).trace.filterMap Event.execId =
      (TopologicalSort.getExecutionOrder (TopologicalSort.sort nodes
        edges)).take (k + 1) ∧
    (∃ outs, (GraphExecutor.execute getHandler now (fun j => j == k) nodes
      edges).result = Except.ok outs) := by
  obtain ⟨hnd, hep⟩ := GraphExecutor.validate_sound nodes edges hv
  have hmain := TopologicalSort.sort_main nodes edges hnd
    (fun e he => (hep e he).1) (fun e he => (hep e he).2)
  have hsub : ∀ id ∈ TopologicalSort.getExecutionOrder
      (TopologicalSort.sort nodes edges), id ∈ nodes.map (·.id) := hmain.2.1
  obtain ⟨h1, h2, h3⟩ := GraphExecutor.execLoop_abort_spec getHandler now k nodes
    edges hok (TopologicalSort.getExecutionOrder (TopologicalSort.sort nodes
      edges)) 0 (ExecutionContext.init nodes (TopologicalSort.getExecutionOrder
      (TopologicalSort.sort nodes edges))) hsub rfl (by omega)
  have hnoc := GraphExecutor.execLoop_no_outer getHandler now (fun j => j == k)
    nodes edges (TopologicalSort.getExecutionOrder (TopologicalSort.sort nodes
      edges)) 0 (ExecutionContext.init nodes (TopologicalSort.getExecutionOrder
      (TopologicalSort.sort nodes edges)))
  refine ⟨?_, ?_, ?_, ?_⟩
  · rw [GraphExecutor.execute_valid_ok getHandler now (fun j => j == k) nodes
      edges hv h1]
    simp [List.countP_append, List.countP_cons, h2, Event.isNodeError]
  · rw [GraphExecutor.execute_valid_ok getHandler now (fun j => j == k) nodes
      edges hv h1]
    simp [List.countP_append, List.countP_cons, hnoc.2, Event.isError]
  · rw [GraphExecutor.execute_valid_ok getHandler now (fun j => j == k) nodes
      edges hv h1]
    simp [List.filterMap_append, Event.execId, h3]
  · exact ⟨_, by
      rw [GraphExecutor.execute_valid_ok getHandler now (fun j => j == k) nodes
        edges hv h1]⟩

/--
C5 witness: chain `a → b → c` with no registered handlers (the fallback
always succeeds) and an abort scheduled during iteration 0: only `a` starts,
no `onNodeError`/`onError` fires, and the call resolves.
-/
theorem claim_C5_witness :
    (GraphValidator.validate
        [{ id := "a", type := some "t" }, { id := "b", type := some "t" },
          { id := "c", type := some "t" }]
        [{ id := "e1", source := "a", target := "b" },
          { id := "e2", source := "b", target := "c" }]).valid = true ∧
    ((GraphExecutor.execute (fun _ => none) 0 (fun j => j == 0)
        [{ id := "a", type := some "t" }, { id := "b", type := some "t" },
          { id := "c", type := some "t" }]
        [{ id := "e1", source := "a", target := "b" },
          { id := "e2", source := "b", target := "c" }]).trace.countP
      Event.isNodeError = 0 ∧
    (GraphExecutor.execute (fun _ => none) 0 (fun j => j == 0)
        [{ id := "a", type := some "t" }, { id := "b", type := some "t" },
          { id := "c", type := some "t" }]
        [{ id := "e1", source := "a", target := "b" },
          { id := "e2", source := "b", target := "c" }]).trace.countP
      Event.isError = 0 ∧
    (GraphExecutor.execute (fun _ => none) 0 (fun j => j == 0)
        [{ id := "a", type := some "t" }, { id := "b", type := some "t" },
          { id := "c", type := some "t" }]
        [{ id := "e1", source := "a", target := "b" },
          { id := "e2", source := "b", target := "c" }]).trace.filterMap
      Event.execId =
      (TopologicalSort.getExecutionOrder (TopologicalSort.sort
        [{ id := "a", type := some "t" }, { id := "b", type := some "t" },
          { id := "c", type := some "t" }]
        [{ id := "e1", source := "a", target := "b" },
          { id := "e2", source := "b", target := "c" }])).take (0 + 1) ∧
    (∃ outs, (GraphExecutor.execute (fun _ => none) 0 (fun j => j == 0)
        [{ id := "a", type := some "t" }, { id := "b", type := some "t" },
          { id := "c", type := some "t" }]
        [{ id := "e1", source := "a", target := "b" },
          { id := "e2", source := "b", target := "c" }]).result =
      Except.ok outs)) :=
  ⟨by decide,
    claim_C5 (fun _ => none) 0 0
      [{ id := "a", type := some "t" }, { id := "b", type := some "t" },
        { id := "c", type := some "t" }]
      [{ id := "e1", source := "a", target := "b" },
        { id := "e2", source := "b", target := "c" }]
      (by decide) (fun node inputs => ⟨_, rfl⟩)⟩

/--
C6 (amended): For every execution that passes validation, the trace
decomposes into consecutive per-node triples `onNodeExecute`,
`onNodeComplete`, `onProgress` whose node ids form an in-order subsequence of
the execution order (so callbacks fire in execution order), where the
`onProgress` snapshot after the `j`-th completed node reports exactly the
completed nodes through `j` with that node current, no failures, and the
total node count — cumulative state, never look-ahead — followed either by a
single `onComplete`, or, when a dispatch fails, by that node's
`onNodeExecute`/`onNodeError`/`onError` (the failing node coming after all
completed ones in the execution order) with no `onProgress` for it: the
`throw` in the catch block skips the post-`try` progress call, so the claim's
"onProgress after every node regardless of outcome" does not hold for the
failing node.
-/
theorem claim_C6 (getHandler : Node → Option Handler) (now : Nat)
    (abortDuring : Nat → Bool) (nodes : List Node) (edges : List EdgeT)
    (hv : (GraphValidator.validate nodes edges).valid = true) :
    ∃ (steps : List (String × Value × ExecutionProgress)) (tail : List Event),
      (GraphExecutor.execute getHandler now abortDuring nodes edges).trace =
        steps.bind GraphExecutor.tripleEvents ++ tail ∧
      (steps.map (·.1)).Sublist
        (TopologicalSort.getExecutionOrder (TopologicalSort.sort nodes edges)) ∧
      (∀ j st, steps.get? j = some st →
        st.2.2.currentNodeId = st.1 ∧
        st.2.2.completed = (steps.take (j + 1)).map (·.1) ∧
        st.2.2.failed = [] ∧
        st.2.2.totalNodes = nodes.length) ∧
      ((∃ outs, tail = [Event.complete outs]) ∨
       (∃ x e, tail = [Event.nodeExecute x, Event.nodeError x e,
          Event.error e] ∧
         (steps.map (·.1) ++ [x]).Sublist
           (TopologicalSort.getExecutionOrder
             (TopologicalSort.sort nodes edges)))) := by
  obtain ⟨steps, hsub, hsnap, hcase⟩ := GraphExecutor.execLoop_shape getHandler
    now abortDuring nodes edges (TopologicalSort.getExecutionOrder
      (TopologicalSort.sort nodes edges)) 0
    (ExecutionContext.init nodes (TopologicalSort.getExecutionOrder
      (TopologicalSort.sort nodes edges)))
  have hsnap2 : ∀ j st, steps.get? j = some st →
      st.2.2.currentNodeId = st.1 ∧
      st.2.2.completed = (steps.take (j + 1)).map (·.1) ∧
      st.2.2.failed = [] ∧
      st.2.2.totalNodes = nodes.length := by
    intro j st hst
    have h := hsnap j st hst
    exact ⟨h.1, h.2.1, h.2.2.1, h.2.2.2⟩
  rcases hcase with ⟨h1, h2⟩ | ⟨x, e, h1, h2, h3⟩
  · refine ⟨steps, [Event.complete ((GraphExecutor.execLoop getHandler now
      abortDuring nodes edges (TopologicalSort.getExecutionOrder
        (TopologicalSort.sort nodes edges)) 0 (ExecutionContext.init nodes
        (TopologicalSort.getExecutionOrder (TopologicalSort.sort nodes
          edges)))).1.getAllOutputs.foldl
      (fun acc p => if p.2.error.isNone then JSMap.set acc p.1 p.2.data else acc)
      [])], ?_, hsub, hsnap2, Or.inl ⟨_, rfl⟩⟩
    rw [GraphExecutor.execute_valid_ok getHandler now abortDuring nodes edges hv
      h1, h2]
  · refine ⟨steps, [Event.nodeExecute x, Event.nodeError x e, Event.error e], ?_,
      hsub, hsnap2, Or.inr ⟨x, e, rfl, h3⟩⟩
    rw [GraphExecutor.execute_valid_err getHandler now abortDuring nodes edges e
      hv h1, h2, List.append_assoc]
    rfl

/--
C6 witness: chain `a → b` with no registered handlers: the run passes
validation; its trace has the per-node-triple decomposition with ids in
execution order, cumulative progress snapshots, and a `complete` tail.
-/
theorem claim_C6_witness :
    (GraphValidator.validate
        [{ id := "a", type := some "t" }, { id := "b", type := some "t" }]
        [{ id := "e1", source := "a", target := "b" }]).valid = true ∧
    (∃ (steps : List (String × Value × ExecutionProgress)) (tail : List Event),
      (GraphExecutor.execute (fun _ => none) 0 (fun _ => false)
          [{ id := "a", type := some "t" }, { id := "b", type := some "t" }]
          [{ id := "e1", source := "a", target := "b" }]).trace =
        steps.bind GraphExecutor.tripleEvents ++ tail ∧
      (steps.map (·.1)).Sublist
        (TopologicalSort.getExecutionOrder (TopologicalSort.sort
          [{ id := "a", type := some "t" }, { id := "b", type := some "t" }]
          [{ id := "e1", source := "a", target := "b" }])) ∧
      (∀ j st, steps.get? j = some st →
        st.2.2.currentNodeId = st.1 ∧
        st.2.2.completed = (steps.take (j + 1)).map (·.1) ∧
        st.2.2.failed = [] ∧
        st.2.2.totalNodes =
          ([{ id := "a", type := some "t" },
            { id := "b", type := some "t" }] : List Node).length) ∧
      ((∃ outs, tail = [Event.complete outs]) ∨
       (∃ x e, tail = [Event.nodeExecute x, Event.nodeError x e,
          Event.error e] ∧
         (steps.map (·.1) ++ [x]).Sublist
           (TopologicalSort.getExecutionOrder (TopologicalSort.sort
             [{ id := "a", type := some "t" }, { id := "b", type := some "t" }]
             [{ id := "e1", source := "a", target := "b" }]))))) :=
  ⟨by decide,
    claim_C6 (fun _ => none) 0 (fun _ => false)
      [{ id := "a", type := some "t" }, { id := "b", type := some "t" }]
      [{ id := "e1", source := "a", target := "b" }] (by decide)⟩

/--
C6 counterexample to the claim as stated: a single node whose handler fails
fires `onNodeExecute` once but `onProgress` never — the executor does not
emit progress after a failed node.
-/
theorem claim_C6_counterexample :
    (GraphExecutor.execute (fun _ => some (fun _ _ _ => Except.error "boom")) 0
        (fun _ => false) [{ id := "a", type := some "t" }] []).trace.countP
      Event.isNodeExecute = 1 ∧
    (GraphExecutor.execute (fun _ => some (fun _ _ _ => Except.error "boom")) 0
        (fun _ => false) [{ id := "a", type := some "t" }] []).trace.countP
      Event.isProgress = 0 := by
  exact ⟨rfl, rfl⟩

/-! ## Correctness of `detectCycles` (for C8) -/

/-- Consecutive entries of the list are connected by edges of the graph. -/
def edgeChain (edges : List EdgeT) : List String → Prop
  | [] => True
  | [_] => True
  | a :: b :: rest =>
      (∃ e ∈ edges, e.source = a ∧ e.target = b) ∧ edgeChain edges (b :: rest)

theorem edgeChain_snoc (edges : List EdgeT) :
    ∀ (p : List String) (x y : String), edgeChain edges p →
      p.getLast? = some y → (∃ e ∈ edges, e.source = y ∧ e.target = x) →
      edgeChain edges (p ++ [x]) := by
  intro p
  induction p with
  | nil =>
      intro x y _ hlast _
      cases hlast
  | cons a rest ih =>
      intro x y hc hlast hedge
      cases rest with
      | nil =>
          have hy : a = y := by
            simpa using hlast
          subst hy
          exact ⟨hedge, trivial⟩
      | cons b rest2 =>
          have hlast2 : (b :: rest2).getLast? = some y := by
            rw [← List.getLast?_cons_cons]
            exact hlast
          exact ⟨hc.1, ih x y hc.2 hlast2 hedge⟩

/-- Along a finishing order in which every edge strictly decreases the index,
a walk of length `k` decreases the index by at least `k`. -/
theorem fin_walk (edges : List EdgeT) (fin : List String)
    (hord : ∀ f ∈ fin, ∀ e ∈ edges, e.source = f →
      e.target ∈ fin ∧ fin.indexOf e.target < fin.indexOf f) :
    ∀ (k : Nat) (a b : String), walkN edges k a b → a ∈ fin →
      b ∈ fin ∧ fin.indexOf b + k ≤ fin.indexOf a := by
  intro k
  induction k with
  | zero =>
      intro a b hab ha
      cases hab
      exact ⟨ha, by omega⟩
  | succ k ih =>
      rintro a b ⟨e, he, hsrc, hw⟩ ha
      obtain ⟨ht, hlt⟩ := hord a ha e he hsrc
      obtain ⟨hb, hidx⟩ := ih e.target b hw ht
      exact ⟨hb, by omega⟩

namespace GraphValidator

/-- Every id the DFS can ever visit: node ids and edge targets. -/
def uList (graph : Graph) : List String :=
  graph.nodes.map (·.id) ++ graph.edges.map (·.target)

/-- The number of distinct visitable ids not yet visited (the DFS recursion
measure). -/
def cntUnvis (graph : Graph) (vis : List String) : Nat :=
  ((uList graph).dedup.filter (fun x => decide (x ∉ vis))).length

/-- The DFS invariant relating a state to a ghost finishing order `fin`:
the recursion stack is visited, visited splits into finished and stacked,
finished nodes are off the stack, the finishing order is duplicate-free,
every edge out of a finished node leads to an earlier-finished node, and the
recursion stack equals the reported path. -/
structure DfsInv (graph : Graph) (s : DfsState) (fin : List String) : Prop where
  stackSub : ∀ x ∈ s.stack, x ∈ s.visited
  visEq : ∀ x, x ∈ s.visited ↔ (x ∈ fin ∨ x ∈ s.stack)
  finStack : ∀ x ∈ fin, x ∉ s.stack
  finNodup : fin.Nodup
  finOrd : ∀ f ∈ fin, ∀ e ∈ graph.edges, e.source = f →
    e.target ∈ fin ∧ fin.indexOf e.target < fin.indexOf f
  stackPath : s.stack = s.path

theorem addSet_of_not_mem (l : List String) (x : String) (h : x ∉ l) :
    addSet l x = l ++ [x] := by
  simp [addSet, h]

theorem delSet_of_not_mem (l : List String) (x : String) (h : x ∉ l) :
    delSet l x = l := by
  rw [delSet, List.filter_eq_self]
  intro a ha
  simp only [Bool.not_eq_true', beq_eq_false_iff_ne, ne_eq]
  rintro rfl
  exact h ha

theorem delSet_concat_self (l : List String) (x : String) (h : x ∉ l) :
    delSet (l ++ [x]) x = l := by
  rw [delSet, List.filter_append]
  rw [show List.filter (fun y => !(y == x)) [x] = [] by simp]
  rw [List.append_nil]
  rw [← delSet, delSet_of_not_mem l x h]

theorem cntUnvis_push (graph : Graph) (vis : List String) (u : String)
    (hu : u ∈ uList graph) (hnv : u ∉ vis) :
    cntUnvis graph (vis ++ [u]) + 1 ≤ cntUnvis graph vis := by
  have hnd : (uList graph).dedup.Nodup := List.nodup_dedup _
  have hfil : (uList graph).dedup.filter (fun x => decide (x ∉ vis ++ [u])) =
      ((uList graph).dedup.filter (fun x => decide (x ∉ vis))).filter
        (fun x => x != u) := by
    rw [List.filter_filter]
    apply List.filter_congr
    intro x _
    by_cases h1 : x = u
    · subst h1
      simp
    · by_cases h2 : x ∈ vis
      · simp [h1, h2]
      · simp [h1, h2]
  have hmem : u ∈ (uList graph).dedup.filter (fun x => decide (x ∉ vis)) := by
    rw [List.mem_filter]
    exact ⟨List.mem_dedup.mpr hu, by simpa using hnv⟩
  have hnd2 : ((uList graph).dedup.filter (fun x => decide (x ∉ vis))).Nodup :=
    hnd.filter _
  have herase : ((uList graph).dedup.filter (fun x => decide (x ∉ vis))).filter
      (fun x => x != u) =
      ((uList graph).dedup.filter (fun x => decide (x ∉ vis))).erase u :=
    (hnd2.erase_eq_filter u).symm
  have hpos : 0 < ((uList graph).dedup.filter
      (fun x => decide (x ∉ vis))).length := List.length_pos_of_mem hmem
  rw [cntUnvis, cntUnvis, hfil, herase, List.length_erase_of_mem hmem]
  omega

theorem cntUnvis_mono (graph : Graph) (v v' : List String)
    (h : ∀ x ∈ v, x ∈ v') :
    cntUnvis graph v' ≤ cntUnvis graph v := by
  rw [cntUnvis, cntUnvis, ← List.countP_eq_length_filter,
    ← List.countP_eq_length_filter]
  apply List.countP_mono_left
  intro a _ ha
  simp only [decide_eq_true_eq] at ha ⊢
  exact fun hmem => ha (h a hmem)

theorem cntUnvis_lt_dfsFuel (graph : Graph) (vis : List String) :
    cntUnvis graph vis < dfsFuel graph := by
  have h1 : cntUnvis graph vis ≤ (uList graph).dedup.length :=
    List.length_filter_le _ _
  have h2 : (uList graph).dedup.length ≤ (uList graph).length :=
    (List.dedup_sublist _).length_le
  have h3 : dfsFuel graph = (uList graph).length + 1 := rfl
  omega

theorem goEdges_nil (rec : String → DfsState → Bool × DfsState) (s : DfsState) :
    goEdges rec [] s = (false, s) := rfl

theorem goEdges_cons (rec : String → DfsState → Bool × DfsState) (e : EdgeT)
    (rest : List EdgeT) (s : DfsState) :
    goEdges rec (e :: rest) s =
      if e.target ∈ s.visited then
        if e.target ∈ s.stack then (true, { s with path := s.path ++ [e.target] })
        else goEdges rec rest s
      else
        if (rec e.target s).1 then rec e.target s
        else goEdges rec rest (rec e.target s).2 := rfl

theorem dfs_succ (graph : Graph) (fuel : Nat) (u : String) (s : DfsState) :
    dfs graph (fuel + 1) u s =
      (if (goEdges (dfs graph fuel) (graph.edges.filter (fun e => e.source == u))
            { visited := addSet s.visited u, stack := addSet s.stack u,
              path := s.path ++ [u] }).1 then
        goEdges (dfs graph fuel) (graph.edges.filter (fun e => e.source == u))
          { visited := addSet s.visited u, stack := addSet s.stack u,
            path := s.path ++ [u] }
      else
        (false,
          { visited := (goEdges (dfs graph fuel)
              (graph.edges.filter (fun e => e.source == u))
              { visited := addSet s.visited u, stack := addSet s.stack u,
                path := s.path ++ [u] }).2.visited,
            stack := delSet ((goEdges (dfs graph fuel)
              (graph.edges.filter (fun e => e.source == u))
              { visited := addSet s.visited u, stack := addSet s.stack u,
                path := s.path ++ [u] }).2.stack) u,
            path := ((goEdges (dfs graph fuel)
              (graph.edges.filter (fun e => e.source == u))
              { visited := addSet s.visited u, stack := addSet s.stack u,
                path := s.path ++ [u] }).2.path).dropLast })) := rfl

theorem detectLoop_nil (graph : Graph) (fuel : Nat) (s : DfsState) :
    detectLoop graph fuel [] s = none := rfl

theorem detectLoop_cons (graph : Graph) (fuel : Nat) (n : Node)
    (rest : List Node) (s : DfsState) :
    detectLoop graph fuel (n :: rest) s =
      if n.id ∈ s.visited then detectLoop graph fuel rest s
      else
        (if (dfs graph fuel n.id s).1 then some (dfs graph fuel n.id s).2.path
         else detectLoop graph fuel rest (dfs graph fuel n.id s).2) := rfl

/-- The inner edge loop of `dfs`, specified relative to a specification of the
recursive call (`hrec`): on a `false` result the stack and path are restored,
the finishing order extends, visiting only grows, and every scanned edge
target ends up finished; on a `true` result the reported path is a nonempty
edge chain whose last id reoccurs earlier in it. -/
theorem goEdges_spec (graph : Graph) (fuel : Nat)
    (hrec : ∀ (u : String) (s : DfsState) (fin : List String),
      DfsInv graph s fin → u ∉ s.visited → u ∈ uList graph →
      cntUnvis graph s.visited < fuel →
      edgeChain graph.edges (s.path ++ [u]) →
      ((dfs graph fuel u s).1 = false →
        ∃ fin', DfsInv graph (dfs graph fuel u s).2 fin' ∧
          (∃ fs, fin' = fin ++ fs) ∧ u ∈ fin' ∧
          (dfs graph fuel u s).2.stack = s.stack ∧
          (dfs graph fuel u s).2.path = s.path ∧
          (∀ x ∈ s.visited, x ∈ (dfs graph fuel u s).2.visited) ∧
          cntUnvis graph (dfs graph fuel u s).2.visited ≤
            cntUnvis graph s.visited) ∧
      ((dfs graph fuel u s).1 = true →
        (dfs graph fuel u s).2.path ≠ [] ∧
        edgeChain graph.edges (dfs graph fuel u s).2.path ∧
        ∃ t, (dfs graph fuel u s).2.path.getLast? = some t ∧
          t ∈ (dfs graph fuel u s).2.path.dropLast)) :
    ∀ (es : List EdgeT) (nodeId : String) (s : DfsState) (fin : List String),
      (∀ e ∈ es, e ∈ graph.edges ∧ e.source = nodeId) →
      DfsInv graph s fin →
      s.path.getLast? = some nodeId →
      edgeChain graph.edges s.path →
      cntUnvis graph s.visited < fuel →
      (((goEdges (dfs graph fuel) es s).1 = false →
        ∃ fin', DfsInv graph (goEdges (dfs graph fuel) es s).2 fin' ∧
          (∃ fs, fin' = fin ++ fs) ∧
          (goEdges (dfs graph fuel) es s).2.stack = s.stack ∧
          (goEdges (dfs graph fuel) es s).2.path = s.path ∧
          (∀ x ∈ s.visited, x ∈ (goEdges (dfs graph fuel) es s).2.visited) ∧
          cntUnvis graph (goEdges (dfs graph fuel) es s).2.visited ≤
            cntUnvis graph s.visited ∧
          (∀ e ∈ es, e.target ∈ fin')) ∧
      ((goEdges (dfs graph fuel) es s).1 = true →
        (goEdges (dfs graph fuel) es s).2.path ≠ [] ∧
        edgeChain graph.edges (goEdges (dfs graph fuel) es s).2.path ∧
        ∃ t, (goEdges (dfs graph fuel) es s).2.path.getLast? = some t ∧
          t ∈ (goEdges (dfs graph fuel) es s).2.path.dropLast)) := by
  intro es
  induction es with
  | nil =>
      intro nodeId s fin _ hinv _ _ _
      constructor
      · intro _
        refine ⟨fin, hinv, ⟨[], (List.append_nil fin).symm⟩, rfl, rfl,
          fun x hx => hx, le_refl _, ?_⟩
        intro e he
        cases he
      · intro htrue
        rw [goEdges_nil] at htrue
        cases htrue
  | cons e rest ih =>
      intro nodeId s fin hes hinv hlast hchain hcnt
      have hein := hes e (List.mem_cons_self _ _)
      have hrest : ∀ e2 ∈ rest, e2 ∈ graph.edges ∧ e2.source = nodeId :=
        fun e2 h2 => hes e2 (List.mem_cons_of_mem _ h2)
      rw [goEdges_cons]
      by_cases hvis : e.target ∈ s.visited
      · rw [if_pos hvis]
        by_cases hstk : e.target ∈ s.stack
        · rw [if_pos hstk]
          constructor
          · intro hres
            simp at hres
          · intro _
            refine ⟨?_, ?_, e.target, ?_, ?_⟩
            · show s.path ++ [e.target] ≠ []
              simp
            · show edgeChain graph.edges (s.path ++ [e.target])
              exact edgeChain_snoc graph.edges s.path e.target nodeId hchain hlast
                ⟨e, hein.1, hein.2, rfl⟩
            · show (s.path ++ [e.target]).getLast? = some e.target
              exact List.getLast?_concat _
            · show e.target ∈ (s.path ++ [e.target]).dropLast
              rw [List.dropLast_concat]
              rw [← hinv.stackPath]
              exact hstk
        · rw [if_neg hstk]
          have hih := ih nodeId s fin hrest hinv hlast hchain hcnt
          constructor
          · intro hres
            obtain ⟨fin', hinv', hext, hstk', hpath', hmon, hcnt', htargets⟩ :=
              hih.1 hres
            refine ⟨fin', hinv', hext, hstk', hpath', hmon, hcnt', ?_⟩
            intro e2 he2
            rcases List.mem_cons.mp he2 with heq | hm
            · subst heq
              rcases (hinv.visEq e2.target).mp hvis with hf | hs2
              · obtain ⟨fs, hfs⟩ := hext
                rw [hfs]
                exact List.mem_append_left _ hf
              · exact absurd hs2 hstk
            · exact htargets e2 hm
          · exact hih.2
      · rw [if_neg hvis]
        have htmem : e.target ∈ uList graph :=
          List.mem_append_right _ (List.mem_map_of_mem _ hein.1)
        have hchain2 : edgeChain graph.edges (s.path ++ [e.target]) :=
          edgeChain_snoc graph.edges s.path e.target nodeId hchain hlast
            ⟨e, hein.1, hein.2, rfl⟩
        have hdfs := hrec e.target s fin hinv hvis htmem hcnt hchain2
        by_cases hr1 : (dfs graph fuel e.target s).1 = true
        · rw [if_pos hr1]
          constructor
          · intro hres
            rw [hres] at hr1
            cases hr1
          · intro _
            exact hdfs.2 hr1
        · have hr1f : (dfs graph fuel e.target s).1 = false := by
            cases h : (dfs graph fuel e.target s).1
            · rfl
            · exact absurd h hr1
          rw [if_neg hr1]
          obtain ⟨fin₁, hinv₁, ⟨fs₁, hfs₁⟩, htin, hstk₁, hpath₁, hmon₁, hcnt₁⟩ :=
            hdfs.1 hr1f
          have hlast₁ : (dfs graph fuel e.target s).2.path.getLast? =
              some nodeId := by
            rw [hpath₁]
            exact hlast
          have hchain₁ : edgeChain graph.edges
              (dfs graph fuel e.target s).2.path := by
            rw [hpath₁]
            exact hchain
          have hcnt₂ : cntUnvis graph (dfs graph fuel e.target s).2.visited <
              fuel := lt_of_le_of_lt hcnt₁ hcnt
          have hih := ih nodeId (dfs graph fuel e.target s).2 fin₁ hrest hinv₁
            hlast₁ hchain₁ hcnt₂
          constructor
          · intro hres
            obtain ⟨fin₂, hinv₂, ⟨fs₂, hfs₂⟩, hstk₂, hpath₂, hmon₂, hcnt₃, htg⟩ :=
              hih.1 hres
            refine ⟨fin₂, hinv₂,
              ⟨fs₁ ++ fs₂, by rw [hfs₂, hfs₁, List.append_assoc]⟩, ?_, ?_, ?_,
              ?_, ?_⟩
            · rw [hstk₂, hstk₁]
            · rw [hpath₂, hpath₁]
            · intro x hx
              exact hmon₂ x (hmon₁ x hx)
            · exact le_trans hcnt₃ hcnt₁
            · intro e2 he2
              rcases List.mem_cons.mp he2 with heq | hm
              · subst heq
                rw [hfs₂]
                exact List.mem_append_left _ htin
              · exact htg e2 hm
          · exact hih.2

/-- The recursive `dfs` call: on a `false` result the node and its whole
reachable region get finished, the stack and the path are restored; on a
`true` result the reported path is a nonempty edge chain whose last id
reoccurs earlier in it. -/
theorem dfs_spec (graph : Graph) :
    ∀ (fuel : Nat) (u : String) (s : DfsState) (fin : List String),
      DfsInv graph s fin → u ∉ s.visited → u ∈ uList graph →
      cntUnvis graph s.visited < fuel →
      edgeChain graph.edges (s.path ++ [u]) →
      ((dfs graph fuel u s).1 = false →
        ∃ fin', DfsInv graph (dfs graph fuel u s).2 fin' ∧
          (∃ fs, fin' = fin ++ fs) ∧ u ∈ fin' ∧
          (dfs graph fuel u s).2.stack = s.stack ∧
          (dfs graph fuel u s).2.path = s.path ∧
          (∀ x ∈ s.visited, x ∈ (dfs graph fuel u s).2.visited) ∧
          cntUnvis graph (dfs graph fuel u s).2.visited ≤
            cntUnvis graph s.visited) ∧
      ((dfs graph fuel u s).1 = true →
        (dfs graph fuel u s).2.path ≠ [] ∧
        edgeChain graph.edges (dfs graph fuel u s).2.path ∧
        ∃ t, (dfs graph fuel u s).2.path.getLast? = some t ∧
          t ∈ (dfs graph fuel u s).2.path.dropLast) := by
  intro fuel
  induction fuel with
  | zero =>
      intro u s fin _ _ _ hcnt _
      exact absurd hcnt (Nat.not_lt_zero _)
  | succ fuel ihf =>
      intro u s fin hinv hnv huL hcnt hchain
      have hustk : u ∉ s.stack := fun h => hnv (hinv.stackSub u h)
      have hvadd : addSet s.visited u = s.visited ++ [u] :=
        addSet_of_not_mem _ _ hnv
      have hsadd : addSet s.stack u = s.stack ++ [u] :=
        addSet_of_not_mem _ _ hustk
      have hinv1 : DfsInv graph
          { visited := s.visited ++ [u], stack := s.stack ++ [u],
            path := s.path ++ [u] } fin := by
        refine ⟨?_, ?_, ?_, hinv.finNodup, hinv.finOrd, ?_⟩
        · intro x hx
          rcases List.mem_append.mp hx with h | h
          · exact List.mem_append_left _ (hinv.stackSub x h)
          · exact List.mem_append_right _ h
        · intro x
          have h0 := hinv.visEq x
          simp only [List.mem_append, List.mem_singleton]
          rw [h0]
          tauto
        · intro x hx
          intro hmem
          rcases List.mem_append.mp hmem with h | h
          · exact hinv.finStack x hx h
          · rw [List.mem_singleton] at h
            subst h
            exact hnv ((hinv.visEq x).mpr (Or.inl hx))
        · show s.stack ++ [u] = s.path ++ [u]
          rw [hinv.stackPath]
      have hes : ∀ e ∈ graph.edges.filter (fun e => e.source == u),
          e ∈ graph.edges ∧ e.source = u := by
        intro e he
        have h := List.mem_filter.mp he
        exact ⟨h.1, by simpa using h.2⟩
      have hcnt1 : cntUnvis graph (s.visited ++ [u]) < fuel := by
        have := cntUnvis_push graph s.visited u huL hnv
        omega
      have hgo := goEdges_spec graph fuel ihf
        (graph.edges.filter (fun e => e.source == u)) u
        { visited := s.visited ++ [u], stack := s.stack ++ [u],
          path := s.path ++ [u] } fin hes hinv1
        (List.getLast?_concat _) hchain hcnt1
      by_cases hres1 : (goEdges (dfs graph fuel)
          (graph.edges.filter (fun e => e.source == u))
          { visited := s.visited ++ [u], stack := s.stack ++ [u],
            path := s.path ++ [u] }).1 = true
      · have hD : dfs graph (fuel + 1) u s =
            goEdges (dfs graph fuel) (graph.edges.filter (fun e => e.source == u))
              { visited := s.visited ++ [u], stack := s.stack ++ [u],
                path := s.path ++ [u] } := by
          rw [dfs_succ, hvadd, hsadd, if_pos hres1]
        rw [hD]
        constructor
        · intro hres
          rw [hres] at hres1
          cases hres1
        · intro _
          exact hgo.2 hres1
      · have hres1f : (goEdges (dfs graph fuel)
            (graph.edges.filter (fun e => e.source == u))
            { visited := s.visited ++ [u], stack := s.stack ++ [u],
              path := s.path ++ [u] }).1 = false := by
          cases h : (goEdges (dfs graph fuel)
              (graph.edges.filter (fun e => e.source == u))
              { visited := s.visited ++ [u], stack := s.stack ++ [u],
                path := s.path ++ [u] }).1
          · rfl
          · exact absurd h hres1
        obtain ⟨fin', hinv', ⟨fs, hfs⟩, hstk', hpath', hmon', hcnt', htg⟩ :=
          hgo.1 hres1f
        have hstk'2 : (goEdges (dfs graph fuel)
            (graph.edges.filter (fun e => e.source == u))
            { visited := s.visited ++ [u], stack := s.stack ++ [u],
              path := s.path ++ [u] }).2.stack = s.stack ++ [u] := hstk'
        have hpath'2 : (goEdges (dfs graph fuel)
            (graph.edges.filter (fun e => e.source == u))
            { visited := s.visited ++ [u], stack := s.stack ++ [u],
              path := s.path ++ [u] }).2.path = s.path ++ [u] := hpath'
        have hD : dfs graph (fuel + 1) u s =
            (false,
              { visited := (goEdges (dfs graph fuel)
                  (graph.edges.filter (fun e => e.source == u))
                  { visited := s.visited ++ [u], stack := s.stack ++ [u],
                    path := s.path ++ [u] }).2.visited,
                stack := s.stack, path := s.path }) := by
          rw [dfs_succ, hvadd, hsadd, if_neg hres1, hstk'2,
            delSet_concat_self _ _ hustk, hpath'2, List.dropLast_concat]
        rw [hD]
        have hufin : u ∉ fin' := by
          intro hf
          apply hinv'.finStack u hf
          rw [hstk'2]
          exact List.mem_append_right _ (List.mem_singleton.mpr rfl)
        have hnd'' : (fin' ++ [u]).Nodup := by
          simp [List.nodup_append, hinv'.finNodup, hufin]
        constructor
        · intro _
          refine ⟨fin' ++ [u], ?_, ⟨fs ++ [u], by rw [hfs, List.append_assoc]⟩,
            List.mem_append_right _ (List.mem_singleton.mpr rfl), rfl, rfl,
            ?_, ?_⟩
          · -- the invariant for the popped state
            refine ⟨?_, ?_, ?_, hnd'', ?_, ?_⟩
            · intro x hx
              have hx2 : x ∈ s.stack := hx
              have : x ∈ s.visited ++ [u] :=
                List.mem_append_left _ (hinv.stackSub x hx2)
              exact hmon' x this
            · intro x
              have hO := hinv'.visEq x
              rw [hstk'2] at hO
              show x ∈ (goEdges (dfs graph fuel)
                (graph.edges.filter (fun e => e.source == u))
                { visited := s.visited ++ [u], stack := s.stack ++ [u],
                  path := s.path ++ [u] }).2.visited ↔
                x ∈ fin' ++ [u] ∨ x ∈ s.stack
              rw [hO]
              simp only [List.mem_append, List.mem_singleton]
              tauto
            · intro x hx
              show x ∉ s.stack
              rcases List.mem_append.mp hx with h | h
              · intro hmem
                apply hinv'.finStack x h
                rw [hstk'2]
                exact List.mem_append_left _ hmem
              · rw [List.mem_singleton] at h
                subst h
                exact hustk
            · intro f hf e he hsrc
              rcases List.mem_append.mp hf with hold | hu
              · obtain ⟨ht, hlt⟩ := hinv'.finOrd f hold e he hsrc
                refine ⟨List.mem_append_left _ ht, ?_⟩
                rw [List.indexOf_append_of_mem ht, List.indexOf_append_of_mem hold]
                exact hlt
              · rw [List.mem_singleton] at hu
                subst hu
                have hef : e ∈ graph.edges.filter (fun e2 => e2.source == f) := by
                  rw [List.mem_filter]
                  exact ⟨he, by simp [hsrc]⟩
                have htgt : e.target ∈ fin' := htg e hef
                refine ⟨List.mem_append_left _ htgt, ?_⟩
                have hidxt : (fin' ++ [f]).indexOf e.target =
                    fin'.indexOf e.target := List.indexOf_append_of_mem htgt
                have hidxu : (fin' ++ [f]).indexOf f = fin'.length :=
                  TopologicalSort.nodup_indexOf_of_get? (fin' ++ [f]) hnd''
                    fin'.length f (List.get?_concat_length _ _)
                have hlt2 : fin'.indexOf e.target < fin'.length :=
                  List.indexOf_lt_length.mpr htgt
                omega
            · show s.stack = s.path
              exact hinv.stackPath
          · intro x hx
            exact hmon' x (List.mem_append_left _ hx)
          · show cntUnvis graph (goEdges (dfs graph fuel)
                (graph.edges.filter (fun e => e.source == u))
                { visited := s.visited ++ [u], stack := s.stack ++ [u],
                  path := s.path ++ [u] }).2.visited ≤
              cntUnvis graph s.visited
            have h1 := cntUnvis_push graph s.visited u huL hnv
            have h2 : cntUnvis graph (goEdges (dfs graph fuel)
                (graph.edges.filter (fun e => e.source == u))
                { visited := s.visited ++ [u], stack := s.stack ++ [u],
                  path := s.path ++ [u] }).2.visited ≤
                cntUnvis graph (s.visited ++ [u]) := hcnt'
            omega
        · intro hres
          cases hres

/-- The node loop of `detectCycles`: a reported path is a nonempty edge chain
whose last id reoccurs earlier in it; if no cycle is reported, every listed
node is finished in an order along which every edge strictly decreases. -/
theorem detectLoop_spec (graph : Graph) :
    ∀ (ns : List Node) (s : DfsState) (fin : List String),
      DfsInv graph s fin →
      s.stack = [] →
      (∀ n ∈ ns, n ∈ graph.nodes) →
      (match detectLoop graph (dfsFuel graph) ns s with
       | some p => p ≠ [] ∧ edgeChain graph.edges p ∧
           ∃ t, p.getLast? = some t ∧ t ∈ p.dropLast
       | none => ∃ fin', (∃ fs, fin' = fin ++ fs) ∧
           (∀ n ∈ ns, n.id ∈ fin') ∧
           (∀ f ∈ fin', ∀ e ∈ graph.edges, e.source = f →
             e.target ∈ fin' ∧ fin'.indexOf e.target < fin'.indexOf f)) := by
  intro ns
  induction ns with
  | nil =>
      intro s fin hinv _ _
      rw [detectLoop_nil]
      exact ⟨fin, ⟨[], (List.append_nil fin).symm⟩,
        fun n hn => absurd hn (List.not_mem_nil n), hinv.finOrd⟩
  | cons n rest ih =>
      intro s fin hinv hstack hns
      have hnrest : ∀ m ∈ rest, m ∈ graph.nodes :=
        fun m hm => hns m (List.mem_cons_of_mem _ hm)
      rw [detectLoop_cons]
      by_cases hvis : n.id ∈ s.visited
      · rw [if_pos hvis]
        have hres := ih s fin hinv hstack hnrest
        cases hdl : detectLoop graph (dfsFuel graph) rest s with
        | some p =>
            rw [hdl] at hres
            exact hres
        | none =>
            rw [hdl] at hres
            obtain ⟨fin', hext, hmem, hord⟩ := hres
            refine ⟨fin', hext, ?_, hord⟩
            intro m hm
            rcases List.mem_cons.mp hm with heq | hm2
            · subst heq
              rcases (hinv.visEq m.id).mp hvis with hf | hs
              · obtain ⟨fs, hfs⟩ := hext
                rw [hfs]
                exact List.mem_append_left _ hf
              · rw [hstack] at hs
                cases hs
            · exact hmem m hm2
      · rw [if_neg hvis]
        have huL : n.id ∈ uList graph :=
          List.mem_append_left _
            (List.mem_map_of_mem _ (hns n (List.mem_cons_self _ _)))
        have hchain : edgeChain graph.edges (s.path ++ [n.id]) := by
          have hp : s.path = [] := by
            rw [← hinv.stackPath, hstack]
          rw [hp]
          exact trivial
        have hdfs := dfs_spec graph (dfsFuel graph) n.id s fin hinv hvis huL
          (cntUnvis_lt_dfsFuel graph s.visited) hchain
        by_cases hr1 : (dfs graph (dfsFuel graph) n.id s).1 = true
        · rw [if_pos hr1]
          exact hdfs.2 hr1
        · have hr1f : (dfs graph (dfsFuel graph) n.id s).1 = false := by
            cases h : (dfs graph (dfsFuel graph) n.id s).1
            · rfl
            · exact absurd h hr1
          rw [if_neg hr1]
          obtain ⟨fin₁, hinv₁, ⟨fs₁, hfs₁⟩, hnin, hstk₁, _, _, _⟩ :=
            hdfs.1 hr1f
          have hstack₁ : (dfs graph (dfsFuel graph) n.id s).2.stack = [] := by
            rw [hstk₁, hstack]
          have hres := ih (dfs graph (dfsFuel graph) n.id s).2 fin₁ hinv₁
            hstack₁ hnrest
          cases hdl : detectLoop graph (dfsFuel graph) rest
              (dfs graph (dfsFuel graph) n.id s).2 with
          | some p =>
              rw [hdl] at hres
              exact hres
          | none =>
              rw [hdl] at hres
              obtain ⟨fin', ⟨fs₂, hfs₂⟩, hmem, hord⟩ := hres
              refine ⟨fin',
                ⟨fs₁ ++ fs₂, by rw [hfs₂, hfs₁, List.append_assoc]⟩, ?_, hord⟩
              intro m hm
              rcases List.mem_cons.mp hm with heq | hm2
              · subst heq
                rw [hfs₂]
                exact List.mem_append_left _ hnin
              · exact hmem m hm2

end GraphValidator

/--
C8 (amended): For every graph containing a directed cycle through one of its
nodes, `validateGraph` returns `valid = false` carrying a
`GRAPH_CYCLE_DETECTED` error whose reported path is a nonempty chain of
edge-connected ids in which the last id occurs again earlier — the suffix of
the path starting at that earlier occurrence is a genuine cycle. (The path's
*first* id need not equal its last: the DFS reports its whole search path,
including the lead-in to the cycle.)
-/
theorem claim_C8 (graph : Graph)
    (hcyc : ∃ v k, v ∈ graph.nodes.map (·.id) ∧ 0 < k ∧
      walkN graph.edges k v v) :
    (GraphValidator.validateGraph graph).valid = false ∧
    ∃ p, ({ message := "Graph contains cycles", code := "GRAPH_CYCLE_DETECTED",
            details := .dCycle (some p) } : ValidationError) ∈
          (GraphValidator.validateGraph graph).errors ∧
      p ≠ [] ∧ edgeChain graph.edges p ∧
      ∃ t, p.getLast? = some t ∧ t ∈ p.dropLast := by
  obtain ⟨v, k, hv, hk, hw⟩ := hcyc
  have hne : ¬graph.nodes.length = 0 := by
    intro h0
    rw [List.length_eq_zero] at h0
    rw [h0] at hv
    cases hv
  have hinv0 : GraphValidator.DfsInv graph
      { visited := [], stack := [], path := [] } [] := by
    refine ⟨?_, ?_, ?_, List.nodup_nil, ?_, rfl⟩
    · intro x hx
      cases hx
    · intro x
      constructor
      · intro hx
        cases hx
      · rintro (hx | hx) <;> cases hx
    · intro x hx
      cases hx
    · intro f hf
      cases hf
  have hspec := GraphValidator.detectLoop_spec graph graph.nodes
    { visited := [], stack := [], path := [] } [] hinv0 rfl (fun n hn => hn)
  cases hdl : GraphValidator.detectLoop graph (GraphValidator.dfsFuel graph)
      graph.nodes { visited := [], stack := [], path := [] } with
  | none =>
      exfalso
      rw [hdl] at hspec
      obtain ⟨fin', _, hmem, hord⟩ := hspec
      obtain ⟨n, hn, hid⟩ := List.mem_map.mp hv
      have hvf : v ∈ fin' := by
        rw [← hid]
        exact hmem n hn
      have := fin_walk graph.edges fin' hord k v v hw hvf
      omega
  | some p =>
      rw [hdl] at hspec
      obtain ⟨hne2, hchain, t, hlast, hdrop⟩ := hspec
      have hdet : GraphValidator.detectCycles graph =
          { hasCycle := true, cycle := some p } := by
        simp only [GraphValidator.detectCycles, hdl]
      constructor
      · simp only [GraphValidator.validateGraph, if_neg hne, hdet]
        simp
      · refine ⟨p, ?_, hne2, hchain, t, hlast, hdrop⟩
        simp only [GraphValidator.validateGraph, if_neg hne, hdet]
        simp

/--
C8 witness: the graph `a → b → a` has a directed cycle through node `a`, so
validation fails with a `GRAPH_CYCLE_DETECTED` error whose carried path is a
nonempty edge chain whose last id reoccurs earlier in it.
-/
theorem claim_C8_witness :
    (∃ v k, v ∈ ([{ id := "a", type := some "t" },
        { id := "b", type := some "t" }] : List Node).map (·.id) ∧ 0 < k ∧
      walkN ([{ id := "e1", source := "a", target := "b" },
        { id := "e2", source := "b", target := "a" }] : List EdgeT) k v v) ∧
    ((GraphValidator.validateGraph
        { nodes := [{ id := "a", type := some "t" },
            { id := "b", type := some "t" }],
          edges := [{ id := "e1", source := "a", target := "b" },
            { id := "e2", source := "b", target := "a" }] }).valid = false ∧
     ∃ p, ({ message := "Graph contains cycles", code := "GRAPH_CYCLE_DETECTED",
             details := .dCycle (some p) } : ValidationError) ∈
           (GraphValidator.validateGraph
             { nodes := [{ id := "a", type := some "t" },
                 { id := "b", type := some "t" }],
               edges := [{ id := "e1", source := "a", target := "b" },
                 { id := "e2", source := "b", target := "a" }] }).errors ∧
       p ≠ [] ∧
       edgeChain [{ id := "e1", source := "a", target := "b" },
         { id := "e2", source := "b", target := "a" }] p ∧
       ∃ t, p.getLast? = some t ∧ t ∈ p.dropLast) :=
  ⟨⟨"a", 2, by decide, by decide⟩,
    claim_C8
      { nodes := [{ id := "a", type := some "t" },
          { id := "b", type := some "t" }],
        edges := [{ id := "e1", source := "a", target := "b" },
          { id := "e2", source := "b", target := "a" }] }
      ⟨"a", 2, by decide, by decide⟩⟩

end NodeFlow
